import Mathlib

/-!
# listen-trade.js: decoder, fixed-point arithmetic and net-flow aggregator

A shallow embedding of the pure parts of `src/listen-trade.js`.

* JavaScript strings are lists of characters (`Str`).  All strings the
  embedded functions inspect character by character are ASCII (hex words,
  decimal numerals), where UTF-16 code units and characters coincide.
* `BigInt` values are `Int`; the engine's limit on the size of a `BigInt` is not
  modelled.
* A JavaScript exception is `none`.
-/

namespace ListenTrade

/-- JavaScript strings. -/
abbrev Str := List Char

/-! ## Configuration constants (lines 10-34) -/

def MAX_BACKOFF : Nat := 30000

def WOKB_ADDR : Str := "0xe538905cf8410324e03a5a23c1c177a474d59b2b".toList

def WOKB_DECIMALS : Nat := 18

/-- `"0x" + "0".repeat(40)`. -/
def ZERO_ADDR : Str := "0x".toList ++ List.replicate 40 '0'

def TOPIC_SWAP_V2 : Str :=
  "0xd78ad95fa46c994b6551d0da85fc275fe613ce37657fb8d5e3d130840159d822".toList

def TOPIC_TRANSFER : Str :=
  "0xddf252ad1be2c89b69c2b068fc378daa952ba7f163c4a11628f55a4df523b3ef".toList

/-! ## String built-ins used by the source -/

/-- `String.prototype.toLowerCase`, on ASCII letters.  Every comparison the
source makes after lower-casing is against a constant made of `0-9a-fx`, and no
non-ASCII character lower-cases to one of those, so the outcome of those
comparisons is the one of the full Unicode mapping. -/
def toLowerCase (s : Str) : Str := s.map Char.toLower

/-- `String.prototype.toUpperCase`, on ASCII letters. -/
def toUpperCase (s : Str) : Str := s.map Char.toUpper

/-- Resolution of a relative index of `slice`: a negative index counts from the
end, and the result is clamped to `0..len`. -/
def sliceIndex (len : Nat) (i : Int) : Nat :=
  if i < 0 then (len + i).toNat else min i.toNat len

/-- `s.slice(start, stop)`. -/
def slice (s : Str) (start stop : Int) : Str :=
  let lo := sliceIndex s.length start
  let hi := sliceIndex s.length stop
  (s.drop lo).take (hi - lo)

/-- `s.slice(start)`. -/
def sliceFrom (s : Str) (start : Int) : Str :=
  s.drop (sliceIndex s.length start)

/-- `s.padStart(n, "0")`. -/
def padStart (n : Nat) (s : Str) : Str :=
  List.replicate (n - s.length) '0' ++ s

/-- `s.replace(/^0x/, "")`. -/
def strip0x : Str → Str
  | '0' :: 'x' :: r => r
  | s => s

/-- `s.replace(/0+$/, "")`. -/
def stripTrailingZeros (s : Str) : Str :=
  (s.reverse.dropWhile (fun c => c == '0')).reverse

/-- `s.includes(sub)`. -/
def includes (s sub : Str) : Bool :=
  s.tails.any (fun t => sub.isPrefixOf t)

/-- Line terminators: the characters the regular-expression `.` does not match. -/
def isLineTerminator (c : Char) : Bool :=
  c.toNat == 0x0A || c.toNat == 0x0D || c.toNat == 0x2028 || c.toNat == 0x2029

/-- White space and line terminators, as trimmed by the string-to-number
conversions. -/
def isWhiteSpace (c : Char) : Bool :=
  isLineTerminator c || c.toNat == 0x09 || c.toNat == 0x0B || c.toNat == 0x0C ||
  c.toNat == 0x20 || c.toNat == 0xA0 || c.toNat == 0x1680 ||
  (0x2000 ≤ c.toNat && c.toNat ≤ 0x200A) || c.toNat == 0x202F || c.toNat == 0x205F ||
  c.toNat == 0x3000 || c.toNat == 0xFEFF

/-- `s.trim()`. -/
def trim (s : Str) : Str :=
  ((s.dropWhile isWhiteSpace).reverse.dropWhile isWhiteSpace).reverse

/-! ## BigInt parsing -/

/-- Value of a digit character in radixes up to 36. -/
def digitValue (c : Char) : Option Nat :=
  let n := c.toNat
  if 48 ≤ n ∧ n ≤ 57 then some (n - 48)
  else if 97 ≤ n ∧ n ≤ 122 then some (n - 87)
  else if 65 ≤ n ∧ n ≤ 90 then some (n - 55)
  else none

/-- Digits of a numeral in the given radix, most significant first, onto an
accumulator; `none` at the first character that is not a digit of the radix. -/
def parseDigits (radix : Nat) : Str → Nat → Option Nat
  | [], acc => some acc
  | c :: cs, acc =>
    match digitValue c with
    | some d => if d < radix then parseDigits radix cs (acc * radix + d) else none
    | none => none

/-- A non-empty numeral in the given radix. -/
def parseNumeral (radix : Nat) (cs : Str) : Option Nat :=
  if cs.isEmpty then none else parseDigits radix cs 0

/-- `BigInt(s)` on a string: white space is trimmed, the empty string is `0n`,
`0x`, `0o`, `0b` introduce an unsigned numeral of that radix, anything else is a
decimal numeral with an optional sign; `none` is the `SyntaxError`. -/
def toBigInt (s : Str) : Option Int :=
  match trim s with
  | [] => some 0
  | '0' :: 'x' :: r => (parseNumeral 16 r).map Int.ofNat
  | '0' :: 'X' :: r => (parseNumeral 16 r).map Int.ofNat
  | '0' :: 'o' :: r => (parseNumeral 8 r).map Int.ofNat
  | '0' :: 'O' :: r => (parseNumeral 8 r).map Int.ofNat
  | '0' :: 'b' :: r => (parseNumeral 2 r).map Int.ofNat
  | '0' :: 'B' :: r => (parseNumeral 2 r).map Int.ofNat
  | '-' :: r => (parseNumeral 10 r).map (fun n => -Int.ofNat n)
  | '+' :: r => (parseNumeral 10 r).map Int.ofNat
  | r => (parseNumeral 10 r).map Int.ofNat

/-! ## Decoder (lines 37-39, 222-231) -/

/-- `pad32 = (addr) => "0x" + addr.replace(/^0x/,"").toLowerCase().padStart(64,"0")`. -/
def pad32 (addr : Str) : Str :=
  "0x".toList ++ padStart 64 (toLowerCase (strip0x addr))

/-- `fromTopicAddr = (t) => "0x" + (t || "").slice(-40)`; an absent topic is the
empty string. -/
def fromTopicAddr (t : Str) : Str :=
  "0x".toList ++ sliceFrom t (-40)

/-- `hexToBig = (h) => (h ? BigInt(h) : 0n)`. -/
def hexToBig (h : Str) : Option Int :=
  if h.isEmpty then some 0 else toBigInt h

/-- One step of the global match of `/.{1,64}/g`: skip the line terminators,
then take up to 64 characters that are not line terminators. -/
def matchWords : Nat → Str → List Str
  | 0, _ => []
  | fuel + 1, s =>
    let t := s.dropWhile isLineTerminator
    if t.isEmpty then []
    else
      let w := (t.takeWhile (fun c => !isLineTerminator c)).take 64
      w :: matchWords fuel (t.drop w.length)

/-- The four amounts of a V2 swap log. -/
structure SwapAmounts where
  amount0In : Int
  amount1In : Int
  amount0Out : Int
  amount1Out : Int
  deriving DecidableEq, Repr

/-- `decodeSwapData(dataHex)`:
`hex = dataHex.replace(/^0x/, "").padStart(256, "0")`,
`words = hex.match(/.{1,64}/g) || []`,
`u = (i) => hexToBig("0x" + (words[i] || "0"))`.
Each match consumes a character, so `hex.length` steps find every word. -/
def decodeSwapData (dataHex : Str) : Option SwapAmounts :=
  let hex := padStart (64 * 4) (strip0x dataHex)
  let words := matchWords hex.length hex
  let u := fun (i : Nat) => hexToBig ("0x".toList ++ words.getD i ['0'])
  match u 0, u 1, u 2, u 3 with
  | some a, some b, some c, some d => some ⟨a, b, c, d⟩
  | _, _, _, _ => none

/-- `decodeTransferValue(dataHex)`:
`hexToBig("0x" + dataHex.replace(/^0x/, "").padStart(64, "0"))`. -/
def decodeTransferValue (dataHex : Str) : Option Int :=
  hexToBig ("0x".toList ++ padStart 64 (strip0x dataHex))

/-! ## Fixed-point arithmetic (lines 269-326) -/

/-- The decimal digit character of a number below ten. -/
def digitChar (n : Nat) : Char := Char.ofNat (48 + n)

/-- Decimal digits of `n`, most significant first; the first argument bounds the
number of digits. -/
def decDigits : Nat → Nat → Str
  | 0, _ => []
  | fuel + 1, n =>
    if n < 10 then [digitChar n] else decDigits fuel (n / 10) ++ [digitChar (n % 10)]

/-- `x.toString()` for a non-negative `BigInt`: `n` has at most `n + 1` digits. -/
def natToString (n : Nat) : Str := decDigits (n + 1) n

/-- `formatUnits(bi, decimals, maxFrac)`, lines 269-291.  `maxFrac` is a
natural number, so the test `maxFrac >= 0` of the source always passes.
`BigInt(cut)` and `BigInt(intPart)` are applied to strings of decimal digits
(`cut` may be empty), on which the conversion cannot raise. -/
def formatUnits (bi : Int) (decimals : Nat) (maxFrac : Nat) : Str :=
  let decimals := max 0 (min 36 decimals)
  let neg := decide (bi < 0)
  let x := bi.natAbs
  let s := padStart (decimals + 1) (natToString x)
  let intPart0 := slice s 0 (-(decimals : Int))
  let intPart := if intPart0.isEmpty then "0".toList else intPart0
  let frac := if decimals ≠ 0 then sliceFrom s (-(decimals : Int)) else []
  let rounded : Str × Str :=
    if frac.isEmpty then (intPart, frac)
    else
      let r : Str × Str :=
        if frac.length > maxFrac then
          let cut := slice frac 0 maxFrac
          let next := (digitValue (frac.getD maxFrac '0')).getD 0
          let rounded := (toBigInt cut).getD 0
          let rounded := if next ≥ 5 then rounded + 1 else rounded
          let frac := padStart maxFrac (natToString rounded.natAbs)
          if frac.length > maxFrac then
            (natToString ((toBigInt intPart).getD 0 + 1).natAbs, sliceFrom frac 1)
          else (intPart, frac)
        else (intPart, frac)
      (r.1, stripTrailingZeros r.2)
  (if neg then "-".toList else []) ++
    (if rounded.2.isEmpty then rounded.1 else rounded.1 ++ ".".toList ++ rounded.2)

/-- `absBI(x)`. -/
def absBI (x : Int) : Int := if x < 0 then -x else x

/-- `decStrFromBI(bi, decimals)`, lines 293-299. -/
def decStrFromBI (bi : Int) (decimals : Nat) : Str :=
  let neg := decide (bi < 0)
  let x := bi.natAbs
  let SCALE := 10 ^ decimals
  let i := x / SCALE
  let f := x % SCALE
  let fs := stripTrailingZeros (padStart decimals (natToString f))
  (if neg then "-".toList else []) ++
    (if fs.isEmpty then natToString i else natToString i ++ ".".toList ++ fs)

/-- `bigDivToDec(num, den, outDecimals)`, lines 300-304; `null` is `none`.
Division of `BigInt`s truncates towards zero. -/
def bigDivToDec (num den : Int) (outDecimals : Nat) : Option Str :=
  if den = 0 then none
  else
    let SCALE : Int := 10 ^ outDecimals
    some (decStrFromBI (Int.tdiv (num * SCALE) den) outDecimals)

/-- `usdtPerTokenByWokb(wokbRaw, tokenRaw, tokenDec, outDecimals)`, lines 313-326,
with the configured price `WOKB_PRICE_6` (micro-USD per WOKB) as first argument.
`Number(outDecimals)||6` turns `0` into `6`. -/
def usdtPerTokenByWokb (WOKB_PRICE_6 : Int) (wokbRaw tokenRaw : Int) (tokenDec : Nat)
    (outDecimals : Nat) : Option Str :=
  let w := wokbRaw
  let t := tokenRaw
  let dec := tokenDec
  if t ≤ 0 then none
  else
    let numer := WOKB_PRICE_6 * w * (10 ^ dec)
    let denom := t * (10 ^ 18) * (10 ^ 6)
    bigDivToDec numer denom (if outDecimals = 0 then 6 else outDecimals)

/-! ## Token metadata (lines 329-349) -/

/-- Symbol and decimals of a token; `decimals` is `Number(BigInt(decHex))`, a
non-negative integer. -/
structure TokenMeta where
  symbol : Str
  decimals : Nat
  deriving DecidableEq, Repr

/-- The value `ensureTokenMeta(token)` resolves to: the constant of line 331 for
the WOKB address, otherwise the entry of the metadata cache for the lower-cased
address (`tokenMeta`, filled from the chain by lines 334-346). -/
def ensureTokenMeta (tokenMeta : Str → TokenMeta) (token : Str) : TokenMeta :=
  let t := toLowerCase token
  if t = WOKB_ADDR then ⟨"WOKB".toList, WOKB_DECIMALS⟩ else tokenMeta t

/-! ## Receipt aggregation (lines 407-581) -/

/-- A log of a receipt: the fields the handler reads.  An absent `address` or
topic is the empty string, an absent `data` is `0x`. -/
structure RawLog where
  address : Str
  topics : List Str
  data : Str
  deriving DecidableEq, Repr

/-- A JavaScript `Map` with string keys: its entries in insertion order. -/
abbrev JsMap (β : Type) := List (Str × β)

/-- `m.get(k)`. -/
def mapGet {β : Type} : JsMap β → Str → Option β
  | [], _ => none
  | (k, v) :: m, key => if k = key then some v else mapGet m key

/-- `m.set(k, v)`: an existing key keeps its place, a new key goes last. -/
def mapSet {β : Type} : JsMap β → Str → β → JsMap β
  | [], key, val => [(key, val)]
  | (k, v) :: m, key, val =>
    if k = key then (k, val) :: m else (k, v) :: mapSet m key val

/-- `(l.topics?.[0]||"").toLowerCase() === TOPIC_TRANSFER`. -/
def isTransferLog (l : RawLog) : Bool :=
  toLowerCase (l.topics.getD 0 []) == TOPIC_TRANSFER

/-- The wrap/unwrap scan, lines 416-426, from the accumulators
`(wokbWrapToRouter, wokbUnwrapFromRouter)`; `none` when `decodeTransferValue`
raises. -/
def wrapScan (router : Str) : List RawLog → Int × Int → Option (Int × Int)
  | [], acc => some acc
  | l :: ls, acc =>
    if !isTransferLog l then wrapScan router ls acc
    else if toLowerCase l.address != WOKB_ADDR then wrapScan router ls acc
    else
      let src := fromTopicAddr (l.topics.getD 1 [])
      let dst := fromTopicAddr (l.topics.getD 2 [])
      match decodeTransferValue l.data with
      | none => none
      | some val =>
        let wrap := if src = ZERO_ADDR ∧ dst = router then acc.1 + val else acc.1
        let unwrap := if src = router ∧ dst = ZERO_ADDR then acc.2 + val else acc.2
        wrapScan router ls (wrap, unwrap)

/-- `const m = ensureMap(w); m.set(token, (m.get(token) || 0n) + dv)`: the map
of `w` is created on first use. -/
def addDelta (perWalletDeltas : JsMap (JsMap Int)) (w token : Str) (dv : Int) :
    JsMap (JsMap Int) :=
  let m := (mapGet perWalletDeltas w).getD []
  mapSet perWalletDeltas w (mapSet m token ((mapGet m token).getD 0 + dv))

/-- The accumulation loop over `transfers`, lines 432-439; `none` when
`decodeTransferValue` raises. -/
def accumulate (WALLET_SET : List Str) :
    List RawLog → JsMap (JsMap Int) → Option (JsMap (JsMap Int))
  | [], pw => some pw
  | l :: ls, pw =>
    let token := toLowerCase l.address
    let src := fromTopicAddr (l.topics.getD 1 [])
    let dst := fromTopicAddr (l.topics.getD 2 [])
    match decodeTransferValue l.data with
    | none => none
    | some value =>
      let pw := if WALLET_SET.contains src then addDelta pw src token (-value) else pw
      let pw := if WALLET_SET.contains dst then addDelta pw dst token value else pw
      accumulate WALLET_SET ls pw

/-- `perWalletDeltas` after lines 429-439. -/
def perWalletDeltas (WALLET_SET : List Str) (logs : List RawLog) :
    Option (JsMap (JsMap Int)) :=
  accumulate WALLET_SET (logs.filter isTransferLog) []

/-- The comparator of line 443:
`(a,b) => { const av = absBI(a[1]), bv = absBI(b[1]); return bv > av ? -1 : bv < av ? 1 : 0; }`. -/
def cmpItems (a b : Str × Int) : Int :=
  let av := absBI a.2
  let bv := absBI b.2
  if bv > av then -1 else if bv < av then 1 else 0

/-- `Array.prototype.sort` with a comparator: a stable sort, `a` stays before
`b` unless the comparator returns a positive number for `(a, b)`. -/
def jsSort {α : Type} (cmp : α → α → Int) (xs : List α) : List α :=
  xs.insertionSort (fun a b => cmp a b ≤ 0)

/-- `items`, lines 442-443: the non-zero entries of a wallet, sorted. -/
def items (deltas : JsMap Int) : List (Str × Int) :=
  jsSort cmpItems (deltas.filter (fun e => e.2 != 0))

/-- Truthiness of a value that is `null` or a string. -/
def truthy : Option Str → Bool
  | none => false
  | some s => !s.isEmpty

/-- The text a template literal gives for a value that is `null` or a string. -/
def interpolate : Option Str → Str
  | none => "null".toList
  | some s => s

/-- What the two-or-more-legs branch computes for a wallet (lines 452-523).  The
floating-point USD estimates and the HTML text built from these values are
not part of the record. -/
structure TwoLegRecord where
  posToken : Str
  posValRaw : Int
  negToken : Str
  negValRaw : Int
  posAmtStr : Str
  negAmtStr : Str
  usdtPriceStr : Option Str
  priceLine : Str
  action : Str
  focus : Str
  tokenAddrForFooter : Option Str
  deriving DecidableEq, Repr

/-- The two-or-more-legs branch, lines 453-507, on `items = i0 :: i1 :: rest`. -/
def twoLegs (WOKB_PRICE_6 : Nat) (tokenMeta : Str → TokenMeta)
    (wokbWrapToRouter wokbUnwrapFromRouter : Int)
    (i0 i1 : Str × Int) (rest : List (Str × Int)) : TwoLegRecord :=
  let its := i0 :: i1 :: rest
  let pos := (its.find? (fun e => decide (e.2 > 0))).getD i0
  let neg := (its.find? (fun e => decide (e.2 < 0))).getD i1
  let posToken := pos.1
  let posValRaw := pos.2
  let negToken := neg.1
  let negValRaw := neg.2
  let posMeta := ensureTokenMeta tokenMeta posToken
  let negMeta := ensureTokenMeta tokenMeta negToken
  let posAmtStr := formatUnits posValRaw posMeta.decimals 6
  let negAmtStr := formatUnits (-negValRaw) negMeta.decimals 6
  -- lines 460-469: (usdtPriceStr, priceLine) from a native side
  let direct : Option Str × Str :=
    if posMeta.symbol = "WOKB".toList ∧ -negValRaw > 0 then
      let p := usdtPerTokenByWokb WOKB_PRICE_6 posValRaw (-negValRaw) negMeta.decimals 6
      (p, if truthy p then "@ ".toList ++ interpolate p ++ " USDT/".toList ++ negMeta.symbol
          else [])
    else if negMeta.symbol = "WOKB".toList ∧ posValRaw > 0 then
      let p := usdtPerTokenByWokb WOKB_PRICE_6 (-negValRaw) posValRaw posMeta.decimals 6
      (p, if truthy p then "@ ".toList ++ interpolate p ++ " USDT/".toList ++ posMeta.symbol
          else [])
    else (none, [])
  -- lines 471-479: fallback on the wrap/unwrap leg
  let priced : Option Str × Str :=
    if !truthy direct.1 then
      if posValRaw > 0 ∧ wokbWrapToRouter > 0 then
        let p := usdtPerTokenByWokb WOKB_PRICE_6 wokbWrapToRouter posValRaw posMeta.decimals 6
        (p, if truthy p then
              "@ ".toList ++ interpolate p ++ " USDT/".toList ++ posMeta.symbol ++
                " (via wrap)".toList
            else direct.2)
      else if -negValRaw > 0 ∧ wokbUnwrapFromRouter > 0 then
        let p := usdtPerTokenByWokb WOKB_PRICE_6 wokbUnwrapFromRouter (-negValRaw)
          negMeta.decimals 6
        (p, if truthy p then
              "@ ".toList ++ interpolate p ++ " USDT/".toList ++ negMeta.symbol ++
                " (via unwrap)".toList
            else direct.2)
      else direct
    else direct
  let usdtPriceStr := priced.1
  let priceLine := priced.2
  -- lines 498-502
  let classified : Str × Str :=
    if posMeta.symbol ≠ "WOKB".toList ∧ negMeta.symbol = "WOKB".toList then
      ("BUY".toList, posMeta.symbol)
    else if posMeta.symbol = "WOKB".toList ∧ negMeta.symbol ≠ "WOKB".toList then
      ("SELL".toList, negMeta.symbol)
    else if includes priceLine "wrap".toList then ("BUY".toList, posMeta.symbol)
    else if includes priceLine "unwrap".toList then ("SELL".toList, negMeta.symbol)
    else ("SWAP".toList, posMeta.symbol ++ "/".toList ++ negMeta.symbol)
  -- lines 505-507
  let tokenAddrForFooter : Option Str :=
    if toLowerCase posToken = WOKB_ADDR then some (toLowerCase negToken)
    else if toLowerCase negToken = WOKB_ADDR then some (toLowerCase posToken)
    else none
  { posToken := posToken, posValRaw := posValRaw, negToken := negToken,
    negValRaw := negValRaw, posAmtStr := posAmtStr, negAmtStr := negAmtStr,
    usdtPriceStr := usdtPriceStr, priceLine := priceLine,
    action := classified.1, focus := classified.2,
    tokenAddrForFooter := tokenAddrForFooter }

/-- What the single-leg branch computes for a wallet (lines 526-558). -/
structure SingleLegRecord where
  tk : Str
  vRaw : Int
  symbol : Str
  okbDeltaRaw : Int
  tokenAmtStr : Str
  okbAmtStr : Option Str
  usdtPriceStr : Option Str
  priceLine : Str
  action : Str
  showContractAddr : Bool
  deriving DecidableEq, Repr

/-- The single-leg branch, lines 526-558, on `items = [i0]`. -/
def singleLeg (WOKB_PRICE_6 : Nat) (tokenMeta : Str → TokenMeta)
    (wokbWrapToRouter wokbUnwrapFromRouter : Int) (i0 : Str × Int) : SingleLegRecord :=
  let tk := i0.1
  let vRaw := i0.2
  let meta := ensureTokenMeta tokenMeta tk
  let okbDeltaRaw : Int :=
    if vRaw > 0 ∧ wokbWrapToRouter > 0 then -wokbWrapToRouter
    else if vRaw < 0 ∧ wokbUnwrapFromRouter > 0 then wokbUnwrapFromRouter
    else 0
  let tokenAmtStr := formatUnits (if vRaw > 0 then vRaw else -vRaw) meta.decimals 6
  let okbAmtStr : Option Str :=
    if okbDeltaRaw ≠ 0 then
      some (formatUnits (if okbDeltaRaw > 0 then okbDeltaRaw else -okbDeltaRaw) 18 6)
    else none
  let priced : Option Str × Str :=
    if vRaw > 0 ∧ wokbWrapToRouter > 0 then
      let p := usdtPerTokenByWokb WOKB_PRICE_6 wokbWrapToRouter vRaw meta.decimals 6
      (p, if truthy p then
            "@ ".toList ++ interpolate p ++ " USDT/".toList ++ meta.symbol ++
              " (via wrap)".toList
          else [])
    else if vRaw < 0 ∧ wokbUnwrapFromRouter > 0 then
      let p := usdtPerTokenByWokb WOKB_PRICE_6 wokbUnwrapFromRouter (-vRaw) meta.decimals 6
      (p, if truthy p then
            "@ ".toList ++ interpolate p ++ " USDT/".toList ++ meta.symbol ++
              " (via unwrap)".toList
          else [])
    else (none, [])
  { tk := tk, vRaw := vRaw, symbol := meta.symbol, okbDeltaRaw := okbDeltaRaw,
    tokenAmtStr := tokenAmtStr, okbAmtStr := okbAmtStr,
    usdtPriceStr := priced.1, priceLine := priced.2,
    action := if vRaw > 0 then "BUY".toList else "SELL".toList,
    showContractAddr :=
      decide (meta.symbol ≠ "WOKB".toList) &&
        (decide (wokbWrapToRouter > 0) || decide (wokbUnwrapFromRouter > 0)) }

/-- The record handed to the notification sink for one wallet. -/
inductive TradeRecord where
  | twoLeg (r : TwoLegRecord)
  | single (r : SingleLegRecord)
  deriving DecidableEq, Repr

/-- The body of the loop over wallets, lines 441-577: no record when `items` is
empty (`continue`), otherwise the branch chosen by `items.length`. -/
def walletRecord (WOKB_PRICE_6 : Nat) (tokenMeta : Str → TokenMeta)
    (wokbWrapToRouter wokbUnwrapFromRouter : Int) (deltas : JsMap Int) :
    Option TradeRecord :=
  match items deltas with
  | [] => none
  | [i0] =>
    some (TradeRecord.single
      (singleLeg WOKB_PRICE_6 tokenMeta wokbWrapToRouter wokbUnwrapFromRouter i0))
  | i0 :: i1 :: rest =>
    some (TradeRecord.twoLeg
      (twoLegs WOKB_PRICE_6 tokenMeta wokbWrapToRouter wokbUnwrapFromRouter i0 i1 rest))

/-- The handler of a receipt reply, lines 412-580, for a receipt with target
`receiptTo` (the field `to`, the empty string when absent) and log list `logs`: the records sent, by
wallet, in the order of the loop; `none` when decoding a log raises. -/
def rpcReceipt (WOKB_PRICE_6 : Nat) (tokenMeta : Str → TokenMeta) (WALLET_SET : List Str)
    (receiptTo : Str) (logs : List RawLog) : Option (JsMap TradeRecord) :=
  let router := toLowerCase receiptTo
  match wrapScan router logs (0, 0) with
  | none => none
  | some (wokbWrapToRouter, wokbUnwrapFromRouter) =>
    match perWalletDeltas WALLET_SET logs with
    | none => none
    | some pw =>
      some (pw.filterMap (fun e =>
        (walletRecord WOKB_PRICE_6 tokenMeta wokbWrapToRouter wokbUnwrapFromRouter e.2).map
          (fun r => (e.1, r))))

/-! ## Wallet registry (lines 129-198) -/

/-- An entry of the list returned by `parseWalletsText`. -/
structure WalletEntry where
  address : Str
  label : Str
  deriving DecidableEq, Repr

/-- The four registry variables of lines 129-132.  `WALLET_SET` is a `Set` and
`WALLET_LABELS` a `Map`, both kept as their elements in insertion order. -/
structure Registry where
  WALLETS : List Str
  WALLET_TOPICS : List Str
  WALLET_SET : List Str
  WALLET_LABELS : JsMap Str
  deriving DecidableEq, Repr

/-- `new Set(xs)`: the elements in order of first occurrence. -/
def newSet (xs : List Str) : List Str :=
  xs.foldl (fun s x => if s.contains x then s else s ++ [x]) []

/-- `new Map(pairs)`: the pairs are set one after the other. -/
def newMap {β : Type} (pairs : List (Str × β)) : JsMap β :=
  pairs.foldl (fun m p => mapSet m p.1 p.2) []

/-- `WALLET_LABELS.get(a) || ""`. -/
def labelOf (labels : JsMap Str) (a : Str) : Str :=
  match mapGet labels a with
  | none => []
  | some l => if l.isEmpty then [] else l

/-- `refreshWallets()`, lines 178-198, on the result of
`parseWalletsText(fs.readFileSync(WALLETS_FILE, "utf8"))`, `none` when reading
the file raises (the `catch` branch).  It returns `changed` and the registry
afterwards.  The two comparisons of `JSON.stringify` outputs, which are made
on arrays of strings, are equalities of the arrays. -/
def refreshWallets (parsed : Option (List WalletEntry)) (st : Registry) : Bool × Registry :=
  match parsed with
  | none => (false, st)
  | some listObj =>
    let nextAddrs := listObj.map (fun x => x.address)
    let changed : Bool :=
      decide (nextAddrs ≠ st.WALLETS) ||
        decide (listObj.map (fun x => x.label) ≠
          nextAddrs.map (fun a => labelOf st.WALLET_LABELS a))
    if changed then
      (true,
        { WALLETS := nextAddrs,
          WALLET_TOPICS := nextAddrs.map pad32,
          WALLET_SET := newSet nextAddrs,
          WALLET_LABELS := newMap (listObj.map (fun x => (x.address, x.label))) })
    else (false, st)

/-! ## Reconnect backoff (lines 42, 646-654) -/

/-- The integer nearest to a rational, the even one of the two when it is
halfway. -/
def roundHalfEven (q : ℚ) : ℤ :=
  let f := ⌊q⌋
  if q - f < 1 / 2 then f
  else if 1 / 2 < q - f then f + 1
  else if f % 2 = 0 then f else f + 1

/-- The `Number` a real result is rounded to: IEEE 754 binary64, 53 significant
bits, round to nearest, ties to even.  Overflow and the subnormal range are not
represented; the waits computed below are between 0 and 34500, and a product
small enough to be subnormal is absorbed when it is added to 0.85. -/
def toDouble (x : ℚ) : ℚ :=
  if x = 0 then 0
  else
    let e : ℤ := Int.log 2 |x| - 52
    (roundHalfEven (x / (2 : ℚ) ^ e) : ℚ) * (2 : ℚ) ^ e

/-- The factor `(0.85 + Math.random()*0.3)` of line 650, for the value `random`
that `Math.random()` returned: the literals and the results of the two
operations are rounded to `Number`s. -/
def jitterFactor (random : ℚ) : ℚ :=
  toDouble (toDouble (85 / 100) + toDouble (random * toDouble (3 / 10)))

/-- `relaunch`, lines 646-654, from the current `backoff` and the value of
`Math.random()`: the wait handed to `setTimeout` and the new `backoff`
(`backoff` is an integer; doubling it is exact). -/
def relaunch (backoff : Nat) (random : ℚ) : ℚ × Nat :=
  let wait : ℚ := toDouble (((min backoff MAX_BACKOFF : Nat) : ℚ) * jitterFactor random)
  (wait, backoff * 2)

/-- The waits scheduled by consecutive calls of `relaunch`, one per value of
`Math.random()`, with no `open` event in between (which would reset `backoff`
to 1000, line 364). -/
def relaunchWaits : Nat → List ℚ → List ℚ
  | _, [] => []
  | backoff, r :: rs => (relaunch backoff r).1 :: relaunchWaits (relaunch backoff r).2 rs

/-! ## Transfer pushes and the receipt request (lines 592-623) -/

/-- A subscription push as the handler reads it: the tag bound to its
subscription id (`subTypeById.get(subscription)`, `none` when unbound), and
the fields of `result`. -/
structure LogPush where
  subType : Option Str
  topics : List Str
  data : Str
  transactionHash : Str
  removed : Bool
  deriving DecidableEq, Repr

/-- The part of the multiplexer state the transfer branch changes: `nextId`,
`seenTx`, `reqTypeById`, `receiptReqTxById`, and the requests handed to `send`
(written to the socket or queued in the outbox), oldest first, as
`(id, method, parameter)`. -/
structure MuxState where
  nextId : Nat
  seenTx : List Str
  reqTypeById : List (Nat × Str)
  receiptReqTxById : List (Nat × Str)
  sent : List (Nat × Str × Str)
  deriving DecidableEq, Repr

/-- The state at start-up (lines 42-50). -/
def MuxState.initial : MuxState :=
  { nextId := 1, seenTx := [], reqTypeById := [], receiptReqTxById := [], sent := [] }

/-- A push in the transfer branch, lines 602-623: for a push of a `tr_in` or
`tr_out` subscription with at least three topics, the value is decoded (an
exception there ends the handler before anything is changed), and a receipt
request is sent unless the log is removed or its transaction was seen.  Other
pushes change nothing of this state. -/
def onPush (p : LogPush) (st : MuxState) : MuxState :=
  if (p.subType = some "tr_in".toList ∨ p.subType = some "tr_out".toList) ∧
      p.topics.length ≥ 3 then
    match decodeTransferValue p.data with
    | none => st
    | some _ =>
      if p.removed = false ∧ ¬ (st.seenTx.contains p.transactionHash = true) then
        let id := st.nextId + 1
        { nextId := id,
          seenTx := st.seenTx ++ [p.transactionHash],
          reqTypeById := st.reqTypeById ++ [(id, "rpc_receipt".toList)],
          receiptReqTxById := st.receiptReqTxById ++ [(id, p.transactionHash)],
          sent := st.sent ++ [(id, "eth_getTransactionReceipt".toList, p.transactionHash)] }
      else st
  else st

/-- The handler over a sequence of pushes. -/
def onPushes (ps : List LogPush) (st : MuxState) : MuxState :=
  ps.foldl (fun s p => onPush p s) st

/-! ## Symbol fallback (lines 251-268, 339) -/

/-- A hexadecimal digit. -/
def isHexChar (c : Char) : Bool :=
  match digitValue c with
  | some d => decide (d < 16)
  | none => false

/-- `parseInt(s, 16)`: leading white space, an optional sign and an optional
`0x`/`0X` are skipped, and the longest run of hexadecimal digits is read; `none`
is `NaN`.  The value is the exact integer: the rounding of large values to a
`Number` changes neither the test `=== 32` nor an index of `slice`, which is
clamped to the length of the string. -/
def parseInt16 (s : Str) : Option Int :=
  let t := s.dropWhile isWhiteSpace
  let signed : Bool × Str :=
    match t with
    | '-' :: r => (true, r)
    | '+' :: r => (false, r)
    | r => (false, r)
  let body : Str :=
    match signed.2 with
    | '0' :: 'x' :: r => r
    | '0' :: 'X' :: r => r
    | r => r
  let digits := body.takeWhile isHexChar
  match parseNumeral 16 digits with
  | none => none
  | some n => some (if signed.1 then -(n : Int) else (n : Int))

/-- `s || null` for a string. -/
def orNull (s : Str) : Option Str := if s.isEmpty then none else some s

/-- `decodeSymbol(retHex)`, lines 251-268.  `hexToUtf8` stands for
`Buffer.from(h, "hex").toString("utf8")`, which belongs to the platform; none
of the calls in the two `try` blocks raises, so the first block returns
whenever the offset is 32. -/
def decodeSymbol (hexToUtf8 : Str → Str) (retHex : Str) : Option Str :=
  if retHex.isEmpty ∨ retHex = "0x".toList then none
  else
    let hex := strip0x retHex
    let off := parseInt16 (slice hex 0 64)
    if off = some 32 then
      let stop : Int :=
        match parseInt16 (slice hex 64 128) with
        | none => 0
        | some len => 128 + len * 2
      let data := slice hex 128 stop
      orNull (trim ((hexToUtf8 data).filter (fun c => 0x20 ≤ c.toNat && c.toNat ≤ 0x7E)))
    else
      let bytes := slice hex 0 64
      orNull (trim ((hexToUtf8 bytes).reverse.dropWhile (fun c => c.toNat == 0)).reverse)

/-- Line 339: `decodeSymbol(symHex) || t.slice(0,6).toUpperCase()`, the symbol
stored in the token metadata, for the lower-cased address `t` and the reply
`symHex` to the symbol call. -/
def resolveSymbol (hexToUtf8 : Str → Str) (t symHex : Str) : Str :=
  match decodeSymbol hexToUtf8 symHex with
  | some s => if s.isEmpty then toUpperCase (slice t 0 6) else s
  | none => toUpperCase (slice t 0 6)

/-! ## Wallet file parsing (lines 134-176) -/

/-- A value returned by `JSON.parse`.  A number is given by the two things this
code can observe of it: whether it is zero, and the text `String` gives for it.
An object is its own properties in the order of `Object.entries`. -/
inductive Json where
  | null
  | bool (b : Bool)
  | num (isZero : Bool) (text : Str)
  | str (s : Str)
  | arr (xs : List Json)
  | obj (kvs : List (Str × Json))

/-- Truthiness of a value. -/
def Json.truthy : Json → Bool
  | .null => false
  | .bool b => b
  | .num isZero _ => !isZero
  | .str s => !s.isEmpty
  | .arr _ => true
  | .obj _ => true

/-- An object has an own property `toString`. -/
def hasOwnToString : List (Str × Json) → Bool
  | [] => false
  | (k, _) :: r => decide (k = "toString".toList) || hasOwnToString r

mutual
/-- `String(v)`; `none` is a `TypeError`.  An array is joined with commas, a
`null` element giving the empty text; an object gives `[object Object]`,
unless it has an own property `toString`, which cannot be called. -/
def jsString : Json → Option Str
  | .null => some "null".toList
  | .bool b => some (if b then "true".toList else "false".toList)
  | .num _ text => some text
  | .str s => some s
  | .arr xs => joinElements xs
  | .obj kvs => if hasOwnToString kvs then none else some "[object Object]".toList
termination_by structural v => v
/-- `xs.join(",")`. -/
def joinElements : List Json → Option Str
  | [] => some []
  | x :: r =>
    match (match x with | .null => some [] | v => jsString v), joinElements r with
    | some a, some b => some (if r.isEmpty then a else a ++ ',' :: b)
    | _, _ => none
termination_by structural xs => xs
end

/-- `v || ""` for a property value, `none` being `undefined`. -/
def orEmptyString : Option Json → Json
  | none => .str []
  | some v => if v.truthy then v else .str []

/-- A character of `[0-9a-f]`. -/
def isLowerHexChar (c : Char) : Bool :=
  (48 ≤ c.toNat && c.toNat ≤ 57) || (97 ≤ c.toNat && c.toNat ≤ 102)

/-- `/^0x[0-9a-f]{40}$/.test(a)`. -/
def isAddress (a : Str) : Bool :=
  match a with
  | '0' :: 'x' :: ds => ds.length == 40 && ds.all isLowerHexChar
  | _ => false

/-- `dedup(arr)`, lines 171-175.  The labels are strings, for which
`String(it.label||"")` is the label itself. -/
def dedup (arr : List WalletEntry) : List WalletEntry :=
  let m : JsMap Str := arr.foldl (fun m it => mapSet m it.address (trim it.label)) []
  m.map (fun e => { address := e.1, label := e.2 })

/-- The loop of lines 141-150 over the items of an array, onto `list`; `none`
when a `String(...)` raises.  Lower-casing is on ASCII letters: the only use of
the result that is not an address is discarded by the test of `isAddress`, and
no other character lower-cases to one of `0-9a-fx`. -/
def arrayLoop : List Json → List WalletEntry → Option (List WalletEntry)
  | [], list => some list
  | item :: rest, list =>
    match item with
    | .str s =>
      let a := toLowerCase (trim s)
      arrayLoop rest (if isAddress a then list ++ [{ address := a, label := [] }] else list)
    | .obj kvs =>
      match mapGet kvs "address".toList with
      | none => arrayLoop rest list
      | some addr =>
        if addr.truthy then
          match jsString addr with
          | none => none
          | some sa =>
            let a := toLowerCase (trim sa)
            match jsString (orEmptyString (mapGet kvs "label".toList)) with
            | none => none
            | some sl =>
              let label := trim sl
              arrayLoop rest
                (if isAddress a then list ++ [{ address := a, label := label }] else list)
        else arrayLoop rest list
    | _ => arrayLoop rest list

/-- The loop of lines 156-159 over `Object.entries(j)`, onto `list2`; `none`
when `String(lab||"")` raises. -/
def entriesLoop : List (Str × Json) → List WalletEntry → Option (List WalletEntry)
  | [], list2 => some list2
  | (addr, lab) :: rest, list2 =>
    let a := toLowerCase (trim addr)
    if isAddress a then
      match jsString (orEmptyString (some lab)) with
      | none => none
      | some sl => entriesLoop rest (list2 ++ [{ address := a, label := trim sl }])
    else entriesLoop rest list2

/-- A character of `[\s,]`. -/
def isSeparator (c : Char) : Bool := isWhiteSpace c || c == ','

/-- The pieces of `split(/[\s,]+/)` from the current piece `cur` on; `inRun`
says that the character before was a separator. -/
def splitLoop : Str → Str → Bool → List Str
  | [], cur, _ => [cur]
  | c :: cs, cur, inRun =>
    if isSeparator c then
      if inRun then splitLoop cs [] true else cur :: splitLoop cs [] true
    else splitLoop cs (cur ++ [c]) false

/-- `txt.split(/[\s,]+/)`: the pieces between the maximal runs of separators,
an empty piece standing before a leading run and after a trailing one. -/
def splitSeparators (txt : Str) : List Str := splitLoop txt [] false

/-- `parseWalletsText(txt)`, lines 134-176.  `parsed` is what `JSON.parse`
gives on the trimmed text, `none` when it raises; `JSON.parse` belongs to the
platform.  A raise inside the `try` block is caught and leads to the plain-text
reading, as does a parsed value that is neither an array nor an object. -/
def parseWalletsText (parsed : Option Json) (txt : Str) : List WalletEntry :=
  let txt := trim txt
  let out : List WalletEntry :=
    (((splitSeparators txt).map (fun s => toLowerCase (trim s))).filter isAddress).map
      (fun address => { address := address, label := [] })
  match parsed with
  | some (.arr j) =>
    match arrayLoop j [] with
    | some list => dedup list
    | none => dedup out
  | some (.obj j) =>
    match entriesLoop j [] with
    | some list2 => dedup list2
    | none => dedup out
  | _ => dedup out

/-! ## Specification-side notions and test data -/

/-- A hexadecimal digit, in either letter case. -/
def isHexDigit (c : Char) : Bool :=
  (48 ≤ c.toNat && c.toNat ≤ 57) || (97 ≤ c.toNat && c.toNat ≤ 102) ||
    (65 ≤ c.toNat && c.toNat ≤ 70)

/-- The number a hexadecimal digit stands for. -/
def hexDigitNat (c : Char) : Nat :=
  if c.toNat ≤ 57 then c.toNat - 48 else if 97 ≤ c.toNat then c.toNat - 87 else c.toNat - 55

/-- The unsigned integer a string of hexadecimal digits denotes, most
significant digit first: each digit weighs sixteen to the number of digits
after it. -/
def hexValue : Str → Nat
  | [] => 0
  | c :: cs => hexDigitNat c * 16 ^ cs.length + hexValue cs

/-- The four amounts in the order of the event: `amount0In`, `amount1In`,
`amount0Out`, `amount1Out`. -/
def SwapAmounts.toList (s : SwapAmounts) : List Int :=
  [s.amount0In, s.amount1In, s.amount0Out, s.amount1Out]

/-- The `i`-th 64-digit word of a hexadecimal string. -/
def wordAt (hex : Str) (i : Nat) : Str := (hex.drop (64 * i)).take 64

/-- The 64-digit hexadecimal word of a number below sixteen. -/
def smallWord (d : Char) : Str := List.replicate 63 '0' ++ [d]

/-- The all-zero 64-digit word. -/
def zeroWord : Str := List.replicate 64 '0'

/-- A topic word whose low 20 bytes are written with upper-case letters. -/
def topicUpper : Str :=
  "0x000000000000000000000000E538905CF8410324E03A5A23C1C177A474D59B2B".toList

/-- The value of a transfer log (zero for undecodable data, which the handler
never gets past). -/
def transferValue (l : RawLog) : Int := (decodeTransferValue l.data).getD 0

/-- Sum of the values of the transfer-event logs emitted by `token` whose `to`
is `wallet`. -/
def received (logs : List RawLog) (wallet token : Str) : Int :=
  (((logs.filter isTransferLog).filter (fun l =>
      toLowerCase l.address == token && fromTopicAddr (l.topics.getD 2 []) == wallet)).map
    transferValue).sum

/-- Sum of the values of the transfer-event logs emitted by `token` whose `from`
is `wallet`. -/
def sent (logs : List RawLog) (wallet token : Str) : Int :=
  (((logs.filter isTransferLog).filter (fun l =>
      toLowerCase l.address == token && fromTopicAddr (l.topics.getD 1 []) == wallet)).map
    transferValue).sum

/-- The net change of `token` for `wallet` over the transfer logs of a receipt. -/
def netDelta (logs : List RawLog) (wallet token : Str) : Int :=
  received logs wallet token - sent logs wallet token

/-- The delta accumulated for a pair (wallet, token); zero when the pair has no
entry. -/
def deltaOf (pw : JsMap (JsMap Int)) (wallet token : Str) : Int :=
  match mapGet pw wallet with
  | none => 0
  | some m => (mapGet m token).getD 0

/-- Every transfer log of the list carries data that decodes. -/
def Decodable (logs : List RawLog) : Prop :=
  ∀ l ∈ logs, isTransferLog l = true → (decodeTransferValue l.data).isSome = true

/-- The address `0x00..0<d>` for a hexadecimal digit `d`. -/
def addrOf (d : Char) : Str := "0x".toList ++ List.replicate 39 '0' ++ [d]

/-- The topic word of an address. -/
def topicOf (a : Str) : Str := pad32 a

/-- A transfer log of `token` from `src` to `dst` with the given data word. -/
def transferLog (token src dst data : Str) : RawLog :=
  ⟨token, [TOPIC_TRANSFER, topicOf src, topicOf dst], "0x".toList ++ data⟩

/-- The keys of a map are pairwise distinct. -/
def KeysNodup {β : Type} (m : JsMap β) : Prop := (m.map Prod.fst).Nodup

/-- Sum of the values of the WOKB transfer logs from the zero address to
`router`. -/
def wrapTotal (router : Str) (logs : List RawLog) : Int :=
  ((logs.filter (fun l =>
      isTransferLog l && toLowerCase l.address == WOKB_ADDR &&
        (fromTopicAddr (l.topics.getD 1 []) == ZERO_ADDR &&
          fromTopicAddr (l.topics.getD 2 []) == router))).map transferValue).sum

/-- Sum of the values of the WOKB transfer logs from `router` to the zero
address. -/
def unwrapTotal (router : Str) (logs : List RawLog) : Int :=
  ((logs.filter (fun l =>
      isTransferLog l && toLowerCase l.address == WOKB_ADDR &&
        (fromTopicAddr (l.topics.getD 1 []) == router &&
          fromTopicAddr (l.topics.getD 2 []) == ZERO_ADDR))).map transferValue).sum

/-- Every per-wallet map has pairwise distinct token keys. -/
def InnerNodup (pw : JsMap (JsMap Int)) : Prop :=
  ∀ w m, mapGet pw w = some m → KeysNodup m

/-- The 64-digit data word with the given significant digits. -/
def dataWord (digits : String) : Str := padStart 64 digits.toList

/-- Test wallet, tokens, counterparty and router. -/
def walletW : Str := addrOf '1'

def tokenT : Str := addrOf 'a'

def tokenU : Str := addrOf 'b'

def partyX : Str := addrOf 'd'

def routerR : Str := addrOf 'c'

/-- Metadata cache for the scenarios: `T` has 18 decimals, `U` has 6. -/
def scenarioMeta (t : Str) : TokenMeta :=
  if t = tokenT then ⟨"TKN".toList, 18⟩
  else if t = tokenU then ⟨"USDX".toList, 6⟩
  else ⟨"OTHER".toList, 18⟩

/-- Scenario of C5: `W` receives 50 units of `U` (6 decimals), and 1.5 WOKB are
wrapped into the router. -/
def wrapLogs : List RawLog :=
  [transferLog tokenU partyX walletW (dataWord "2faf080"),
   transferLog WOKB_ADDR ZERO_ADDR routerR (dataWord "14d1120d7b160000")]

/-- Scenario of C4: `W` receives 1000 units of `T` (18 decimals) and sends 2
WOKB. -/
def buyLogs : List RawLog :=
  [transferLog tokenT partyX walletW (dataWord "3635c9adc5dea00000"),
   transferLog WOKB_ADDR walletW partyX (dataWord "1bc16d674ec80000")]

/-- A metadata cache in which the contract at the address of `T` reports the
symbol `WOKB`. -/
def spoofMeta (t : Str) : TokenMeta :=
  if t = tokenT then ⟨"WOKB".toList, 18⟩ else ⟨"OTHER".toList, 18⟩

/-- Action, focus and unit price of a record. -/
def TradeRecord.summary : TradeRecord → Str × Str × Option Str
  | TradeRecord.twoLeg r => (r.action, r.focus, r.usdtPriceStr)
  | TradeRecord.single r => (r.action, r.symbol, r.usdtPriceStr)

/-- The record the handler sends for a wallet, if any. -/
def recordOf (WOKB_PRICE_6 : Nat) (tokenMeta : Str → TokenMeta) (WALLET_SET : List Str)
    (receiptTo : Str) (logs : List RawLog) (wallet : Str) : Option TradeRecord :=
  (rpcReceipt WOKB_PRICE_6 tokenMeta WALLET_SET receiptTo logs).bind
    (fun recs => mapGet recs wallet)

def tokenV : Str := addrOf 'e'

def tokenZ : Str := addrOf 'f'

/-- A V2 swap log, which is not a transfer event. -/
def swapLog : RawLog :=
  ⟨partyX, [TOPIC_SWAP_V2, topicOf routerR, topicOf walletW],
    "0x".toList ++ (smallWord '5' ++ smallWord '0' ++ smallWord '0' ++ smallWord '3')⟩

/-- The receipt of C4 with a swap log in the middle. -/
def mixedLogs : List RawLog :=
  [transferLog tokenT partyX walletW (dataWord "3635c9adc5dea00000"), swapLog,
   transferLog WOKB_ADDR walletW partyX (dataWord "1bc16d674ec80000")]

/-- A receipt in which `W` receives 50 of `U` and 3 of `T`. -/
def sortLogs : List RawLog :=
  [transferLog tokenU partyX walletW (dataWord "32"),
   transferLog tokenT partyX walletW (dataWord "3")]

/-- A receipt in which `W` receives 50 of `U` and 3 of `T` and sends 20 of `V`
and 4 of `Z`. -/
def fourLegLogs : List RawLog :=
  [transferLog tokenU partyX walletW (dataWord "32"),
   transferLog tokenT partyX walletW (dataWord "3"),
   transferLog tokenV walletW partyX (dataWord "14"),
   transferLog tokenZ walletW partyX (dataWord "4")]

/-- A receipt in which `W` receives 50 units of `U` and sends 7 units of `T`,
and the router unwraps 1.5 WOKB; no WOKB is wrapped. -/
def unwrapLogs : List RawLog :=
  [transferLog tokenU partyX walletW (dataWord "2faf080"),
   transferLog tokenT walletW partyX (dataWord "6124fee993bc0000"),
   transferLog WOKB_ADDR routerR ZERO_ADDR (dataWord "14d1120d7b160000")]

/-- The two sides chosen by the two-or-more-legs branch. -/
def TradeRecord.sides : TradeRecord → Option ((Str × Int) × (Str × Int))
  | TradeRecord.twoLeg r => some ((r.posToken, r.posValRaw), (r.negToken, r.negValRaw))
  | TradeRecord.single _ => none

/-- The price line of a record. -/
def TradeRecord.priceLine : TradeRecord → Str
  | TradeRecord.twoLeg r => r.priceLine
  | TradeRecord.single r => r.priceLine

/-- The `items` of a wallet in a receipt. -/
def itemsOf (WALLET_SET : List Str) (logs : List RawLog) (wallet : Str) :
    Option (List (Str × Int)) :=
  ((perWalletDeltas WALLET_SET logs).bind (fun pw => mapGet pw wallet)).map items

/-! ## Specification-side notions and test data, continued -/

/-- A receipt in which `W` receives 1000 units of `T` and sends 50 units of
`U`. -/
def spoofLogs : List RawLog :=
  [transferLog tokenT partyX walletW (dataWord "3635c9adc5dea00000"),
   transferLog tokenU walletW partyX (dataWord "2b5e3af16b1880000")]

/-- The footer address of a two-leg record. -/
def TradeRecord.footer : TradeRecord → Option Str
  | TradeRecord.twoLeg r => r.tokenAddrForFooter
  | TradeRecord.single _ => none

/-- A transfer log whose data is not hexadecimal. -/
def badLog : RawLog :=
  ⟨tokenT, [TOPIC_TRANSFER, topicOf partyX, topicOf walletW], "0xzz".toList⟩

/-- Every log of the list carries a hex blob: `0x` followed by hexadecimal
digits. -/
def HexData (logs : List RawLog) : Prop :=
  ∀ l ∈ logs, ∃ ds, l.data = "0x".toList ++ ds ∧ ∀ c ∈ ds, isHexDigit c = true

/-- A token address with letters among its first digits. -/
def tokenLetters : Str := "0xabcdef0123456789abcdef0123456789abcdef01".toList

/-- A stand-in for the platform codec in closed examples: the characters of the
leading byte pairs that are hexadecimal and denote a byte below 128; it stops at
the first pair that is not hexadecimal or denotes a byte of 128 or more, and
drops a last digit without a partner. -/
def asciiOfHex : Str → Str
  | a :: b :: r =>
    match digitValue a, digitValue b with
    | some x, some y =>
      if x < 16 ∧ y < 16 ∧ x * 16 + y < 128 then Char.ofNat (x * 16 + y) :: asciiOfHex r
      else []
    | _, _ => []
  | _ => []

/-- The number of receipt requests sent for a transaction hash. -/
def receiptRequestsFor (st : MuxState) (tx : Str) : Nat :=
  ((st.sent.map (fun r => r.2.2)).filter (fun t => decide (t = tx))).length

/-- A push that reaches the test of line 616 with a log that is not removed: it
comes from a transfer subscription, has at least three topics and data that
decodes. -/
def LivePush (p : LogPush) : Prop :=
  (p.subType = some "tr_in".toList ∨ p.subType = some "tr_out".toList) ∧
    p.topics.length ≥ 3 ∧ (decodeTransferValue p.data).isSome = true ∧ p.removed = false

/-- The receipt requests are exactly the transactions seen, each once. -/
def MuxInv (st : MuxState) : Prop :=
  st.sent.map (fun r => r.2.2) = st.seenTx ∧ st.seenTx.Nodup

/-- A transaction hash. -/
def txHash : Str :=
  "0x1111111111111111111111111111111111111111111111111111111111111111".toList

/-- The same transfer log pushed by the incoming-transfer subscription and by
the outgoing-transfer subscription. -/
def pushIn : LogPush :=
  ⟨some "tr_in".toList, [TOPIC_TRANSFER, topicOf partyX, topicOf walletW],
    "0x".toList ++ dataWord "3", txHash, false⟩

def pushOut : LogPush :=
  ⟨some "tr_out".toList, [TOPIC_TRANSFER, topicOf partyX, topicOf walletW],
    "0x".toList ++ dataWord "3", txHash, false⟩

/-- The registry after a refresh that found a change: the content of `listObj`
(lines 186-189). -/
def loadedFrom (listObj : List WalletEntry) : Registry :=
  { WALLETS := listObj.map (fun x => x.address),
    WALLET_TOPICS := (listObj.map (fun x => x.address)).map pad32,
    WALLET_SET := newSet (listObj.map (fun x => x.address)),
    WALLET_LABELS := newMap (listObj.map (fun x => (x.address, x.label))) }

/-- No address occurs twice, as in every list `parseWalletsText` returns (its
`dedup` goes through a `Map` keyed by address). -/
def DistinctAddresses (listObj : List WalletEntry) : Prop :=
  (listObj.map (fun x => x.address)).Nodup

/-- The second list is the first with the label of one entry changed. -/
def OneLabelChanged (l0 l1 : List WalletEntry) : Prop :=
  ∃ pre post a lab lab', lab' ≠ lab ∧
    l0 = pre ++ ⟨a, lab⟩ :: post ∧ l1 = pre ++ ⟨a, lab'⟩ :: post

/-- The second list is the first with one entry added, at a new address. -/
def OneAddressAdded (l0 l1 : List WalletEntry) : Prop :=
  ∃ pre post e, e.address ∉ l0.map (fun x => x.address) ∧
    l0 = pre ++ post ∧ l1 = pre ++ e :: post

/-- Two watched wallets with labels, and the same two listed the other way
round. -/
def walletsAB : List WalletEntry :=
  [⟨walletW, "alice".toList⟩, ⟨partyX, "bob".toList⟩]

def walletsBA : List WalletEntry :=
  [⟨partyX, "bob".toList⟩, ⟨walletW, "alice".toList⟩]

/-- The list `walletsAB` with the second label changed, and with a third wallet
added. -/
def walletsRelabelled : List WalletEntry :=
  [⟨walletW, "alice".toList⟩, ⟨partyX, "carol".toList⟩]

def walletsExtended : List WalletEntry :=
  [⟨walletW, "alice".toList⟩, ⟨partyX, "bob".toList⟩, ⟨routerR, [] ⟩]

/-- The `Number`s written `0.85` and `0.3`, and the largest jitter factor, the
`Number` nearest to 1.15. -/
def c85 : ℚ := 7656119366529843 / 9007199254740992

def c3 : ℚ := 5404319552844595 / 18014398509481984

def jitterMax : ℚ := 2589569785738035 / 2251799813685248

/-- The backoff in force at the `k`-th consecutive close (counted from 0),
capped: `min(1000 * 2^k, 30000)`. -/
def cappedBackoff (k : Nat) : Nat := min (1000 * 2 ^ k) MAX_BACKOFF

/-! ### Decimal strings -/

/-- A decimal digit. -/
def isDecDigit (c : Char) : Bool := 48 ≤ c.toNat && c.toNat ≤ 57

/-- The number a string of decimal digits denotes, most significant digit
first. -/
def decValue : Str → Nat
  | [] => 0
  | c :: cs => (c.toNat - 48) * 10 ^ cs.length + decValue cs

/-- The last `k` decimal digits of `n`, with leading zeros. -/
def digitsFixed : Nat → Nat → Str
  | 0, _ => []
  | k + 1, n => digitsFixed k (n / 10) ++ [digitChar (n % 10)]

/-- The canonical decimal string of `n / 10^k`: the integer part without
leading zeros, then, unless the fraction is zero, a point and the fraction
without trailing zeros. -/
def canonicalDecimal (n k : Nat) : Str :=
  natToString (n / 10 ^ k) ++
    (if (stripTrailingZeros (digitsFixed k n)).isEmpty then []
     else '.' :: stripTrailingZeros (digitsFixed k n))

/-- A decimal string `int[.frac]` read as a rational number. -/
def parseDecimal (s : Str) : ℚ :=
  let intPart := s.takeWhile (fun c => c != '.')
  let frac := (s.dropWhile (fun c => c != '.')).drop 1
  (decValue intPart : ℚ) + (decValue frac : ℚ) / 10 ^ frac.length

/-- The string `s` is the canonical decimal string of the number `v` with at
most `m` fractional digits: a non-empty integer part of decimal digits without
leading zeros, a fraction of at most `m` decimal digits without trailing zeros,
a point between them exactly when the fraction is not empty, and the two
together denote `v`. -/
def IsCanonicalDecimal (s : Str) (m : Nat) (v : ℚ) : Prop :=
  ∃ ip fr : Str,
    s = ip ++ (if fr.isEmpty then [] else '.' :: fr) ∧
    ip ≠ [] ∧ (∀ c ∈ ip, isDecDigit c = true) ∧ (∀ c ∈ fr, isDecDigit c = true) ∧
    (ip.head? = some '0' → ip = ['0']) ∧
    fr.getLast? ≠ some '0' ∧
    fr.length ≤ m ∧
    (decValue ip : ℚ) + (decValue fr : ℚ) / 10 ^ fr.length = v

/-- The amount in millionths that `formatUnits(x, d, 6)` shows for `d > 6`:
`floor(x / 10^(d-6) + 1/2)`. -/
def roundedMillionths (x d : Nat) : Nat := (x + 5 * 10 ^ (d - 7)) / 10 ^ (d - 6)

/-- The string `a` is `0x` followed by exactly 40 lower-case hexadecimal
digits. -/
def LowerHexAddress (a : Str) : Prop :=
  ∃ ds : Str, a = "0x".toList ++ ds ∧ ds.length = 40 ∧
    ∀ c ∈ ds, c ∈ "0123456789abcdef".toList

/-- The JSON object `{"address": ..., "label": ...}` of an entry. -/
def entryJson (w : WalletEntry) : Json :=
  .obj [("address".toList, .str w.address), ("label".toList, .str w.label)]

/-- The address an entry is stored under: trimmed and lower-cased. -/
def normalAddress (w : WalletEntry) : Str := toLowerCase (trim w.address)

/-- An address in upper case and the same address in lower case. -/
def addrUpper : Str := "0x".toList ++ List.replicate 38 'A' ++ "1F".toList

def addrLower : Str := "0x".toList ++ List.replicate 38 'a' ++ "1f".toList

def addrOther : Str := "0x".toList ++ List.replicate 38 '0' ++ "2b".toList

/-- A wallet file in the array-of-objects form: the first address twice, in
two letter cases, and another address between them. -/
def walletsJson : Json :=
  .arr [entryJson ⟨addrUpper, "one".toList⟩, entryJson ⟨addrOther, "mid".toList⟩,
    entryJson ⟨" ".toList ++ addrLower, " two ".toList⟩]

/-- A wallet file in the map form. -/
def walletsMapJson : Json :=
  .obj [(addrUpper, .str "one".toList), (addrLower, .str "two".toList),
    ("other".toList, .num false "5".toList)]

/-- A wallet file in the plain-text form. -/
def walletsText : Str :=
  addrUpper ++ ", ".toList ++ addrOther ++ "\n".toList ++ addrLower ++ " 0x12 ".toList

/-- The property `"address": label` of an entry in the map form. -/
def entryPair (w : WalletEntry) : Str × Json := (w.address, .str w.label)

/-- The text of the JSON object of an entry. -/
def entryText (w : WalletEntry) : Str :=
  "\x7b\"address\":\"".toList ++ w.address ++ "\",\"label\":\"".toList ++ w.label ++
    "\"\x7d".toList

/-- The text of `walletsJson`. -/
def walletsJsonText : Str :=
  "[".toList ++ entryText ⟨addrUpper, "one".toList⟩ ++ ",".toList ++
    entryText ⟨addrOther, "mid".toList⟩ ++ ",".toList ++
    entryText ⟨" ".toList ++ addrLower, " two ".toList⟩ ++ "]".toList

/-- The text of `walletsMapJson`. -/
def walletsMapText : Str :=
  "\x7b\"".toList ++ addrUpper ++ "\":\"one\",\"".toList ++ addrLower ++
    "\":\"two\",\"other\":5\x7d".toList

/-- A receipt in which `W` sends 3 of `T` and 50 of `U` and receives nothing. -/
def sendLogs : List RawLog :=
  [transferLog tokenT walletW partyX (dataWord "3"),
   transferLog tokenU walletW partyX (dataWord "32")]

/-! ## Decoder: theorems -/

theorem digitValue_of_isHexDigit {c : Char} (h : isHexDigit c = true) :
    digitValue c = some (hexDigitNat c) ∧ hexDigitNat c < 16 := by
  simp only [isHexDigit, Bool.or_eq_true, Bool.and_eq_true, decide_eq_true_eq] at h
  simp only [digitValue, hexDigitNat]
  constructor
  · split_ifs <;> first | rfl | (exfalso; omega)
  · split_ifs <;> omega

theorem not_isWhiteSpace_of_isHexDigit {c : Char} (h : isHexDigit c = true) :
    isWhiteSpace c = false := by
  simp only [isHexDigit, Bool.or_eq_true, Bool.and_eq_true, decide_eq_true_eq] at h
  simp only [isWhiteSpace, isLineTerminator, Bool.or_eq_false_iff, Bool.and_eq_false_iff,
    beq_eq_false_iff_ne, ne_eq, decide_eq_false_iff_not]
  omega

theorem parseDigits_hex (ds : Str) (h : ∀ c ∈ ds, isHexDigit c = true) (acc : Nat) :
    parseDigits 16 ds acc = some (acc * 16 ^ ds.length + hexValue ds) := by
  induction ds generalizing acc with
  | nil => simp [parseDigits, hexValue]
  | cons c cs ih =>
    have hc := digitValue_of_isHexDigit (h c (List.mem_cons_self _ _))
    have hcs : ∀ x ∈ cs, isHexDigit x = true := fun x hx => h x (List.mem_cons_of_mem _ hx)
    simp only [parseDigits, hc.1, hc.2, if_true, ih hcs, hexValue, List.length_cons]
    congr 1
    ring

theorem dropWhile_eq_self_of_head {p : Char → Bool} (c : Char) (cs : Str)
    (h : p c = false) : (c :: cs).dropWhile p = c :: cs := by
  simp [List.dropWhile, h]

/-- Trimming leaves a string alone when neither end is white space. -/
theorem trim_eq_self (c : Char) (cs : Str) (hc : isWhiteSpace c = false)
    (hl : isWhiteSpace ((c :: cs).getLast (by simp)) = false) :
    trim (c :: cs) = c :: cs := by
  unfold trim
  rw [dropWhile_eq_self_of_head c cs hc]
  have hne : (c :: cs).reverse ≠ [] := by simp
  obtain ⟨d, ds, hd⟩ := List.exists_cons_of_ne_nil hne
  have hlast : (c :: cs).getLast (by simp) = d := by
    have := List.head_reverse (l := c :: cs) hne
    rw [← this]
    simp [hd]
  rw [hd, dropWhile_eq_self_of_head d ds (by rw [← hlast]; exact hl), ← hd, List.reverse_reverse]

theorem toBigInt_hex (ds : Str) (hne : ds ≠ []) (h : ∀ c ∈ ds, isHexDigit c = true) :
    toBigInt ('0' :: 'x' :: ds) = some (hexValue ds : Int) := by
  have hlast : isWhiteSpace (('0' :: 'x' :: ds).getLast (by simp)) = false := by
    have : ('0' :: 'x' :: ds).getLast (by simp) = ds.getLast hne := by
      simp [List.getLast_cons, hne]
    rw [this]
    exact not_isWhiteSpace_of_isHexDigit (h _ (List.getLast_mem hne))
  unfold toBigInt
  rw [trim_eq_self '0' ('x' :: ds) (by decide) hlast]
  simp only [parseNumeral]
  have : ds.isEmpty = false := by cases ds <;> simp_all
  simp [this, parseDigits_hex ds h]

theorem hexValue_replicate_zero_append (k : Nat) (ds : Str) :
    hexValue (List.replicate k '0' ++ ds) = hexValue ds := by
  induction k with
  | zero => simp
  | succ k ih =>
    have h0 : hexDigitNat '0' = 0 := by decide
    rw [List.replicate_succ, List.cons_append, hexValue, h0, ih]
    simp

theorem isHexDigit_padStart (n : Nat) (ds : Str) (h : ∀ c ∈ ds, isHexDigit c = true) :
    ∀ c ∈ padStart n ds, isHexDigit c = true := by
  intro c hc
  simp only [padStart, List.mem_append, List.mem_replicate] at hc
  rcases hc with ⟨_, rfl⟩ | hc
  · decide
  · exact h c hc

theorem strip0x_prefixed (ds : Str) : strip0x ("0x".toList ++ ds) = ds := rfl

theorem decodeTransferValue_of_hex (ds : Str) (h : ∀ c ∈ ds, isHexDigit c = true) :
    decodeTransferValue ("0x".toList ++ ds) = some (hexValue ds : Int) := by
  have hpad := isHexDigit_padStart 64 ds h
  have hne : padStart 64 ds ≠ [] := by
    intro he
    have hl : (padStart 64 ds).length = (64 - ds.length) + ds.length := by simp [padStart]
    rw [he] at hl
    simp at hl
    omega
  unfold decodeTransferValue hexToBig
  rw [strip0x_prefixed]
  have e : "0x".toList ++ padStart 64 ds = '0' :: 'x' :: padStart 64 ds := rfl
  rw [e]
  simp only [List.isEmpty_cons, Bool.false_eq_true, if_false]
  rw [toBigInt_hex _ hne hpad]
  simp [padStart, hexValue_replicate_zero_append]

/-- C9: on `0x` followed by any number of hexadecimal digits (none included),
`decodeTransferValue` returns the unsigned integer the digits denote. -/
theorem decodeTransferValue_hex (ds : Str) (h : ∀ c ∈ ds, isHexDigit c = true) :
    decodeTransferValue ("0x".toList ++ ds) = some (hexValue ds : Int) :=
  decodeTransferValue_of_hex ds h

/-- Witness of C9 at the words of the specification: the all-zero word decodes
to 0, and `0x` + 62 zeros + `01` (a 32-byte word) and `0x` + 63 zeros + `01` both
decode to 1. -/
theorem decodeTransferValue_hex_witness :
    (decodeTransferValue ("0x".toList ++ List.replicate 64 '0') = some 0) ∧
    (decodeTransferValue ("0x".toList ++ (List.replicate 62 '0' ++ "01".toList)) = some 1) ∧
    (decodeTransferValue ("0x".toList ++ (List.replicate 63 '0' ++ "01".toList)) = some 1) :=
  ⟨(decodeTransferValue_hex (List.replicate 64 '0') (by decide)).trans (by decide),
   (decodeTransferValue_hex (List.replicate 62 '0' ++ "01".toList) (by decide)).trans
     (by decide),
   (decodeTransferValue_hex (List.replicate 63 '0' ++ "01".toList) (by decide)).trans
     (by decide)⟩

theorem not_isLineTerminator_of_isHexDigit {c : Char} (h : isHexDigit c = true) :
    isLineTerminator c = false := by
  have := not_isWhiteSpace_of_isHexDigit h
  simp only [isWhiteSpace, Bool.or_eq_false_iff] at this
  tauto

theorem matchWords_nil (fuel : Nat) : matchWords fuel [] = [] := by
  cases fuel <;> simp [matchWords]

theorem matchWords_append_word (fuel : Nat) (w rest : Str) (hlen : w.length = 64)
    (hw : ∀ c ∈ w, isHexDigit c = true) :
    matchWords (fuel + 1) (w ++ rest) = w :: matchWords fuel rest := by
  obtain ⟨c, cs, rfl⟩ : ∃ c cs, w = c :: cs := by
    cases w with
    | nil => simp at hlen
    | cons c cs => exact ⟨c, cs, rfl⟩
  have hc : isLineTerminator c = false :=
    not_isLineTerminator_of_isHexDigit (hw c (List.mem_cons_self _ _))
  have htake : ((c :: cs ++ rest).takeWhile (fun c => !isLineTerminator c)).take 64
      = c :: cs := by
    have h1 : ∀ x ∈ c :: cs, (fun c => !isLineTerminator c) x = true := by
      intro x hx
      simp [not_isLineTerminator_of_isHexDigit (hw x hx)]
    have h2 : (c :: cs) <+: (c :: cs ++ rest).takeWhile (fun c => !isLineTerminator c) := by
      rw [List.takeWhile_append_of_pos h1]
      exact List.prefix_append _ _
    obtain ⟨t, ht⟩ := h2
    rw [← ht, List.take_append_of_le_length (by simp [hlen]), List.take_of_length_le (by simp [hlen])]
  rw [matchWords]
  simp only [List.cons_append] at htake ⊢
  rw [dropWhile_eq_self_of_head c (cs ++ rest) hc]
  simp only [List.isEmpty_cons, Bool.false_eq_true, if_false, htake]
  congr 1
  have : (c :: cs).length = 64 := hlen
  rw [this, ← List.cons_append, List.drop_append_of_le_length (by simp [hlen])]
  simp [List.drop_of_length_le, hlen]

theorem hexToBig_word (w : Str) (hlen : w.length = 64) (hw : ∀ c ∈ w, isHexDigit c = true) :
    hexToBig ('0' :: 'x' :: w) = some (hexValue w : Int) := by
  have hne : w ≠ [] := by
    intro h
    simp [h] at hlen
  rw [hexToBig]
  simp only [List.isEmpty_cons, Bool.false_eq_true, if_false]
  exact toBigInt_hex w hne hw

/-- The decoder on a blob whose padded form is four given 64-digit words. -/
theorem decodeSwapData_of_words (dataHex w0 w1 w2 w3 : Str)
    (hpad : padStart (64 * 4) (strip0x dataHex) = w0 ++ (w1 ++ (w2 ++ (w3 ++ []))))
    (l0 : w0.length = 64) (l1 : w1.length = 64) (l2 : w2.length = 64) (l3 : w3.length = 64)
    (h0 : ∀ c ∈ w0, isHexDigit c = true) (h1 : ∀ c ∈ w1, isHexDigit c = true)
    (h2 : ∀ c ∈ w2, isHexDigit c = true) (h3 : ∀ c ∈ w3, isHexDigit c = true) :
    decodeSwapData dataHex =
      some ⟨(hexValue w0 : Int), (hexValue w1 : Int), (hexValue w2 : Int), (hexValue w3 : Int)⟩ := by
  have hlen : (w0 ++ (w1 ++ (w2 ++ (w3 ++ [])))).length = 252 + 1 + 1 + 1 + 1 := by
    simp [l0, l1, l2, l3]
  unfold decodeSwapData
  simp only [hpad]
  rw [hlen, matchWords_append_word _ w0 _ l0 h0, matchWords_append_word _ w1 _ l1 h1,
    matchWords_append_word _ w2 _ l2 h2, matchWords_append_word _ w3 _ l3 h3, matchWords_nil]
  simp [List.getD, hexToBig_word _ l0 h0, hexToBig_word _ l1 h1, hexToBig_word _ l2 h2,
    hexToBig_word _ l3 h3]

theorem wordAt_length (p : Str) (hp : p.length = 256) (i : Nat) (hi : i < 4) :
    (wordAt p i).length = 64 := by
  simp only [wordAt, List.length_take, List.length_drop, hp]
  omega

theorem wordAt_hex (p : Str) (hp : ∀ c ∈ p, isHexDigit c = true) (i : Nat) :
    ∀ c ∈ wordAt p i, isHexDigit c = true := fun c hc =>
  hp c (List.mem_of_mem_drop (List.mem_of_mem_take hc))

theorem words_of_padded (p : Str) (hp : p.length = 256) :
    p = wordAt p 0 ++ (wordAt p 1 ++ (wordAt p 2 ++ (wordAt p 3 ++ []))) := by
  have h4 : p.drop 256 = [] := List.drop_of_length_le (by omega)
  have e1 : p = p.take 64 ++ p.drop 64 := (List.take_append_drop 64 p).symm
  have e2 : p.drop 64 = (p.drop 64).take 64 ++ p.drop 128 := by
    have h := (List.take_append_drop 64 (p.drop 64)).symm
    rw [List.drop_drop] at h
    exact h
  have e3 : p.drop 128 = (p.drop 128).take 64 ++ p.drop 192 := by
    have h := (List.take_append_drop 64 (p.drop 128)).symm
    rw [List.drop_drop] at h
    exact h
  have e4 : p.drop 192 = (p.drop 192).take 64 ++ p.drop 256 := by
    have h := (List.take_append_drop 64 (p.drop 192)).symm
    rw [List.drop_drop] at h
    exact h
  simp only [wordAt, Nat.mul_zero, List.drop_zero, Nat.mul_one, Nat.reduceMul]
  rw [h4] at e4
  rw [← e4, ← e3, ← e2, ← e1]

theorem strip0x_of_hex (ds : Str) (hhex : ∀ c ∈ ds, isHexDigit c = true) :
    strip0x ds = ds := by
  unfold strip0x
  split
  · next r =>
    have hx : isHexDigit 'x' = true := hhex 'x' (by simp)
    exact absurd hx (by decide)
  · rfl

theorem decodeSwapData_padded (dataHex ds : Str) (hs : strip0x dataHex = ds)
    (hhex : ∀ c ∈ ds, isHexDigit c = true) (hlen : ds.length ≤ 256) :
    decodeSwapData dataHex =
      some ⟨(hexValue (wordAt (List.replicate (256 - ds.length) '0' ++ ds) 0) : Int),
            (hexValue (wordAt (List.replicate (256 - ds.length) '0' ++ ds) 1) : Int),
            (hexValue (wordAt (List.replicate (256 - ds.length) '0' ++ ds) 2) : Int),
            (hexValue (wordAt (List.replicate (256 - ds.length) '0' ++ ds) 3) : Int)⟩ := by
  have hp : (List.replicate (256 - ds.length) '0' ++ ds).length = 256 := by
    simp only [List.length_append, List.length_replicate]
    omega
  have hx : ∀ c ∈ List.replicate (256 - ds.length) '0' ++ ds, isHexDigit c = true :=
    isHexDigit_padStart 256 ds hhex
  have hpad : padStart (64 * 4) (strip0x dataHex) = List.replicate (256 - ds.length) '0' ++ ds := by
    rw [hs]
    rfl
  exact decodeSwapData_of_words _ _ _ _ _ (hpad.trans (words_of_padded _ hp))
    (wordAt_length _ hp 0 (by omega)) (wordAt_length _ hp 1 (by omega))
    (wordAt_length _ hp 2 (by omega)) (wordAt_length _ hp 3 (by omega))
    (wordAt_hex _ hx 0) (wordAt_hex _ hx 1) (wordAt_hex _ hx 2) (wordAt_hex _ hx 3)

/-- C8: a blob of at most 256 hexadecimal digits, with or without the `0x`
prefix, decodes to the four consecutive 64-digit words of the blob left-padded
with zeros to 256 digits. -/
theorem decodeSwapData_leftPadded (ds : Str) (hhex : ∀ c ∈ ds, isHexDigit c = true)
    (hlen : ds.length ≤ 256) :
    decodeSwapData ("0x".toList ++ ds) =
      some ⟨(hexValue (wordAt (List.replicate (256 - ds.length) '0' ++ ds) 0) : Int),
            (hexValue (wordAt (List.replicate (256 - ds.length) '0' ++ ds) 1) : Int),
            (hexValue (wordAt (List.replicate (256 - ds.length) '0' ++ ds) 2) : Int),
            (hexValue (wordAt (List.replicate (256 - ds.length) '0' ++ ds) 3) : Int)⟩ ∧
    decodeSwapData ds = decodeSwapData ("0x".toList ++ ds) := by
  have h1 := decodeSwapData_padded ("0x".toList ++ ds) ds (strip0x_prefixed ds) hhex hlen
  have h2 := decodeSwapData_padded ds ds (strip0x_of_hex ds hhex) hhex hlen
  exact ⟨h1, h2.trans h1.symm⟩

set_option maxRecDepth 100000 in
/-- Witness of C8: the 128-byte blob with words `[5,0,0,3]` decodes to
`amount0In = 5`, `amount1In = 0`, `amount0Out = 0`, `amount1Out = 3`. -/
theorem decodeSwapData_leftPadded_witness :
    decodeSwapData ("0x".toList ++
      (smallWord '5' ++ smallWord '0' ++ smallWord '0' ++ smallWord '3')) =
      some ⟨5, 0, 0, 3⟩ :=
  (decodeSwapData_leftPadded
    (smallWord '5' ++ smallWord '0' ++ smallWord '0' ++ smallWord '3')
    (by decide) (by decide)).1.trans (by decide)

theorem isHexDigit_zeros (n : Nat) : ∀ c ∈ List.replicate n '0', isHexDigit c = true := by
  intro c hc
  rw [(List.mem_replicate.mp hc).2]
  decide

theorem hexValue_zeros (n : Nat) : hexValue (List.replicate n '0') = 0 := by
  have h := hexValue_replicate_zero_append n []
  simpa [hexValue] using h

set_option maxRecDepth 100000 in
/-- C7 as stated fails: for the blob made of the single word 5, the word is not
returned as the first amount with zeros after it. -/
theorem decodeSwapData_short_counterexample :
    (decodeSwapData ("0x".toList ++ [smallWord '5'].flatten)).map SwapAmounts.toList ≠
      some ([smallWord '5'].map (fun w => (hexValue w : Int)) ++ List.replicate (4 - 1) 0) := by
  decide

theorem padStart_short (k : Nat) (s : Str) (h : s.length + 64 * k = 256) :
    padStart (64 * 4) (strip0x ("0x".toList ++ s)) = (List.replicate k zeroWord).flatten ++ s := by
  rw [strip0x_prefixed, padStart]
  congr 1
  have hk : 64 * 4 - s.length = 64 * k := by omega
  rw [hk]
  clear hk h
  induction k with
  | zero => rfl
  | succ k ih =>
    rw [List.replicate_succ, List.flatten_cons, ← ih, zeroWord, ← List.replicate_add]
    congr 1
    ring

/-- C7, amended: a blob of `k < 4` complete 64-digit words decodes to zero for the
first `4 - k` amounts and to the `k` words, in order, for the last `k`. -/
theorem decodeSwapData_short (ws : List Str) (hk : ws.length < 4)
    (hw : ∀ w ∈ ws, w.length = 64 ∧ ∀ c ∈ w, isHexDigit c = true) :
    (decodeSwapData ("0x".toList ++ ws.flatten)).map SwapAmounts.toList =
      some (List.replicate (4 - ws.length) 0 ++ ws.map (fun w => (hexValue w : Int))) := by
  have zl : zeroWord.length = 64 := List.length_replicate _ _
  have zh : ∀ c ∈ zeroWord, isHexDigit c = true := isHexDigit_zeros 64
  have zv : hexValue zeroWord = 0 := hexValue_zeros 64
  match ws, hk, hw with
  | [], _, _ =>
    rw [decodeSwapData_of_words _ zeroWord zeroWord zeroWord zeroWord
      (by rw [padStart_short 4 _ (by simp)]; simp [List.replicate])
      zl zl zl zl zh zh zh zh]
    simp [SwapAmounts.toList, zv]
  | [a], _, hw =>
    obtain ⟨la, ha⟩ := hw a (by simp)
    rw [decodeSwapData_of_words _ zeroWord zeroWord zeroWord a
      (by rw [padStart_short 3 _ (by simp [la])]; simp [List.replicate])
      zl zl zl la zh zh zh ha]
    simp [SwapAmounts.toList, zv]
  | [a, b], _, hw =>
    obtain ⟨la, ha⟩ := hw a (by simp)
    obtain ⟨lb, hb⟩ := hw b (by simp)
    rw [decodeSwapData_of_words _ zeroWord zeroWord a b
      (by rw [padStart_short 2 _ (by simp [la, lb])]; simp [List.replicate])
      zl zl la lb zh zh ha hb]
    simp [SwapAmounts.toList, zv]
  | [a, b, c], _, hw =>
    obtain ⟨la, ha⟩ := hw a (by simp)
    obtain ⟨lb, hb⟩ := hw b (by simp)
    obtain ⟨lc, hc⟩ := hw c (by simp)
    rw [decodeSwapData_of_words _ zeroWord a b c
      (by rw [padStart_short 1 _ (by simp [la, lb, lc])]; simp [List.replicate])
      zl la lb lc zh ha hb hc]
    simp [SwapAmounts.toList, zv]
  | _ :: _ :: _ :: _ :: _, hk, _ =>
    simp only [List.length_cons] at hk
    omega

set_option maxRecDepth 100000 in
/-- Witness of the amended C7: the single word 5 comes out as `amount1Out`. -/
theorem decodeSwapData_short_witness :
    (decodeSwapData ("0x".toList ++ [smallWord '5'].flatten)).map SwapAmounts.toList =
      some [0, 0, 0, 5] :=
  (decodeSwapData_short [smallWord '5'] (by decide) (by decide)).trans (by decide)

/-- C10 as stated fails: on a topic word with upper-case digits the result is
not `0x` followed by the lower-case digits of the address. -/
theorem fromTopicAddr_counterexample :
    fromTopicAddr topicUpper = "0xE538905CF8410324E03A5A23C1C177A474D59B2B".toList ∧
    fromTopicAddr topicUpper ≠ "0x".toList ++ toLowerCase (topicUpper.drop 26) := by
  decide

/-- C10, amended: on a topic word of 66 characters `fromTopicAddr` returns `0x`
followed by the last 40 characters unchanged, which is the lower-case address
when the topic word is written in lower case. -/
theorem fromTopicAddr_low20 (t : Str) (hlen : t.length = 66) :
    fromTopicAddr t = "0x".toList ++ t.drop 26 ∧
    (toLowerCase t = t → fromTopicAddr t = "0x".toList ++ toLowerCase (t.drop 26)) := by
  have h : fromTopicAddr t = "0x".toList ++ t.drop 26 := by
    simp only [fromTopicAddr, sliceFrom, sliceIndex, hlen]
    rfl
  refine ⟨h, fun hl => ?_⟩
  have : toLowerCase (t.drop 26) = t.drop 26 := by
    unfold toLowerCase at hl ⊢
    rw [List.map_drop, hl]
  rw [this, h]

/-- Witness of the amended C10 at the topic word of the WOKB address. -/
theorem fromTopicAddr_low20_witness :
    fromTopicAddr (pad32 WOKB_ADDR) = "0x".toList ++ (pad32 WOKB_ADDR).drop 26 ∧
    (toLowerCase (pad32 WOKB_ADDR) = pad32 WOKB_ADDR →
      fromTopicAddr (pad32 WOKB_ADDR) = "0x".toList ++ toLowerCase ((pad32 WOKB_ADDR).drop 26)) :=
  fromTopicAddr_low20 (pad32 WOKB_ADDR) (by decide)

/-! ## Aggregation: theorems -/

theorem mapGet_mapSet {β : Type} (m : JsMap β) (k k' : Str) (v : β) :
    mapGet (mapSet m k v) k' = if k = k' then some v else mapGet m k' := by
  induction m with
  | nil => simp [mapSet, mapGet]
  | cons e m ih =>
    obtain ⟨k0, v0⟩ := e
    by_cases h0 : k0 = k
    · subst h0
      by_cases h1 : k0 = k' <;> simp [mapSet, mapGet, h1]
    · by_cases h1 : k0 = k'
      · subst h1
        simp [mapSet, mapGet, h0, Ne.symm h0]
      · simp [mapSet, mapGet, h0, h1, ih]

theorem mapGet_addDelta (pw : JsMap (JsMap Int)) (w token : Str) (dv : Int) (w' : Str) :
    mapGet (addDelta pw w token dv) w' =
      if w = w' then
        some (mapSet ((mapGet pw w).getD []) token
          ((mapGet ((mapGet pw w).getD []) token).getD 0 + dv))
      else mapGet pw w' := by
  simp [addDelta, mapGet_mapSet]

theorem deltaOf_addDelta (pw : JsMap (JsMap Int)) (w token : Str) (dv : Int)
    (w' token' : Str) :
    deltaOf (addDelta pw w token dv) w' token' =
      deltaOf pw w' token' + if w = w' ∧ token = token' then dv else 0 := by
  unfold deltaOf
  rw [mapGet_addDelta]
  by_cases hw : w = w'
  · subst hw
    simp only [if_true, true_and, mapGet_mapSet]
    by_cases ht : token = token'
    · subst ht
      cases hm : mapGet pw w <;> simp [mapGet]
    · cases hm : mapGet pw w <;> simp [ht, mapGet]
  · simp [hw]

/-- Contribution of one transfer log to a pair (wallet, token). -/
theorem netDelta_cons (l : RawLog) (ls : List RawLog) (w token : Str)
    (hl : isTransferLog l = true) :
    netDelta (l :: ls) w token =
      ((if toLowerCase l.address = token ∧ fromTopicAddr (l.topics.getD 2 []) = w
          then transferValue l else 0) -
        (if toLowerCase l.address = token ∧ fromTopicAddr (l.topics.getD 1 []) = w
          then transferValue l else 0)) + netDelta ls w token := by
  unfold netDelta received sent
  simp only [List.filter_cons, hl, if_true, Bool.and_eq_true, beq_iff_eq]
  split_ifs <;> simp <;> ring

theorem netDelta_cons_of_not (l : RawLog) (ls : List RawLog) (w token : Str)
    (hl : isTransferLog l = false) :
    netDelta (l :: ls) w token = netDelta ls w token := by
  unfold netDelta received sent
  simp [List.filter_cons, hl]

theorem netDelta_filter (logs : List RawLog) (w token : Str) :
    netDelta (logs.filter isTransferLog) w token = netDelta logs w token := by
  unfold netDelta received sent
  simp [List.filter_filter]

theorem deltaOf_step (WALLET_SET : List Str) (pw : JsMap (JsMap Int))
    (src dst tok : Str) (value : Int) (w token : Str) (hw : w ∈ WALLET_SET) :
    deltaOf
        (if (WALLET_SET.contains dst) = true then
          addDelta (if (WALLET_SET.contains src) = true then addDelta pw src tok (-value) else pw)
            dst tok value
         else (if (WALLET_SET.contains src) = true then addDelta pw src tok (-value) else pw))
        w token =
      deltaOf pw w token +
        ((if tok = token ∧ dst = w then value else 0) -
          (if tok = token ∧ src = w then value else 0)) := by
  have hc : WALLET_SET.contains w = true := by simpa using hw
  have e1 : deltaOf (if (WALLET_SET.contains src) = true then addDelta pw src tok (-value) else pw)
      w token = deltaOf pw w token - (if tok = token ∧ src = w then value else 0) := by
    by_cases hs : src = w
    · subst hs
      rw [if_pos hc, deltaOf_addDelta]
      by_cases ht : tok = token <;> simp [ht]
      ring
    · have : ¬ (tok = token ∧ src = w) := fun h => hs h.2
      rw [if_neg this]
      split_ifs
      · rw [deltaOf_addDelta, if_neg (fun h => hs h.1)]
        ring
      · ring
  generalize (if (WALLET_SET.contains src) = true then addDelta pw src tok (-value) else pw)
    = pw1 at e1 ⊢
  by_cases hd : dst = w
  · subst hd
    rw [if_pos hc, deltaOf_addDelta, e1]
    by_cases ht : tok = token <;> simp [ht]
    ring
  · have hn : ¬ (tok = token ∧ dst = w) := fun h => hd h.2
    rw [if_neg hn]
    by_cases hcd : (WALLET_SET.contains dst) = true
    · rw [if_pos hcd, deltaOf_addDelta, if_neg (fun h => hd h.1), e1]
      ring
    · rw [if_neg hcd, e1]
      ring

theorem accumulate_spec (WALLET_SET : List Str) (ls : List RawLog)
    (hall : ∀ l ∈ ls, isTransferLog l = true)
    (hdec : Decodable ls) (pw : JsMap (JsMap Int)) :
    ∃ pw', accumulate WALLET_SET ls pw = some pw' ∧
      ∀ w ∈ WALLET_SET, ∀ token,
        deltaOf pw' w token = deltaOf pw w token + netDelta ls w token := by
  induction ls generalizing pw with
  | nil => exact ⟨pw, rfl, fun w _ token => by simp [netDelta, received, sent]⟩
  | cons l ls ih =>
    have hl := hall l (List.mem_cons_self _ _)
    obtain ⟨value, hv⟩ := Option.isSome_iff_exists.mp (hdec l (List.mem_cons_self _ _) hl)
    have hall' : ∀ x ∈ ls, isTransferLog x = true := fun x hx =>
      hall x (List.mem_cons_of_mem _ hx)
    have hdec' : Decodable ls := fun x hx => hdec x (List.mem_cons_of_mem _ hx)
    simp only [accumulate, hv]
    obtain ⟨pw', hacc, hsum⟩ := ih hall' hdec' _
    refine ⟨pw', hacc, fun w hw token => ?_⟩
    have htv : transferValue l = value := by simp [transferValue, hv]
    rw [hsum w hw token, netDelta_cons l ls w token hl, htv,
      deltaOf_step WALLET_SET pw _ _ _ value w token hw]
    ring

theorem mem_of_mapGet {β : Type} (m : JsMap β) (k : Str) (v : β)
    (h : mapGet m k = some v) : (k, v) ∈ m := by
  induction m with
  | nil => simp [mapGet] at h
  | cons e m ih =>
    obtain ⟨k0, v0⟩ := e
    by_cases h0 : k0 = k
    · subst h0
      simp only [mapGet, if_true, Option.some.injEq] at h
      simp [h]
    · simp only [mapGet, h0, if_false] at h
      exact List.mem_cons_of_mem _ (ih h)

theorem mapGet_of_mem {β : Type} (m : JsMap β) (hm : KeysNodup m) (k : Str) (v : β)
    (h : (k, v) ∈ m) : mapGet m k = some v := by
  induction m with
  | nil => simp at h
  | cons e m ih =>
    obtain ⟨k0, v0⟩ := e
    have hnd := List.nodup_cons.mp hm
    rcases List.mem_cons.mp h with heq | hmem
    · cases heq
      simp [mapGet]
    · have hne : k0 ≠ k := by
        intro he
        subst he
        exact hnd.1 (List.mem_map.mpr ⟨(k0, v), hmem, rfl⟩)
      simp only [mapGet, hne, if_false]
      exact ih hnd.2 hmem

theorem keys_mapSet {β : Type} (m : JsMap β) (k : Str) (v : β) :
    (mapSet m k v).map Prod.fst =
      if k ∈ m.map Prod.fst then m.map Prod.fst else m.map Prod.fst ++ [k] := by
  induction m with
  | nil => rfl
  | cons e m ih =>
    obtain ⟨k0, v0⟩ := e
    by_cases h0 : k0 = k
    · subst h0
      have hmem : k0 ∈ ((k0, v0) :: m).map Prod.fst := List.mem_cons_self _ _
      rw [if_pos hmem]
      simp only [mapSet, if_true, List.map_cons]
    · have e1 : mapSet ((k0, v0) :: m) k v = (k0, v0) :: mapSet m k v := by
        simp only [mapSet, h0, if_false]
      rw [e1, List.map_cons, ih]
      by_cases hk : k ∈ m.map Prod.fst
      · have hmem : k ∈ ((k0, v0) :: m).map Prod.fst := List.mem_cons_of_mem _ hk
        rw [if_pos hk, if_pos hmem, List.map_cons]
      · have hmem : k ∉ ((k0, v0) :: m).map Prod.fst := by
          intro hc
          rcases List.mem_cons.mp hc with hc | hc
          · exact h0 hc.symm
          · exact hk hc
        rw [if_neg hk, if_neg hmem, List.map_cons, List.cons_append]

theorem keysNodup_mapSet {β : Type} (m : JsMap β) (hm : KeysNodup m) (k : Str) (v : β) :
    KeysNodup (mapSet m k v) := by
  unfold KeysNodup at hm ⊢
  rw [keys_mapSet]
  split_ifs with h
  · exact hm
  · exact List.Nodup.append hm (List.nodup_singleton k) (List.disjoint_singleton.mpr h)

theorem innerNodup_addDelta (pw : JsMap (JsMap Int)) (h : InnerNodup pw)
    (w token : Str) (dv : Int) : InnerNodup (addDelta pw w token dv) := by
  intro w' m hm
  rw [mapGet_addDelta] at hm
  split_ifs at hm with hw
  · cases hm
    apply keysNodup_mapSet
    cases hg : mapGet pw w with
    | none => simp [KeysNodup]
    | some m0 => exact h w m0 hg
  · exact h w' m hm

theorem innerNodup_accumulate (WALLET_SET : List Str) (ls : List RawLog)
    (pw pw' : JsMap (JsMap Int)) (h : InnerNodup pw)
    (hacc : accumulate WALLET_SET ls pw = some pw') : InnerNodup pw' := by
  induction ls generalizing pw with
  | nil =>
    simp only [accumulate, Option.some.injEq] at hacc
    exact hacc ▸ h
  | cons l ls ih =>
    simp only [accumulate] at hacc
    split at hacc
    · exact absurd hacc (by simp)
    · refine ih _ ?_ hacc
      split_ifs
      · exact innerNodup_addDelta _ (innerNodup_addDelta _ h _ _ _) _ _ _
      · exact innerNodup_addDelta _ h _ _ _
      · exact innerNodup_addDelta _ h _ _ _
      · exact h

/-- The non-zero entries of a per-wallet map are, up to order, the pairs a
specification of its values lists. -/
theorem nonzero_entries_perm (deltas : JsMap Int) (hnd : KeysNodup deltas)
    (f : Str → Int) (hf : ∀ tok, (mapGet deltas tok).getD 0 = f tok)
    (target : List (Str × Int)) (htn : target.Nodup)
    (ht : ∀ k v, (k, v) ∈ target ↔ (f k = v ∧ v ≠ 0)) :
    (deltas.filter (fun e => e.2 != 0)).Perm target := by
  rw [List.perm_ext_iff_of_nodup ((List.Nodup.of_map _ hnd).filter _) htn]
  rintro ⟨k, v⟩
  rw [ht k v, List.mem_filter]
  constructor
  · rintro ⟨hmem, hv⟩
    have hg := mapGet_of_mem deltas hnd k v hmem
    have := hf k
    rw [hg] at this
    exact ⟨this.symm, by simpa using hv⟩
  · rintro ⟨hfk, hv⟩
    have := hf k
    rw [hfk] at this
    cases hg : mapGet deltas k with
    | none =>
      rw [hg] at this
      exact absurd this.symm hv
    | some v' =>
      rw [hg] at this
      simp only [Option.getD_some] at this
      subst this
      exact ⟨mem_of_mapGet _ _ _ hg, by simpa using hv⟩

theorem items_perm (deltas : JsMap Int) :
    (items deltas).Perm (deltas.filter (fun e => e.2 != 0)) :=
  List.perm_insertionSort _ _

/-- Logs whose data is a hex blob (`0x` followed by hexadecimal digits) decode. -/
theorem decodable_of_hex (logs : List RawLog)
    (h : ∀ l ∈ logs, ∃ ds, l.data = "0x".toList ++ ds ∧ ∀ c ∈ ds, isHexDigit c = true) :
    Decodable logs := by
  intro l hl _
  obtain ⟨ds, hd, hhex⟩ := h l hl
  rw [hd, decodeTransferValue_of_hex ds hhex]
  rfl

theorem deltaOf_nil (w token : Str) : deltaOf [] w token = 0 := rfl

theorem decodable_filter (logs : List RawLog) (h : Decodable logs) :
    Decodable (logs.filter isTransferLog) := fun l hl ht =>
  h l (List.mem_of_mem_filter hl) ht

theorem accumulate_unwatched (WALLET_SET : List Str) (ls : List RawLog)
    (pw pw' : JsMap (JsMap Int)) (w : Str) (hw : w ∉ WALLET_SET)
    (h : mapGet pw w = none) (hacc : accumulate WALLET_SET ls pw = some pw') :
    mapGet pw' w = none := by
  induction ls generalizing pw with
  | nil =>
    simp only [accumulate, Option.some.injEq] at hacc
    exact hacc ▸ h
  | cons l ls ih =>
    simp only [accumulate] at hacc
    split at hacc
    · exact absurd hacc (by simp)
    · refine ih _ ?_ hacc
      have key : ∀ (q : JsMap (JsMap Int)) (x tok : Str) (dv : Int),
          mapGet q w = none → (WALLET_SET.contains x) = true →
          mapGet (addDelta q x tok dv) w = none := by
        intro q x tok dv hq hx
        have hxw : x ≠ w := by
          intro he
          rw [he] at hx
          exact hw (by simpa using hx)
        rw [mapGet_addDelta, if_neg hxw]
        exact hq
      split_ifs with h1 h2 h2
      · exact key _ _ _ _ (key _ _ _ _ h h2) h1
      · exact key _ _ _ _ h h1
      · exact key _ _ _ _ h h2
      · exact h

/-- C6: for a receipt whose transfer logs decode, the delta accumulated for a
watched wallet and a token equals the sum of the values of the transfer logs of
that token whose `to` is the wallet minus the sum of those whose `from` is the
wallet; the logs that are not transfer events contribute nothing, and nothing
is accumulated for a wallet that is not watched. -/
theorem perWalletDeltas_eq_netDelta (WALLET_SET : List Str) (logs : List RawLog)
    (hdec : Decodable logs) :
    ∃ pw, perWalletDeltas WALLET_SET logs = some pw ∧
      (∀ w ∈ WALLET_SET, ∀ token,
        deltaOf pw w token = received logs w token - sent logs w token) ∧
      (∀ w, w ∉ WALLET_SET → mapGet pw w = none) ∧
      perWalletDeltas WALLET_SET (logs.filter isTransferLog) = some pw := by
  obtain ⟨pw, hacc, hsum⟩ := accumulate_spec WALLET_SET (logs.filter isTransferLog)
    (fun l hl => (List.mem_filter.mp hl).2) (decodable_filter logs hdec) []
  refine ⟨pw, hacc, fun w hw token => ?_, fun w hw => ?_, ?_⟩
  · rw [hsum w hw token, deltaOf_nil, netDelta_filter, zero_add]
    rfl
  · exact accumulate_unwatched WALLET_SET _ [] pw w hw rfl hacc
  · unfold perWalletDeltas
    rw [List.filter_filter]
    simpa using hacc

set_option maxRecDepth 100000 in
/-- Witness of C6 on a receipt with a swap log between two transfers: the
deltas of `W` are `+1000 * 10^18` of `T` and `-2 * 10^18` of WOKB, and the
counterparty, which is not watched, has no entry. -/
theorem perWalletDeltas_eq_netDelta_witness :
    ∃ pw, perWalletDeltas [walletW] mixedLogs = some pw ∧
      deltaOf pw walletW tokenT = 1000 * 10 ^ 18 ∧
      deltaOf pw walletW WOKB_ADDR = -(2 * 10 ^ 18) ∧
      mapGet pw partyX = none ∧
      perWalletDeltas [walletW] (mixedLogs.filter isTransferLog) = some pw := by
  obtain ⟨pw, h1, h2, h3, h4⟩ :=
    perWalletDeltas_eq_netDelta [walletW] mixedLogs (by unfold Decodable; decide)
  exact ⟨pw, h1, (h2 walletW (by decide) tokenT).trans (by decide),
    (h2 walletW (by decide) WOKB_ADDR).trans (by decide), h3 partyX (by decide), h4⟩

theorem wrapScan_spec (router : Str) (ls : List RawLog) (hdec : Decodable ls)
    (acc : Int × Int) :
    wrapScan router ls acc =
      some (acc.1 + wrapTotal router ls, acc.2 + unwrapTotal router ls) := by
  induction ls generalizing acc with
  | nil => simp [wrapScan, wrapTotal, unwrapTotal]
  | cons l ls ih =>
    have hdec' : Decodable ls := fun x hx => hdec x (List.mem_cons_of_mem _ hx)
    by_cases hl : isTransferLog l = true
    · obtain ⟨value, hv⟩ :=
        Option.isSome_iff_exists.mp (hdec l (List.mem_cons_self _ _) hl)
      have htv : transferValue l = value := by simp [transferValue, hv]
      by_cases ha : toLowerCase l.address = WOKB_ADDR
      · simp only [wrapScan, hl, ha, hv, Bool.not_true, Bool.false_eq_true, if_false,
          bne_self_eq_false, ih hdec']
        simp only [wrapTotal, unwrapTotal, List.filter_cons, hl, ha, beq_self_eq_true,
          Bool.true_and, Bool.and_eq_true, beq_iff_eq]
        simp only [Option.some.injEq, Prod.mk.injEq]
        constructor <;> split_ifs <;>
          simp only [List.map_cons, List.sum_cons, htv] <;> ring
      · have hb : (toLowerCase l.address != WOKB_ADDR) = true := by simpa using ha
        have hb' : (toLowerCase l.address == WOKB_ADDR) = false := by simpa using ha
        simp only [wrapScan, hl, hb, Bool.not_true, Bool.false_eq_true, if_false, if_true,
          ih hdec']
        simp [wrapTotal, unwrapTotal, List.filter_cons, hb']
    · have hl' : isTransferLog l = false := by simpa using hl
      simp only [wrapScan, hl', Bool.not_false, if_true, ih hdec']
      simp [wrapTotal, unwrapTotal, List.filter_cons, hl']

theorem mapGet_records (f : JsMap Int → Option TradeRecord) (pw : JsMap (JsMap Int))
    (W : Str) (deltas : JsMap Int) (r : TradeRecord)
    (hg : mapGet pw W = some deltas) (hr : f deltas = some r) :
    mapGet (pw.filterMap (fun e => (f e.2).map (fun r => (e.1, r)))) W = some r := by
  induction pw with
  | nil => simp [mapGet] at hg
  | cons e pw ih =>
    obtain ⟨k, m⟩ := e
    by_cases hk : k = W
    · subst hk
      simp only [mapGet, if_true, Option.some.injEq] at hg
      subst hg
      simp [List.filterMap_cons, hr, mapGet]
    · simp only [mapGet, hk, if_false] at hg
      rw [List.filterMap_cons]
      cases hfm : f m with
      | none => simpa [hfm] using ih hg
      | some r' => simpa [hfm, mapGet, hk] using ih hg

theorem perWalletDeltas_spec (WALLET_SET : List Str) (logs : List RawLog)
    (hdec : Decodable logs) :
    ∃ pw, perWalletDeltas WALLET_SET logs = some pw ∧ InnerNodup pw ∧
      ∀ w ∈ WALLET_SET, ∀ token, deltaOf pw w token = netDelta logs w token := by
  obtain ⟨pw, hacc, hsum⟩ := accumulate_spec WALLET_SET (logs.filter isTransferLog)
    (fun l hl => (List.mem_filter.mp hl).2) (decodable_filter logs hdec) []
  refine ⟨pw, hacc, ?_, fun w hw token => ?_⟩
  · exact innerNodup_accumulate WALLET_SET _ [] pw
      (fun w m h => by simp [mapGet] at h) hacc
  · rw [hsum w hw token, deltaOf_nil, netDelta_filter, zero_add]

/-- From a specification of the net deltas of a wallet to its `items`, up to
order. -/
theorem items_of_netDelta (logs : List RawLog) (pw : JsMap (JsMap Int)) (W : Str)
    (hin : InnerNodup pw)
    (hsum : ∀ token, deltaOf pw W token = netDelta logs W token)
    (f : Str → Int) (hnet : ∀ tok, netDelta logs W tok = f tok)
    (target : List (Str × Int)) (htn : target.Nodup)
    (ht : ∀ k v, (k, v) ∈ target ↔ (f k = v ∧ v ≠ 0)) (hne : target ≠ []) :
    ∃ deltas, mapGet pw W = some deltas ∧ (items deltas).Perm target := by
  obtain ⟨⟨k, v⟩, tl, htl⟩ := List.exists_cons_of_ne_nil hne
  have hkv : f k = v ∧ v ≠ 0 := (ht k v).mp (by rw [htl]; exact List.mem_cons_self _ _)
  have hd : deltaOf pw W k ≠ 0 := by
    rw [hsum, hnet, hkv.1]
    exact hkv.2
  cases hg : mapGet pw W with
  | none => exact absurd (by simp [deltaOf, hg]) hd
  | some deltas =>
    refine ⟨deltas, rfl, (items_perm deltas).trans ?_⟩
    refine nonzero_entries_perm deltas (hin W deltas hg) f (fun tok => ?_) target htn ht
    rw [← hnet, ← hsum]
    simp [deltaOf, hg]

theorem natToString_ne_nil (n : Nat) : natToString n ≠ [] := by
  unfold natToString
  rw [decDigits]
  split_ifs <;> simp

theorem decStrFromBI_ne_nil (bi : Int) (decimals : Nat) : decStrFromBI bi decimals ≠ [] := by
  unfold decStrFromBI
  have h := natToString_ne_nil (bi.natAbs / 10 ^ decimals)
  simp only [ne_eq, List.append_eq_nil, not_and]
  intro _
  split_ifs
  · exact h
  · simp [h]

/-- The unit price in micro-USD is `floor(P * w * 10^d / (t * 10^18))`. -/
theorem usdtPerTokenByWokb_eq (P : Nat) (w t : Int) (d : Nat) (hw : 0 ≤ w) (ht : 0 < t) :
    usdtPerTokenByWokb P w t d 6 =
      some (decStrFromBI ((P * w * 10 ^ d) / (t * 10 ^ 18)) 6) := by
  have hden : t * 10 ^ 18 * 10 ^ 6 ≠ 0 := by positivity
  have hnum : (0 : Int) ≤ (P : Int) * w * 10 ^ d * 10 ^ 6 := by positivity
  have hden' : (0 : Int) ≤ t * 10 ^ 18 * 10 ^ 6 := by positivity
  have h6 : (if (6 : Nat) = 0 then 6 else 6) = 6 := rfl
  simp only [usdtPerTokenByWokb, not_le.mpr ht, if_false, bigDivToDec, hden, h6]
  rw [Int.tdiv_eq_ediv hnum hden', Int.mul_ediv_mul_of_pos_left _ _ (by positivity)]

theorem truthy_usdtPerTokenByWokb (P : Nat) (w t : Int) (d : Nat) (hw : 0 ≤ w) (ht : 0 < t) :
    truthy (usdtPerTokenByWokb P w t d 6) = true := by
  rw [usdtPerTokenByWokb_eq P w t d hw ht]
  have h := decStrFromBI_ne_nil ((P * w * 10 ^ d) / (t * 10 ^ 18)) 6
  cases hs : decStrFromBI ((P * w * 10 ^ d) / (t * 10 ^ 18)) 6 with
  | nil => exact absurd hs h
  | cons c cs => rfl


/-! ## Records: theorems -/

theorem rpcReceipt_of_deltas (P : Nat) (tokenMeta : Str → TokenMeta) (WALLET_SET : List Str)
    (receiptTo : Str) (logs : List RawLog) (pw : JsMap (JsMap Int)) (W : Str)
    (deltas : JsMap Int) (r : TradeRecord) (hdec : Decodable logs)
    (hpw : perWalletDeltas WALLET_SET logs = some pw) (hg : mapGet pw W = some deltas)
    (hr : walletRecord P tokenMeta (wrapTotal (toLowerCase receiptTo) logs)
      (unwrapTotal (toLowerCase receiptTo) logs) deltas = some r) :
    ∃ recs, rpcReceipt P tokenMeta WALLET_SET receiptTo logs = some recs ∧
      mapGet recs W = some r := by
  unfold rpcReceipt
  simp only [wrapScan_spec _ logs hdec, hpw, zero_add]
  exact ⟨_, rfl, mapGet_records _ pw W deltas r hg hr⟩

/-- C5: when the only non-zero net delta of a watched wallet `W` is `+a` of a
token `T` and the WOKB transfers from the zero address to the target of the
transaction total `w > 0`, the record of `W` is a single-leg record with action
BUY and unit price `floor(P * w * 10^d / (a * 10^18))` micro-USD at 6-decimal
scale, `d` being the decimals of `T`. -/
theorem singleLeg_wrap_buy (P : Nat) (tokenMeta : Str → TokenMeta) (WALLET_SET : List Str)
    (receiptTo : Str) (logs : List RawLog) (W T : Str) (a w : Int)
    (hW : W ∈ WALLET_SET) (hdec : Decodable logs) (ha : 0 < a) (hw : 0 < w)
    (hnet : ∀ tok, netDelta logs W tok = if tok = T then a else 0)
    (hwrap : wrapTotal (toLowerCase receiptTo) logs = w) :
    ∃ recs r, rpcReceipt P tokenMeta WALLET_SET receiptTo logs = some recs ∧
      mapGet recs W = some (TradeRecord.single r) ∧
      r.action = "BUY".toList ∧
      r.usdtPriceStr = some (decStrFromBI
        ((P * w * 10 ^ (ensureTokenMeta tokenMeta T).decimals) / (a * 10 ^ 18)) 6) := by
  obtain ⟨pw, hpw, hin, hsum⟩ := perWalletDeltas_spec WALLET_SET logs hdec
  obtain ⟨deltas, hg, hperm⟩ := items_of_netDelta logs pw W hin (hsum W hW)
    (fun tok => if tok = T then a else 0) hnet [(T, a)] (List.nodup_singleton _)
    (by
      intro k v
      simp only [List.mem_singleton, Prod.mk.injEq]
      constructor
      · rintro ⟨rfl, rfl⟩
        exact ⟨by simp, ne_of_gt ha⟩
      · rintro ⟨h1, h2⟩
        by_cases hk : k = T
        · simp only [hk, if_true] at h1
          exact ⟨hk, h1.symm⟩
        · simp only [hk, if_false] at h1
          exact absurd h1.symm h2)
    (by simp)
  have hitems : items deltas = [(T, a)] := List.perm_singleton.mp hperm
  have hrec : walletRecord P tokenMeta (wrapTotal (toLowerCase receiptTo) logs)
      (unwrapTotal (toLowerCase receiptTo) logs) deltas =
      some (TradeRecord.single (singleLeg P tokenMeta w
        (unwrapTotal (toLowerCase receiptTo) logs) (T, a))) := by
    simp only [walletRecord, hitems, hwrap]
  obtain ⟨recs, hrecs, hget⟩ :=
    rpcReceipt_of_deltas P tokenMeta WALLET_SET receiptTo logs pw W deltas _ hdec hpw hg hrec
  refine ⟨recs, _, hrecs, hget, ?_, ?_⟩
  · simp [singleLeg, ha]
  · simp only [singleLeg, ha, hw, and_self, if_true]
    exact usdtPerTokenByWokb_eq P w a _ (le_of_lt hw) ha

theorem netDelta_nil (w token : Str) : netDelta [] w token = 0 := by
  simp [netDelta, received, sent]

theorem netDelta_pair (l1 l2 : RawLog) (w token : Str)
    (h1 : isTransferLog l1 = true) (h2 : isTransferLog l2 = true) :
    netDelta [l1, l2] w token =
      ((if toLowerCase l1.address = token ∧ fromTopicAddr (l1.topics.getD 2 []) = w
          then transferValue l1 else 0) -
        (if toLowerCase l1.address = token ∧ fromTopicAddr (l1.topics.getD 1 []) = w
          then transferValue l1 else 0)) +
      ((if toLowerCase l2.address = token ∧ fromTopicAddr (l2.topics.getD 2 []) = w
          then transferValue l2 else 0) -
        (if toLowerCase l2.address = token ∧ fromTopicAddr (l2.topics.getD 1 []) = w
          then transferValue l2 else 0)) := by
  rw [netDelta_cons _ _ _ _ h1, netDelta_cons _ _ _ _ h2, netDelta_nil]
  ring

set_option maxRecDepth 100000 in
theorem wrapLogs_netDelta (tok : Str) :
    netDelta wrapLogs walletW tok = if tok = tokenU then 50 * 10 ^ 6 else 0 := by
  have e := netDelta_pair
    (transferLog tokenU partyX walletW (dataWord "2faf080"))
    (transferLog WOKB_ADDR ZERO_ADDR routerR (dataWord "14d1120d7b160000"))
    walletW tok (by decide) (by decide)
  have a1 : toLowerCase (transferLog tokenU partyX walletW (dataWord "2faf080")).address
      = tokenU := by decide
  have d1 : fromTopicAddr ((transferLog tokenU partyX walletW
      (dataWord "2faf080")).topics.getD 2 []) = walletW := by decide
  have s1 : fromTopicAddr ((transferLog tokenU partyX walletW
      (dataWord "2faf080")).topics.getD 1 []) ≠ walletW := by decide
  have v1 : transferValue (transferLog tokenU partyX walletW (dataWord "2faf080"))
      = 50 * 10 ^ 6 := by decide
  have d2 : fromTopicAddr ((transferLog WOKB_ADDR ZERO_ADDR routerR
      (dataWord "14d1120d7b160000")).topics.getD 2 []) ≠ walletW := by decide
  have s2 : fromTopicAddr ((transferLog WOKB_ADDR ZERO_ADDR routerR
      (dataWord "14d1120d7b160000")).topics.getD 1 []) ≠ walletW := by decide
  rw [show wrapLogs = [transferLog tokenU partyX walletW (dataWord "2faf080"),
    transferLog WOKB_ADDR ZERO_ADDR routerR (dataWord "14d1120d7b160000")] from rfl, e,
    a1, d1, v1]
  simp only [s1, d2, s2, and_false, and_true, if_false, sub_zero, add_zero]
  by_cases h : tok = tokenU
  · simp [h]
  · simp [h, Ne.symm h]

set_option maxRecDepth 100000 in
/-- Witness of C5 at the scenario of the specification: 50 units of a 6-decimal
token received, 1.5 WOKB wrapped into the router, price 190 USD: the unit price
is `5.7`. -/
theorem singleLeg_wrap_buy_witness :
    ∃ recs r, rpcReceipt 190000000 scenarioMeta [walletW] routerR wrapLogs = some recs ∧
      mapGet recs walletW = some (TradeRecord.single r) ∧
      r.action = "BUY".toList ∧ r.usdtPriceStr = some "5.7".toList := by
  obtain ⟨recs, r, h1, h2, h3, h4⟩ :=
    singleLeg_wrap_buy 190000000 scenarioMeta [walletW] routerR wrapLogs walletW tokenU
      (50 * 10 ^ 6) (15 * 10 ^ 17) (by decide) (by unfold Decodable; decide) (by decide)
      (by decide) wrapLogs_netDelta (by decide)
  exact ⟨recs, r, h1, h2, h3, h4.trans (by decide)⟩

theorem perm_pair_cases {α : Type} (l : List α) (x y : α) (h : l.Perm [x, y]) :
    l = [x, y] ∨ l = [y, x] := by
  have hlen := h.length_eq
  match l, hlen with
  | [p, q], _ =>
    have hx : x ∈ [p, q] := h.symm.subset (by simp)
    have hy : y ∈ [p, q] := h.symm.subset (by simp)
    have hp : p ∈ [x, y] := h.subset (by simp)
    have hq : q ∈ [x, y] := h.subset (by simp)
    simp only [List.mem_cons, List.mem_singleton, List.not_mem_nil, or_false] at hx hy hp hq
    rcases hp with rfl | rfl
    · rcases hq with rfl | rfl
      · rcases hy with rfl | rfl <;> simp
      · simp
    · rcases hq with rfl | rfl
      · simp
      · rcases hx with rfl | rfl <;> simp

theorem ensureTokenMeta_wokb (tokenMeta : Str → TokenMeta) :
    ensureTokenMeta tokenMeta WOKB_ADDR = ⟨"WOKB".toList, 18⟩ := by
  have h : toLowerCase WOKB_ADDR = WOKB_ADDR := by decide
  simp [ensureTokenMeta, h, WOKB_DECIMALS]

/-- The two-leg branch on a positive entry of a token whose symbol is not `WOKB`
and a negative WOKB entry, in either order of `items`. -/
theorem twoLegs_native_out (P : Nat) (tokenMeta : Str → TokenMeta) (wrap unwrap : Int)
    (T : Str) (a w : Int) (ha : 0 < a) (hw : 0 < w)
    (hsym : (ensureTokenMeta tokenMeta T).symbol ≠ "WOKB".toList)
    (i0 i1 : Str × Int)
    (hi : (i0 = (T, a) ∧ i1 = (WOKB_ADDR, -w)) ∨ (i0 = (WOKB_ADDR, -w) ∧ i1 = (T, a))) :
    (twoLegs P tokenMeta wrap unwrap i0 i1 []).action = "BUY".toList ∧
    (twoLegs P tokenMeta wrap unwrap i0 i1 []).focus = (ensureTokenMeta tokenMeta T).symbol ∧
    (twoLegs P tokenMeta wrap unwrap i0 i1 []).posAmtStr =
      formatUnits a (ensureTokenMeta tokenMeta T).decimals 6 ∧
    (twoLegs P tokenMeta wrap unwrap i0 i1 []).negAmtStr = formatUnits w 18 6 ∧
    (twoLegs P tokenMeta wrap unwrap i0 i1 []).usdtPriceStr =
      some (decStrFromBI
        ((P * w * 10 ^ (ensureTokenMeta tokenMeta T).decimals) / (a * 10 ^ 18)) 6) := by
  have hw' : ¬ (0 < -w) := by omega
  have ha' : ¬ (a < 0) := by omega
  have hw'' : -w < 0 := by omega
  have hpos : (([i0, i1].find? (fun e => decide (e.2 > 0))).getD i0) = (T, a) := by
    rcases hi with ⟨rfl, rfl⟩ | ⟨rfl, rfl⟩ <;> simp [List.find?, ha, hw']
  have hneg : (([i0, i1].find? (fun e => decide (e.2 < 0))).getD i1) = (WOKB_ADDR, -w) := by
    rcases hi with ⟨rfl, rfl⟩ | ⟨rfl, rfl⟩ <;> simp [List.find?, ha', hw'']
  have hp := usdtPerTokenByWokb_eq P w a (ensureTokenMeta tokenMeta T).decimals
    (le_of_lt hw) ha
  have htr := truthy_usdtPerTokenByWokb P w a (ensureTokenMeta tokenMeta T).decimals
    (le_of_lt hw) ha
  rw [hp] at htr
  simp only [twoLegs, hpos, hneg, ensureTokenMeta_wokb, neg_neg, hsym, false_and, if_false,
    true_and, ha, gt_iff_lt, if_true, hp, htr, Bool.not_true, Bool.false_eq_true, ne_eq,
    not_false_eq_true, and_self]

/-- C4, amended: when the only non-zero net deltas of a watched wallet `W` are
`+a` of a token `T` whose symbol is not `WOKB` and `-w` of WOKB, the record of
`W` is a two-leg record with action BUY, focus the symbol of `T`, amounts
`formatUnits(a, d, 6)` and `formatUnits(w, 18, 6)`, and unit price
`floor(P * w * 10^d / (a * 10^18))` micro-USD at 6-decimal scale. -/
theorem twoLeg_native_buy (P : Nat) (tokenMeta : Str → TokenMeta) (WALLET_SET : List Str)
    (receiptTo : Str) (logs : List RawLog) (W T : Str) (a w : Int)
    (hW : W ∈ WALLET_SET) (hdec : Decodable logs) (ha : 0 < a) (hw : 0 < w)
    (hsym : (ensureTokenMeta tokenMeta T).symbol ≠ "WOKB".toList)
    (hnet : ∀ tok, netDelta logs W tok =
      if tok = T then a else if tok = WOKB_ADDR then -w else 0) :
    ∃ recs r, rpcReceipt P tokenMeta WALLET_SET receiptTo logs = some recs ∧
      mapGet recs W = some (TradeRecord.twoLeg r) ∧
      r.action = "BUY".toList ∧
      r.focus = (ensureTokenMeta tokenMeta T).symbol ∧
      r.posAmtStr = formatUnits a (ensureTokenMeta tokenMeta T).decimals 6 ∧
      r.negAmtStr = formatUnits w 18 6 ∧
      r.usdtPriceStr = some (decStrFromBI
        ((P * w * 10 ^ (ensureTokenMeta tokenMeta T).decimals) / (a * 10 ^ 18)) 6) := by
  have hT : T ≠ WOKB_ADDR := by
    intro h
    rw [h, ensureTokenMeta_wokb] at hsym
    exact hsym rfl
  obtain ⟨pw, hpw, hin, hsum⟩ := perWalletDeltas_spec WALLET_SET logs hdec
  obtain ⟨deltas, hg, hperm⟩ := items_of_netDelta logs pw W hin (hsum W hW)
    (fun tok => if tok = T then a else if tok = WOKB_ADDR then -w else 0) hnet
    [(T, a), (WOKB_ADDR, -w)]
    (by simp [hT])
    (by
      intro k v
      simp only [List.mem_cons, List.mem_singleton, Prod.mk.injEq, List.not_mem_nil, or_false]
      constructor
      · rintro (⟨rfl, rfl⟩ | ⟨rfl, rfl⟩)
        · exact ⟨by simp, ne_of_gt ha⟩
        · exact ⟨by simp [Ne.symm hT], by omega⟩
      · rintro ⟨h1, h2⟩
        by_cases hk : k = T
        · simp only [hk, if_true] at h1
          exact Or.inl ⟨hk, h1.symm⟩
        · by_cases hk2 : k = WOKB_ADDR
          · rw [if_neg hk, if_pos hk2] at h1
            exact Or.inr ⟨hk2, h1.symm⟩
          · rw [if_neg hk, if_neg hk2] at h1
            exact absurd h1.symm h2)
    (by simp)
  have hfacts := twoLegs_native_out P tokenMeta (wrapTotal (toLowerCase receiptTo) logs)
    (unwrapTotal (toLowerCase receiptTo) logs) T a w ha hw hsym
  rcases perm_pair_cases _ _ _ hperm with hitems | hitems
  · have hrec : walletRecord P tokenMeta (wrapTotal (toLowerCase receiptTo) logs)
        (unwrapTotal (toLowerCase receiptTo) logs) deltas = some (TradeRecord.twoLeg
          (twoLegs P tokenMeta (wrapTotal (toLowerCase receiptTo) logs)
            (unwrapTotal (toLowerCase receiptTo) logs) (T, a) (WOKB_ADDR, -w) [])) := by
      simp only [walletRecord, hitems]
    obtain ⟨recs, hrecs, hget⟩ :=
      rpcReceipt_of_deltas P tokenMeta WALLET_SET receiptTo logs pw W deltas _ hdec hpw hg hrec
    exact ⟨recs, _, hrecs, hget, hfacts _ _ (Or.inl ⟨rfl, rfl⟩)⟩
  · have hrec : walletRecord P tokenMeta (wrapTotal (toLowerCase receiptTo) logs)
        (unwrapTotal (toLowerCase receiptTo) logs) deltas = some (TradeRecord.twoLeg
          (twoLegs P tokenMeta (wrapTotal (toLowerCase receiptTo) logs)
            (unwrapTotal (toLowerCase receiptTo) logs) (WOKB_ADDR, -w) (T, a) [])) := by
      simp only [walletRecord, hitems]
    obtain ⟨recs, hrecs, hget⟩ :=
      rpcReceipt_of_deltas P tokenMeta WALLET_SET receiptTo logs pw W deltas _ hdec hpw hg hrec
    exact ⟨recs, _, hrecs, hget, hfacts _ _ (Or.inr ⟨rfl, rfl⟩)⟩

set_option maxRecDepth 100000 in
theorem buyLogs_netDelta (tok : Str) :
    netDelta buyLogs walletW tok =
      if tok = tokenT then 1000 * 10 ^ 18 else if tok = WOKB_ADDR then -(2 * 10 ^ 18) else 0 := by
  have e := netDelta_pair
    (transferLog tokenT partyX walletW (dataWord "3635c9adc5dea00000"))
    (transferLog WOKB_ADDR walletW partyX (dataWord "1bc16d674ec80000"))
    walletW tok (by decide) (by decide)
  have a1 : toLowerCase (transferLog tokenT partyX walletW
      (dataWord "3635c9adc5dea00000")).address = tokenT := by decide
  have d1 : fromTopicAddr ((transferLog tokenT partyX walletW
      (dataWord "3635c9adc5dea00000")).topics.getD 2 []) = walletW := by decide
  have s1 : fromTopicAddr ((transferLog tokenT partyX walletW
      (dataWord "3635c9adc5dea00000")).topics.getD 1 []) ≠ walletW := by decide
  have v1 : transferValue (transferLog tokenT partyX walletW
      (dataWord "3635c9adc5dea00000")) = 1000 * 10 ^ 18 := by decide
  have a2 : toLowerCase (transferLog WOKB_ADDR walletW partyX
      (dataWord "1bc16d674ec80000")).address = WOKB_ADDR := by decide
  have d2 : fromTopicAddr ((transferLog WOKB_ADDR walletW partyX
      (dataWord "1bc16d674ec80000")).topics.getD 2 []) ≠ walletW := by decide
  have s2 : fromTopicAddr ((transferLog WOKB_ADDR walletW partyX
      (dataWord "1bc16d674ec80000")).topics.getD 1 []) = walletW := by decide
  have v2 : transferValue (transferLog WOKB_ADDR walletW partyX
      (dataWord "1bc16d674ec80000")) = 2 * 10 ^ 18 := by decide
  have hne : tokenT ≠ WOKB_ADDR := by decide
  rw [show buyLogs = [transferLog tokenT partyX walletW (dataWord "3635c9adc5dea00000"),
    transferLog WOKB_ADDR walletW partyX (dataWord "1bc16d674ec80000")] from rfl, e,
    a1, d1, v1, a2, s2, v2]
  simp only [s1, d2, and_false, and_true, if_false, sub_zero]
  by_cases h : tok = tokenT
  · simp [h, hne.symm]
  · by_cases h2 : tok = WOKB_ADDR
    · simp [h2, hne, hne.symm]
    · simp [h, h2, Ne.symm h, Ne.symm h2]

set_option maxRecDepth 100000 in
/-- Witness of the amended C4 at the scenario of the specification: 1000 units
of an 18-decimal token received for 2 WOKB at 190 USD: BUY, amounts `1000` and
`2`, unit price `0.38`. -/
theorem twoLeg_native_buy_witness :
    ∃ recs r, rpcReceipt 190000000 scenarioMeta [walletW] routerR buyLogs = some recs ∧
      mapGet recs walletW = some (TradeRecord.twoLeg r) ∧
      r.action = "BUY".toList ∧ r.focus = "TKN".toList ∧
      r.posAmtStr = "1000".toList ∧ r.negAmtStr = "2".toList ∧
      r.usdtPriceStr = some "0.38".toList := by
  obtain ⟨recs, r, h1, h2, h3, h4, h5, h6, h7⟩ :=
    twoLeg_native_buy 190000000 scenarioMeta [walletW] routerR buyLogs walletW tokenT
      (1000 * 10 ^ 18) (2 * 10 ^ 18) (by decide) (by unfold Decodable; decide) (by decide)
      (by decide) (by decide) buyLogs_netDelta
  exact ⟨recs, r, h1, h2, h3, h4.trans (by decide), h5.trans (by decide),
    h6.trans (by decide), h7.trans (by decide)⟩

set_option maxRecDepth 100000 in
/-- C4 as stated fails: in the same receipt, when the contract of the non-native
token `T` reports the symbol `WOKB`, the record is a SWAP of `WOKB/WOKB` priced
at `95000`, not a BUY of `T` at `0.38`. -/
theorem twoLeg_native_buy_counterexample :
    tokenT ≠ WOKB_ADDR ∧
    (perWalletDeltas [walletW] buyLogs).bind (fun pw => mapGet pw walletW) =
      some [(tokenT, 1000 * 10 ^ 18), (WOKB_ADDR, -(2 * 10 ^ 18))] ∧
    (recordOf 190000000 spoofMeta [walletW] routerR buyLogs walletW).map TradeRecord.summary =
      some ("SWAP".toList, "WOKB/WOKB".toList, some "95000".toList) := by
  decide


/-! ## The order of `items` and the classification by the unwrap leg -/

set_option maxRecDepth 100000 in
/-- C2 at a failing input: with deltas `+50` of `U` and `+3` of `T`, `items` is
`[(T, 3), (U, 50)]`: the smaller magnitude comes first. -/
theorem items_ascending_example :
    itemsOf [walletW] sortLogs walletW = some [(tokenT, 3), (tokenU, 50)] := by
  decide

set_option maxRecDepth 100000 in
/-- C1 at a failing input: with deltas `+50` of `U`, `+3` of `T`, `-20` of `V`
and `-4` of `Z`, the sides chosen are `(T, +3)` and `(Z, -4)`, the smallest
positive delta and the smallest-magnitude negative delta. -/
theorem sides_smallest_example :
    itemsOf [walletW] fourLegLogs walletW =
      some [(tokenT, 3), (tokenZ, -4), (tokenV, -20), (tokenU, 50)] ∧
    (recordOf 190000000 scenarioMeta [walletW] routerR fourLegLogs walletW).bind
        TradeRecord.sides = some ((tokenT, 3), (tokenZ, -4)) := by
  decide

set_option maxRecDepth 100000 in
/-- C3 at a failing input: neither side is WOKB, nothing is wrapped, the price is
inferred from the unwrap leg, and the record is a BUY of the positive side. -/
theorem unwrap_classified_buy_example :
    wrapTotal routerR unwrapLogs = 0 ∧ unwrapTotal routerR unwrapLogs = 15 * 10 ^ 17 ∧
    (recordOf 190000000 scenarioMeta [walletW] routerR unwrapLogs walletW).bind
        TradeRecord.sides = some ((tokenU, 50 * 10 ^ 6), (tokenT, -(7 * 10 ^ 18))) ∧
    (recordOf 190000000 scenarioMeta [walletW] routerR unwrapLogs walletW).map
        TradeRecord.priceLine = some "@ 40.714285 USDT/TKN (via unwrap)".toList ∧
    (recordOf 190000000 scenarioMeta [walletW] routerR unwrapLogs walletW).map
        TradeRecord.summary = some ("BUY".toList, "USDX".toList, some "40.714285".toList) := by
  decide

theorem cmpItems_le_iff (a b : Str × Int) : cmpItems a b ≤ 0 ↔ absBI a.2 ≤ absBI b.2 := by
  unfold cmpItems
  simp only [gt_iff_lt]
  split_ifs with h1 h2
  · exact ⟨fun _ => le_of_lt h1, fun _ => by decide⟩
  · exact ⟨fun h => absurd h (by decide), fun h => absurd h2 (not_lt.mpr h)⟩
  · exact ⟨fun _ => not_lt.mp h2, fun _ => le_refl _⟩

/-- The order of `items` for every wallet: each entry has an absolute value less
than or equal to that of every later entry (ascending magnitude). -/
theorem items_sorted_ascending (deltas : JsMap Int) :
    (items deltas).Sorted (fun a b => absBI a.2 ≤ absBI b.2) := by
  have hs : (items deltas).Sorted (fun a b => cmpItems a b ≤ 0) := by
    haveI : IsTotal (Str × Int) (fun a b => cmpItems a b ≤ 0) :=
      ⟨fun a b => by
        simp only [cmpItems_le_iff]
        exact le_total _ _⟩
    haveI : IsTrans (Str × Int) (fun a b => cmpItems a b ≤ 0) :=
      ⟨fun a b c => by
        simp only [cmpItems_le_iff]
        exact le_trans⟩
    exact List.sorted_insertionSort _ _
  exact hs.imp (fun h => (cmpItems_le_iff _ _).mp h)

theorem includes_append (pre sub post : Str) : includes (pre ++ (sub ++ post)) sub = true := by
  unfold includes
  rw [List.any_eq_true]
  refine ⟨sub ++ post, ?_, ?_⟩
  · rw [List.mem_tails]
    exact List.suffix_append _ _
  · rw [List.isPrefixOf_iff_prefix]
    exact List.prefix_append _ _

/-- The classification of lines 498-502 whenever neither symbol is `WOKB`,
nothing is wrapped and the price comes from the unwrap leg: always BUY of the
positive side, because `(via unwrap)` contains `wrap`. -/
theorem twoLegs_unwrap_buy (P : Nat) (tokenMeta : Str → TokenMeta) (unwrap : Int)
    (i0 i1 : Str × Int) (rest : List (Str × Int))
    (hpos : (ensureTokenMeta tokenMeta
      (twoLegs P tokenMeta 0 unwrap i0 i1 rest).posToken).symbol ≠ "WOKB".toList)
    (hneg : (ensureTokenMeta tokenMeta
      (twoLegs P tokenMeta 0 unwrap i0 i1 rest).negToken).symbol ≠ "WOKB".toList)
    (hun : 0 < unwrap) (hamt : 0 < -(twoLegs P tokenMeta 0 unwrap i0 i1 rest).negValRaw) :
    (twoLegs P tokenMeta 0 unwrap i0 i1 rest).action = "BUY".toList ∧
    (twoLegs P tokenMeta 0 unwrap i0 i1 rest).focus =
      (ensureTokenMeta tokenMeta (twoLegs P tokenMeta 0 unwrap i0 i1 rest).posToken).symbol := by
  simp only [twoLegs] at hpos hneg hamt ⊢
  have hp := truthy_usdtPerTokenByWokb P unwrap _
    (ensureTokenMeta tokenMeta
      ((List.find? (fun e => decide (e.2 < 0)) (i0 :: i1 :: rest)).getD i1).1).decimals
    (le_of_lt hun) hamt
  have hinc : ∀ (p sym : Str), includes
      ("@ ".toList ++ p ++ " USDT/".toList ++ sym ++ " (via unwrap)".toList) "wrap".toList
      = true := by
    intro p sym
    have := includes_append ("@ ".toList ++ p ++ " USDT/".toList ++ sym ++ " (via un".toList)
      "wrap".toList ")".toList
    simpa using this
  have hnone : truthy none = false := rfl
  simp only [hpos, hneg, false_and, and_false, if_false, hnone, Bool.not_false, if_true,
    lt_self_iff_false, gt_iff_lt, hamt, hun, and_self, hp, hinc, ne_eq, not_false_eq_true,
    not_true_eq_false]

theorem find?_pairwise_first {α : Type} (R : α → α → Prop) (p : α → Bool) (l : List α)
    (hl : l.Pairwise R) (x : α) (hx : l.find? p = some x) (e : α) (he : e ∈ l)
    (hp : p e = true) : x = e ∨ R x e := by
  induction l with
  | nil => simp at he
  | cons a l ih =>
    have hpw := List.pairwise_cons.mp hl
    by_cases ha : p a = true
    · rw [List.find?_cons_of_pos _ ha] at hx
      cases hx
      rcases List.mem_cons.mp he with h | h
      · exact Or.inl h.symm
      · exact Or.inr (hpw.1 e h)
    · rw [List.find?_cons_of_neg _ ha] at hx
      rcases List.mem_cons.mp he with h | h
      · exact absurd (h ▸ hp) ha
      · exact ih hpw.2 hx h

/-- The sides chosen by the two-or-more-legs branch for every wallet: the
positive side is at most every positive delta of the wallet, and the negative
side is at least every negative delta (it has the smallest magnitude). -/
theorem twoLegs_sides_smallest (P : Nat) (tokenMeta : Str → TokenMeta) (wrap unwrap : Int)
    (deltas : JsMap Int) (i0 i1 : Str × Int) (rest : List (Str × Int))
    (hitems : items deltas = i0 :: i1 :: rest) (e : Str × Int) (he : e ∈ items deltas) :
    (0 < e.2 → (twoLegs P tokenMeta wrap unwrap i0 i1 rest).posValRaw ≤ e.2) ∧
    (e.2 < 0 → e.2 ≤ (twoLegs P tokenMeta wrap unwrap i0 i1 rest).negValRaw) := by
  have hs := items_sorted_ascending deltas
  rw [hitems] at hs he
  constructor
  · intro hpos
    have hpe : (fun x : Str × Int => decide (x.2 > 0)) e = true := by simpa using hpos
    cases hf : (i0 :: i1 :: rest).find? (fun x => decide (x.2 > 0)) with
    | none =>
      have := List.find?_eq_none.mp hf e he
      exact absurd hpe this
    | some x =>
      have hx : 0 < x.2 := by simpa using List.find?_some hf
      have hfirst := find?_pairwise_first _ _ _ hs x hf e he hpe
      simp only [twoLegs, hf, Option.getD_some]
      rcases hfirst with h | h
      · rw [h]
      · simp only [absBI, not_lt.mpr (le_of_lt hx), not_lt.mpr (le_of_lt hpos), if_false] at h
        exact h
  · intro hneg
    have hpe : (fun x : Str × Int => decide (x.2 < 0)) e = true := by simpa using hneg
    cases hf : (i0 :: i1 :: rest).find? (fun x => decide (x.2 < 0)) with
    | none =>
      have := List.find?_eq_none.mp hf e he
      exact absurd hpe this
    | some x =>
      have hx : x.2 < 0 := by simpa using List.find?_some hf
      have hfirst := find?_pairwise_first _ _ _ hs x hf e he hpe
      simp only [twoLegs, hf, Option.getD_some]
      rcases hfirst with h | h
      · rw [h]
      · simp only [absBI, hx, hneg, if_true] at h
        omega


/-! ## Amounts of tokens without decimals, the native side, decode errors, symbol fallback -/

/-- With zero decimals every non-negative amount is formatted as `0`:
`s.slice(0, -0)` is the empty string. -/
theorem formatUnits_zero_decimals (x : Nat) : formatUnits (x : Int) 0 6 = "0".toList := by
  have hneg : ¬ ((x : Int) < 0) := by omega
  simp [formatUnits, slice, sliceIndex, hneg]

set_option maxRecDepth 100000 in
/-- C12 at a failing input: the amount 12345 of a token with 0 decimals is
formatted as `0`, not as `12345`. -/
theorem formatUnits_zero_decimals_example :
    formatUnits 12345 0 6 = "0".toList ∧ natToString 12345 = "12345".toList ∧
    formatUnits 12345 0 6 ≠ natToString 12345 := by
  decide

set_option maxRecDepth 100000 in
/-- C20 at a failing input: `T` is not at the WOKB address but its contract
reports the symbol `WOKB`; the branch treats it as the native leg, prices `U`
at `190 * 1000 / 50 = 3800` and classifies a SELL of `U`, while the footer
test by address finds no WOKB side. -/
theorem symbol_treated_as_native_example :
    tokenT ≠ WOKB_ADDR ∧ tokenU ≠ WOKB_ADDR ∧
    (recordOf 190000000 spoofMeta [walletW] routerR spoofLogs walletW).bind
        TradeRecord.sides = some ((tokenT, 1000 * 10 ^ 18), (tokenU, -(50 * 10 ^ 18))) ∧
    (recordOf 190000000 spoofMeta [walletW] routerR spoofLogs walletW).map
        TradeRecord.summary = some ("SELL".toList, "OTHER".toList, some "3800".toList) ∧
    (recordOf 190000000 spoofMeta [walletW] routerR spoofLogs walletW).map
        TradeRecord.footer = some none := by
  decide

/-- The classification of lines 499-500 reads the symbols only: whatever the
address of the positive side, a reported symbol `WOKB` with another symbol on
the negative side gives SELL of the negative side. -/
theorem twoLegs_sell_by_symbol (P : Nat) (tokenMeta : Str → TokenMeta) (wrap unwrap : Int)
    (i0 i1 : Str × Int) (rest : List (Str × Int))
    (hpos : (ensureTokenMeta tokenMeta
      (twoLegs P tokenMeta wrap unwrap i0 i1 rest).posToken).symbol = "WOKB".toList)
    (hneg : (ensureTokenMeta tokenMeta
      (twoLegs P tokenMeta wrap unwrap i0 i1 rest).negToken).symbol ≠ "WOKB".toList) :
    (twoLegs P tokenMeta wrap unwrap i0 i1 rest).action = "SELL".toList ∧
    (twoLegs P tokenMeta wrap unwrap i0 i1 rest).focus =
      (ensureTokenMeta tokenMeta (twoLegs P tokenMeta wrap unwrap i0 i1 rest).negToken).symbol := by
  simp only [twoLegs] at hpos hneg ⊢
  simp only [hpos, hneg, ne_eq, not_true_eq_false, false_and, if_false, not_false_eq_true,
    and_self, if_true]

theorem decodeSwapData_of_words_rest (dataHex w0 w1 w2 w3 rest : Str)
    (hpad : padStart (64 * 4) (strip0x dataHex) = w0 ++ (w1 ++ (w2 ++ (w3 ++ rest))))
    (l0 : w0.length = 64) (l1 : w1.length = 64) (l2 : w2.length = 64) (l3 : w3.length = 64)
    (h0 : ∀ c ∈ w0, isHexDigit c = true) (h1 : ∀ c ∈ w1, isHexDigit c = true)
    (h2 : ∀ c ∈ w2, isHexDigit c = true) (h3 : ∀ c ∈ w3, isHexDigit c = true) :
    decodeSwapData dataHex =
      some ⟨(hexValue w0 : Int), (hexValue w1 : Int), (hexValue w2 : Int), (hexValue w3 : Int)⟩ := by
  have hlen : (w0 ++ (w1 ++ (w2 ++ (w3 ++ rest)))).length = (252 + rest.length) + 1 + 1 + 1 + 1 := by
    simp only [List.length_append, l0, l1, l2, l3]
    omega
  unfold decodeSwapData
  simp only [hpad]
  rw [hlen, matchWords_append_word _ w0 _ l0 h0, matchWords_append_word _ w1 _ l1 h1,
    matchWords_append_word _ w2 _ l2 h2, matchWords_append_word _ w3 _ l3 h3]
  simp [List.getD, hexToBig_word _ l0 h0, hexToBig_word _ l1 h1, hexToBig_word _ l2 h2,
    hexToBig_word _ l3 h3]

/-- On every hex blob `decodeSwapData` returns four integers. -/
theorem decodeSwapData_isSome_of_hex (ds : Str) (hhex : ∀ c ∈ ds, isHexDigit c = true) :
    (decodeSwapData ("0x".toList ++ ds)).isSome = true := by
  by_cases hlen : ds.length ≤ 256
  · rw [decodeSwapData_padded _ ds (strip0x_prefixed ds) hhex hlen]
    rfl
  · have hl : 256 ≤ ds.length := by omega
    have hpad : padStart (64 * 4) (strip0x ("0x".toList ++ ds)) = ds := by
      rw [strip0x_prefixed, padStart]
      have : 64 * 4 - ds.length = 0 := by omega
      rw [this]
      rfl
    have e1 : ds = ds.take 64 ++ ds.drop 64 := (List.take_append_drop 64 ds).symm
    have e2 : ds.drop 64 = (ds.drop 64).take 64 ++ ds.drop 128 := by
      have h := (List.take_append_drop 64 (ds.drop 64)).symm
      rw [List.drop_drop] at h
      exact h
    have e3 : ds.drop 128 = (ds.drop 128).take 64 ++ ds.drop 192 := by
      have h := (List.take_append_drop 64 (ds.drop 128)).symm
      rw [List.drop_drop] at h
      exact h
    have e4 : ds.drop 192 = (ds.drop 192).take 64 ++ ds.drop 256 := by
      have h := (List.take_append_drop 64 (ds.drop 192)).symm
      rw [List.drop_drop] at h
      exact h
    have hsplit : ds = ds.take 64 ++ ((ds.drop 64).take 64 ++
        ((ds.drop 128).take 64 ++ ((ds.drop 192).take 64 ++ ds.drop 256))) := by
      rw [← e4, ← e3, ← e2, ← e1]
    have hx : ∀ (k : Nat), ∀ c ∈ (ds.drop k).take 64, isHexDigit c = true := fun k c hc =>
      hhex c (List.mem_of_mem_drop (List.mem_of_mem_take hc))
    have hx0 : ∀ c ∈ ds.take 64, isHexDigit c = true := fun c hc =>
      hhex c (List.mem_of_mem_take hc)
    rw [decodeSwapData_of_words_rest _ _ _ _ _ _ (hpad.trans hsplit)
      (by simp only [List.length_take]; omega)
      (by simp only [List.length_take, List.length_drop]; omega)
      (by simp only [List.length_take, List.length_drop]; omega)
      (by simp only [List.length_take, List.length_drop]; omega)
      hx0 (hx 64) (hx 128) (hx 192)]
    rfl

theorem rpcReceipt_isSome (P : Nat) (tokenMeta : Str → TokenMeta) (WALLET_SET : List Str)
    (receiptTo : Str) (logs : List RawLog) (hdec : Decodable logs) :
    (rpcReceipt P tokenMeta WALLET_SET receiptTo logs).isSome = true := by
  obtain ⟨pw, hpw, _, _⟩ := perWalletDeltas_spec WALLET_SET logs hdec
  unfold rpcReceipt
  simp only [wrapScan_spec _ logs hdec, hpw]
  rfl

set_option maxRecDepth 100000 in
/-- C18 as stated fails: on the data `0xzz`, whose characters after the prefix
are not hexadecimal digits, both decoders raise, and the handler of a receipt
that contains a transfer log with this data ends without a record. -/
theorem decode_raises_counterexample :
    decodeTransferValue "0xzz".toList = none ∧ decodeSwapData "0xzz".toList = none ∧
    rpcReceipt 190000000 scenarioMeta [walletW] routerR (buyLogs ++ [badLog]) = none := by
  decide

set_option maxRecDepth 100000 in
/-- Not every character that is not a hexadecimal digit makes the decoders
raise: `BigInt` trims white space, so a blank after the digits is ignored, and
the dot of `/.{1,64}/g` does not match a line feed, which therefore ends a
word. -/
theorem decode_other_characters_example :
    decodeTransferValue "0xFF ".toList = some 255 ∧
    decodeSwapData "0x05\n03".toList = some ⟨0, 0, 0, 5⟩ := by
  decide

/-- C18, amended: on every log data string that is a hex blob (`0x` followed by
any number of hexadecimal digits: empty, short, truncated or longer than
expected) `decodeTransferValue` and `decodeSwapData` return integers, and the
handler of a receipt whose logs carry such data runs to its end. -/
theorem decode_total_on_hex :
    (∀ ds : Str, (∀ c ∈ ds, isHexDigit c = true) →
      (decodeTransferValue ("0x".toList ++ ds)).isSome = true ∧
      (decodeSwapData ("0x".toList ++ ds)).isSome = true) ∧
    (∀ (P : Nat) (tokenMeta : Str → TokenMeta) (WALLET_SET : List Str) (receiptTo : Str)
      (logs : List RawLog), HexData logs →
      (rpcReceipt P tokenMeta WALLET_SET receiptTo logs).isSome = true) := by
  refine ⟨fun ds h => ⟨?_, decodeSwapData_isSome_of_hex ds h⟩, ?_⟩
  · rw [decodeTransferValue_of_hex ds h]
    rfl
  · intro P tokenMeta WALLET_SET receiptTo logs hhex
    exact rpcReceipt_isSome P tokenMeta WALLET_SET receiptTo logs (decodable_of_hex logs hhex)

set_option maxRecDepth 100000 in
/-- Witness of the amended C18: the empty blob and a one-byte blob decode, the
first to zeros and the second to 1 (as the last amount for a swap). -/
theorem decode_total_on_hex_witness :
    ((decodeTransferValue ("0x".toList ++ "01".toList)).isSome = true ∧
      (decodeSwapData ("0x".toList ++ "01".toList)).isSome = true) ∧
    decodeTransferValue "0x".toList = some 0 ∧
    decodeTransferValue "0x01".toList = some 1 ∧
    decodeSwapData "0x01".toList = some ⟨0, 0, 0, 1⟩ :=
  ⟨decode_total_on_hex.1 "01".toList (by decide), by decide, by decide, by decide⟩

/-- The stand-in codec on the bytes of `MKR`, and on a byte of 128 or more. -/
theorem asciiOfHex_example :
    asciiOfHex "4d4b52".toList = "MKR".toList ∧ asciiOfHex "4dc3a9".toList = "M".toList := by
  decide

set_option maxRecDepth 100000 in
/-- C19 as stated fails: for an address starting `0xabcdef...` and the empty
reply `0x` the stored symbol is `0XABCD`, not the first six hexadecimal
characters `ABCDEF`. -/
theorem resolveSymbol_counterexample :
    decodeSymbol asciiOfHex "0x".toList = none ∧
    resolveSymbol asciiOfHex tokenLetters "0x".toList = "0XABCD".toList ∧
    resolveSymbol asciiOfHex tokenLetters "0x".toList ≠
      toUpperCase ((tokenLetters.drop 2).take 6) := by
  decide

/-- C19, amended: when the symbol reply decodes to nothing, the stored symbol is
the first six characters of the lower-cased address string, upper-cased: `0X`
followed by the first four hexadecimal digits in upper case.  The empty reply
and the reply `0x` decode to nothing. -/
theorem resolveSymbol_fallback (hexToUtf8 : Str → Str) (ds symHex : Str)
    (hlen : 4 ≤ ds.length) (hnone : decodeSymbol hexToUtf8 symHex = none) :
    resolveSymbol hexToUtf8 ("0x".toList ++ ds) symHex =
      "0X".toList ++ toUpperCase (ds.take 4) ∧
    decodeSymbol hexToUtf8 [] = none ∧ decodeSymbol hexToUtf8 "0x".toList = none := by
  refine ⟨?_, ?_, ?_⟩
  · have hs : slice ("0x".toList ++ ds) 0 6 = "0x".toList ++ ds.take 4 := by
      have hl : ("0x".toList ++ ds).length = ds.length + 2 := by
        show (['0', 'x'] ++ ds).length = ds.length + 2
        simp only [List.length_append, List.length_cons, List.length_nil]
        omega
      simp only [slice, sliceIndex, hl]
      have h6 : min (6 : Int).toNat (ds.length + 2) = 6 := by
        have : (6 : Int).toNat = 6 := rfl
        rw [this]
        omega
      have h0 : min (0 : Int).toNat (ds.length + 2) = 0 := by simp
      simp only [show ¬ ((0 : Int) < 0) by decide, show ¬ ((6 : Int) < 0) by decide, if_false,
        h6, h0, List.drop_zero, Nat.sub_zero]
      rfl
    simp only [resolveSymbol, hnone, hs]
    rfl
  · simp [decodeSymbol]
  · simp [decodeSymbol]

set_option maxRecDepth 100000 in
/-- Witness of the amended C19 at the address `0xabcdef01...` with the reply
`0x`: the stored symbol is `0XABCD`. -/
theorem resolveSymbol_fallback_witness :
    resolveSymbol asciiOfHex tokenLetters "0x".toList = "0XABCD".toList :=
  (resolveSymbol_fallback asciiOfHex (tokenLetters.drop 2) "0x".toList (by decide)
    (by decide)).1.trans (by decide)


/-! ## Deduplication of receipt requests -/

theorem muxInv_initial : MuxInv MuxState.initial := by
  simp [MuxInv, MuxState.initial]

theorem muxInv_onPush (p : LogPush) (st : MuxState) (h : MuxInv st) : MuxInv (onPush p st) := by
  unfold onPush
  split_ifs with h1 h2
  · cases hd : decodeTransferValue p.data with
    | none => exact h
    | some v =>
      refine ⟨by simp [h.1], ?_⟩
      have hnot : p.transactionHash ∉ st.seenTx := by simpa using h2.2
      exact List.Nodup.append h.2 (List.nodup_singleton _) (List.disjoint_singleton.mpr hnot)
  · cases hd : decodeTransferValue p.data with
    | none => exact h
    | some v =>
      exact h
  · exact h

theorem muxInv_onPushes (ps : List LogPush) (st : MuxState) (h : MuxInv st) :
    MuxInv (onPushes ps st) := by
  induction ps generalizing st with
  | nil => exact h
  | cons p ps ih => exact ih _ (muxInv_onPush p st h)

theorem seenTx_mono_onPush (p : LogPush) (st : MuxState) (tx : Str) (h : tx ∈ st.seenTx) :
    tx ∈ (onPush p st).seenTx := by
  unfold onPush
  split_ifs with h1 h2
  · cases hd : decodeTransferValue p.data with
    | none => exact h
    | some v =>
      exact List.mem_append_left _ h
  · cases hd : decodeTransferValue p.data with
    | none => exact h
    | some v =>
      exact h
  · exact h

theorem seenTx_mono_onPushes (ps : List LogPush) (st : MuxState) (tx : Str)
    (h : tx ∈ st.seenTx) : tx ∈ (onPushes ps st).seenTx := by
  induction ps generalizing st with
  | nil => exact h
  | cons p ps ih => exact ih _ (seenTx_mono_onPush p st tx h)

theorem seenTx_of_livePush (p : LogPush) (st : MuxState) (hp : LivePush p) :
    p.transactionHash ∈ (onPush p st).seenTx := by
  obtain ⟨h1, h2, h3, h4⟩ := hp
  obtain ⟨v, hv⟩ := Option.isSome_iff_exists.mp h3
  unfold onPush
  rw [if_pos ⟨h1, h2⟩]
  simp only [hv]
  by_cases hs : st.seenTx.contains p.transactionHash = true
  · rw [if_neg (fun hc => hc.2 hs)]
    simpa using hs
  · rw [if_pos ⟨h4, hs⟩]
    simp

theorem seenTx_of_mem_livePush (ps : List LogPush) (st : MuxState) (p : LogPush)
    (hmem : p ∈ ps) (hp : LivePush p) : p.transactionHash ∈ (onPushes ps st).seenTx := by
  induction ps generalizing st with
  | nil => simp at hmem
  | cons q ps ih =>
    rcases List.mem_cons.mp hmem with h | h
    · subst h
      exact seenTx_mono_onPushes ps _ _ (seenTx_of_livePush p st hp)
    · exact ih _ h

theorem filter_eq_length_of_nodup (l : List Str) (tx : Str) (h : l.Nodup) :
    (l.filter (fun t => decide (t = tx))).length = if tx ∈ l then 1 else 0 := by
  induction l with
  | nil => simp
  | cons a l ih =>
    have hnd := List.nodup_cons.mp h
    by_cases ha : a = tx
    · subst ha
      have hnot : a ∉ l := hnd.1
      simp [List.filter_cons, ih hnd.2, hnot]
    · have hne : ¬ tx = a := fun he => ha he.symm
      simp [List.filter_cons, ha, hne, ih hnd.2]

/-- C16: over every sequence of pushes handled from start-up, at most one
receipt request is sent per transaction hash, and exactly one for the hash of
any push that is live (from a transfer subscription, at least three topics, not
removed): two overlapping pushes of the same transaction give one request. -/
theorem receipt_request_once (ps : List LogPush) :
    (∀ tx, receiptRequestsFor (onPushes ps MuxState.initial) tx ≤ 1) ∧
    (∀ p ∈ ps, LivePush p →
      receiptRequestsFor (onPushes ps MuxState.initial) p.transactionHash = 1) := by
  have hinv := muxInv_onPushes ps MuxState.initial muxInv_initial
  have hle : ∀ tx, receiptRequestsFor (onPushes ps MuxState.initial) tx ≤ 1 := by
    intro tx
    unfold receiptRequestsFor
    rw [hinv.1, filter_eq_length_of_nodup _ tx hinv.2]
    split_ifs <;> omega
  refine ⟨hle, fun p hmem hp => ?_⟩
  have hseen := seenTx_of_mem_livePush ps MuxState.initial p hmem hp
  unfold receiptRequestsFor
  rw [hinv.1, filter_eq_length_of_nodup _ _ hinv.2, if_pos hseen]

set_option maxRecDepth 100000 in
/-- Witness of C16: the same transfer log pushed by the `tr_in` and by the
`tr_out` subscription gives one receipt request, with id 2. -/
theorem receipt_request_once_witness :
    receiptRequestsFor (onPushes [pushIn, pushOut] MuxState.initial) txHash = 1 ∧
    (onPushes [pushIn, pushOut] MuxState.initial).sent =
      [(2, "eth_getTransactionReceipt".toList, txHash)] :=
  ⟨(receipt_request_once [pushIn, pushOut]).2 pushIn (by decide)
      (by unfold LivePush; decide),
   by decide⟩


/-! ## Wallet registry refresh -/

theorem mapGet_foldl_of_not_mem {β : Type} (pairs : List (Str × β)) (m : JsMap β) (k : Str)
    (h : k ∉ pairs.map Prod.fst) :
    mapGet (pairs.foldl (fun m p => mapSet m p.1 p.2) m) k = mapGet m k := by
  induction pairs generalizing m with
  | nil => rfl
  | cons p ps ih =>
    simp only [List.map_cons, List.mem_cons, not_or] at h
    rw [List.foldl_cons, ih _ h.2, mapGet_mapSet, if_neg (fun he => h.1 he.symm)]

theorem mapGet_foldl_of_mem {β : Type} (pairs : List (Str × β)) (m : JsMap β) (k : Str) (v : β)
    (hnd : (pairs.map Prod.fst).Nodup) (h : (k, v) ∈ pairs) :
    mapGet (pairs.foldl (fun m p => mapSet m p.1 p.2) m) k = some v := by
  induction pairs generalizing m with
  | nil => simp at h
  | cons p ps ih =>
    have hn := List.nodup_cons.mp hnd
    rw [List.foldl_cons]
    rcases List.mem_cons.mp h with he | he
    · subst he
      rw [mapGet_foldl_of_not_mem ps _ k hn.1, mapGet_mapSet, if_pos rfl]
    · exact ih _ hn.2 he

theorem labelOf_newMap (listObj : List WalletEntry) (h : DistinctAddresses listObj)
    (e : WalletEntry) (he : e ∈ listObj) :
    labelOf (newMap (listObj.map (fun x => (x.address, x.label)))) e.address = e.label := by
  have hnd : ((listObj.map (fun x => (x.address, x.label))).map Prod.fst).Nodup := by
    rw [List.map_map]
    exact h
  have hmem : (e.address, e.label) ∈ listObj.map (fun x => (x.address, x.label)) :=
    List.mem_map.mpr ⟨e, he, rfl⟩
  unfold labelOf newMap
  rw [mapGet_foldl_of_mem _ [] _ _ hnd hmem]
  simp only []
  split_ifs with hl
  · cases hlab : e.label with
    | nil => rfl
    | cons c cs => simp [hlab] at hl
  · rfl

theorem refreshWallets_same (listObj : List WalletEntry) (st : Registry)
    (haddr : listObj.map (fun x => x.address) = st.WALLETS)
    (hlab : ∀ e ∈ listObj, labelOf st.WALLET_LABELS e.address = e.label) :
    refreshWallets (some listObj) st = (false, st) := by
  have hl : listObj.map (fun x => x.label) =
      (listObj.map (fun x => x.address)).map (fun a => labelOf st.WALLET_LABELS a) := by
    rw [List.map_map]
    exact List.map_congr_left (fun e he => (hlab e he).symm)
  simp only [refreshWallets, haddr] at hl ⊢
  simp [hl]

theorem refreshWallets_loaded (listObj : List WalletEntry) (h : DistinctAddresses listObj) :
    refreshWallets (some listObj) (loadedFrom listObj) = (false, loadedFrom listObj) :=
  refreshWallets_same listObj (loadedFrom listObj) rfl
    (fun e he => labelOf_newMap listObj h e he)

theorem refreshWallets_differs (l0 l1 : List WalletEntry) (h0 : DistinctAddresses l0)
    (hne : l1 ≠ l0) :
    refreshWallets (some l1) (loadedFrom l0) = (true, loadedFrom l1) := by
  have hch : (decide (l1.map (fun x => x.address) ≠ (loadedFrom l0).WALLETS) ||
      decide (l1.map (fun x => x.label) ≠
        (l1.map (fun x => x.address)).map (fun a => labelOf (loadedFrom l0).WALLET_LABELS a)))
      = true := by
    by_contra hc
    simp only [Bool.or_eq_true, decide_eq_true_eq, not_or, not_not] at hc
    obtain ⟨ha, hl⟩ := hc
    apply hne
    have ha' : l1.map (fun x => x.address) = l0.map (fun x => x.address) := ha
    have hl0 : (l0.map (fun x => x.address)).map
        (fun a => labelOf (loadedFrom l0).WALLET_LABELS a) = l0.map (fun x => x.label) := by
      rw [List.map_map]
      exact List.map_congr_left (fun e he => labelOf_newMap l0 h0 e he)
    rw [ha', hl0] at hl
    have hpair : l1.map (fun x => (x.address, x.label)) = l0.map (fun x => (x.address, x.label)) := by
      have z1 : l1.map (fun x => (x.address, x.label)) =
          (l1.map (fun x => x.address)).zip (l1.map (fun x => x.label)) := by
        rw [List.zip_map']
      have z0 : l0.map (fun x => (x.address, x.label)) =
          (l0.map (fun x => x.address)).zip (l0.map (fun x => x.label)) := by
        rw [List.zip_map']
      rw [z1, z0, ha', hl]
    have hinj : Function.Injective (fun x : WalletEntry => (x.address, x.label)) := by
      rintro ⟨a, b⟩ ⟨c, d⟩ h
      simp only [Prod.mk.injEq] at h
      rw [h.1, h.2]
    exact List.map_injective_iff.mpr hinj hpair
  simp only [refreshWallets, hch, if_true]
  rfl

set_option maxRecDepth 100000 in
/-- C14 as stated fails: the same two addresses with the same labels, listed the
other way round, make `refreshWallets` return `true` and replace the registry. -/
theorem refreshWallets_order_counterexample :
    walletsBA.Perm walletsAB ∧
    (refreshWallets (some walletsBA) (loadedFrom walletsAB)).1 = true ∧
    (refreshWallets (some walletsBA) (loadedFrom walletsAB)).2.WALLETS = [partyX, walletW] ∧
    (loadedFrom walletsAB).WALLETS = [walletW, partyX] := by
  decide

/-- C14, amended: if the list parsed from the file has the addresses of the
loaded registry in the same order, each with the label the registry has for it,
`refreshWallets` returns `false` and leaves the registry unchanged; this is the
case of the list the registry was loaded from, whenever its addresses are
distinct. -/
theorem refreshWallets_idempotent (listObj : List WalletEntry) (st : Registry)
    (haddr : listObj.map (fun x => x.address) = st.WALLETS)
    (hlab : ∀ e ∈ listObj, labelOf st.WALLET_LABELS e.address = e.label) :
    refreshWallets (some listObj) st = (false, st) ∧
    (∀ l0, DistinctAddresses l0 →
      refreshWallets (some l0) (loadedFrom l0) = (false, loadedFrom l0)) :=
  ⟨refreshWallets_same listObj st haddr hlab, fun l0 h0 => refreshWallets_loaded l0 h0⟩

set_option maxRecDepth 100000 in
/-- Witness of the amended C14: the registry loaded from two labelled wallets,
refreshed with the same list. -/
theorem refreshWallets_idempotent_witness :
    refreshWallets (some walletsAB) (loadedFrom walletsAB) = (false, loadedFrom walletsAB) :=
  (refreshWallets_idempotent walletsAB (loadedFrom walletsAB) (by decide) (by decide)).1

theorem ne_of_oneLabelChanged (l0 l1 : List WalletEntry) (h : OneLabelChanged l0 l1) :
    l1 ≠ l0 := by
  obtain ⟨pre, post, a, lab, lab', hne, e0, e1⟩ := h
  rw [e0, e1]
  intro he
  have := List.append_cancel_left he
  simp only [List.cons.injEq, WalletEntry.mk.injEq, true_and, and_true] at this
  exact hne this

theorem ne_of_oneAddressAdded (l0 l1 : List WalletEntry) (h : OneAddressAdded l0 l1) :
    l1 ≠ l0 := by
  obtain ⟨pre, post, e, _, e0, e1⟩ := h
  rw [e0, e1]
  intro he
  have := congrArg List.length he
  simp only [List.length_append, List.length_cons] at this
  omega

/-- C15: from the registry loaded from a list, a list that differs by one
changed label or by one added address makes `refreshWallets` return `true` and
replace the registry by the new content, and a further `refreshWallets` on the
same list returns `false` and changes nothing: one reconnect request. -/
theorem refreshWallets_change_once (l0 l1 : List WalletEntry)
    (h0 : DistinctAddresses l0) (h1 : DistinctAddresses l1)
    (hdiff : OneLabelChanged l0 l1 ∨ OneAddressAdded l0 l1) :
    refreshWallets (some l1) (loadedFrom l0) = (true, loadedFrom l1) ∧
    refreshWallets (some l1) (refreshWallets (some l1) (loadedFrom l0)).2 =
      (false, loadedFrom l1) := by
  have hne : l1 ≠ l0 := by
    rcases hdiff with h | h
    · exact ne_of_oneLabelChanged l0 l1 h
    · exact ne_of_oneAddressAdded l0 l1 h
  have e1 := refreshWallets_differs l0 l1 h0 hne
  rw [e1]
  exact ⟨rfl, refreshWallets_loaded l1 h1⟩

set_option maxRecDepth 100000 in
/-- Witness of C15: one label changed, and one address added. -/
theorem refreshWallets_change_once_witness :
    (refreshWallets (some walletsRelabelled) (loadedFrom walletsAB) =
        (true, loadedFrom walletsRelabelled) ∧
      refreshWallets (some walletsRelabelled)
        (refreshWallets (some walletsRelabelled) (loadedFrom walletsAB)).2 =
        (false, loadedFrom walletsRelabelled)) ∧
    (refreshWallets (some walletsExtended) (loadedFrom walletsAB) =
        (true, loadedFrom walletsExtended) ∧
      refreshWallets (some walletsExtended)
        (refreshWallets (some walletsExtended) (loadedFrom walletsAB)).2 =
        (false, loadedFrom walletsExtended)) :=
  ⟨refreshWallets_change_once walletsAB walletsRelabelled
      (by unfold DistinctAddresses; decide) (by unfold DistinctAddresses; decide)
      (Or.inl ⟨[⟨walletW, "alice".toList⟩], [], partyX, "bob".toList, "carol".toList,
        by decide, rfl, rfl⟩),
   refreshWallets_change_once walletsAB walletsExtended
      (by unfold DistinctAddresses; decide) (by unfold DistinctAddresses; decide)
      (Or.inr ⟨walletsAB, [], ⟨routerR, []⟩, by decide, by decide, rfl⟩)⟩


/-! ## Reconnect backoff -/

theorem roundHalfEven_ge (q : ℚ) (n : ℤ) (h : (n : ℚ) ≤ q) : n ≤ roundHalfEven q := by
  have hf : n ≤ ⌊q⌋ := Int.le_floor.mpr h
  unfold roundHalfEven
  simp only []
  split_ifs <;> omega

theorem roundHalfEven_le (q : ℚ) (n : ℤ) (h : q ≤ (n : ℚ)) : roundHalfEven q ≤ n := by
  rcases eq_or_lt_of_le h with he | hlt
  · have hf : ⌊q⌋ = n := by rw [he]; exact Int.floor_intCast n
    unfold roundHalfEven
    simp only [hf, he, sub_self]
    norm_num
  · have hf : ⌊q⌋ < n := Int.floor_lt.mpr hlt
    unfold roundHalfEven
    simp only []
    split_ifs <;> omega

theorem roundHalfEven_mono (q q' : ℚ) (h : q ≤ q') : roundHalfEven q ≤ roundHalfEven q' := by
  have hff : ⌊q⌋ ≤ ⌊q'⌋ := Int.floor_mono h
  rcases eq_or_lt_of_le hff with he | hlt
  · unfold roundHalfEven
    simp only [he]
    have hsub : q - (⌊q'⌋ : ℚ) ≤ q' - (⌊q'⌋ : ℚ) := by linarith
    split_ifs <;> first | omega | (exfalso; linarith)
  · have h1 : roundHalfEven q ≤ ⌊q'⌋ := by
      have hq : q < (⌊q⌋ : ℚ) + 1 := Int.lt_floor_add_one q
      have hc : ((⌊q⌋ + 1 : ℤ) : ℚ) ≤ (⌊q'⌋ : ℚ) := by exact_mod_cast hlt
      have : roundHalfEven q ≤ ⌊q⌋ + 1 := by
        apply roundHalfEven_le
        push_cast
        linarith
      omega
    exact le_trans h1 (roundHalfEven_ge q' _ (Int.floor_le q'))

theorem roundHalfEven_eq (q : ℚ) (n : ℤ) (h1 : (n : ℚ) - 1 / 2 < q) (h2 : q < (n : ℚ) + 1 / 2) :
    roundHalfEven q = n := by
  by_cases hq : (n : ℚ) ≤ q
  · have hf : ⌊q⌋ = n := Int.floor_eq_iff.mpr ⟨hq, by linarith⟩
    unfold roundHalfEven
    simp only [hf]
    rw [if_pos (by linarith)]
  · have hq' : q < (n : ℚ) := not_le.mp hq
    have hf : ⌊q⌋ = n - 1 := Int.floor_eq_iff.mpr ⟨by push_cast; linarith, by push_cast; linarith⟩
    unfold roundHalfEven
    simp only [hf]
    rw [if_neg (by push_cast; linarith), if_pos (by push_cast; linarith)]
    omega

theorem log_eq_of_bounds (x : ℚ) (L : ℤ) (hx : 0 < x) (hlo : (2 : ℚ) ^ L ≤ x)
    (hhi : x < (2 : ℚ) ^ (L + 1)) : Int.log 2 x = L := by
  have h1 : L ≤ Int.log 2 x := by
    have := (Int.zpow_le_iff_le_log (b := 2) (by norm_num) (x := L) hx).mp
      (by exact_mod_cast hlo)
    exact this
  have h2 : Int.log 2 x < L + 1 := by
    have := (Int.lt_zpow_iff_log_lt (b := 2) (by norm_num) (x := L + 1) hx).mp
      (by exact_mod_cast hhi)
    exact this
  omega

/-- Evaluation of `toDouble` at a positive rational with known binade. -/
theorem toDouble_eq (x : ℚ) (L n : ℤ) (hx : 0 < x) (hlo : (2 : ℚ) ^ L ≤ x)
    (hhi : x < (2 : ℚ) ^ (L + 1))
    (h1 : (n : ℚ) - 1 / 2 < x / (2 : ℚ) ^ (L - 52))
    (h2 : x / (2 : ℚ) ^ (L - 52) < (n : ℚ) + 1 / 2) :
    toDouble x = (n : ℚ) * (2 : ℚ) ^ (L - 52) := by
  unfold toDouble
  rw [if_neg (ne_of_gt hx), abs_of_pos hx, log_eq_of_bounds x L hx hlo hhi]
  simp only []
  rw [roundHalfEven_eq _ n h1 h2]

theorem toDouble_zero : toDouble 0 = 0 := by simp [toDouble]

theorem toDouble_nonneg (x : ℚ) (hx : 0 ≤ x) : 0 ≤ toDouble x := by
  rcases eq_or_lt_of_le hx with he | hlt
  · rw [← he, toDouble_zero]
  · unfold toDouble
    rw [if_neg (ne_of_gt hlt)]
    simp only []
    have hq : (0 : ℚ) ≤ x / (2 : ℚ) ^ (Int.log 2 |x| - 52) := by positivity
    have hr : (0 : ℤ) ≤ roundHalfEven (x / (2 : ℚ) ^ (Int.log 2 |x| - 52)) :=
      roundHalfEven_ge _ 0 (by exact_mod_cast hq)
    have : (0 : ℚ) ≤ (roundHalfEven (x / (2 : ℚ) ^ (Int.log 2 |x| - 52)) : ℚ) := by
      exact_mod_cast hr
    positivity

theorem toDouble_pos_eq (x : ℚ) (hx : 0 < x) :
    toDouble x = (roundHalfEven (x / (2 : ℚ) ^ (Int.log 2 x - 52)) : ℚ) *
      (2 : ℚ) ^ (Int.log 2 x - 52) := by
  unfold toDouble
  rw [if_neg (ne_of_gt hx), abs_of_pos hx]

theorem two_zpow_pos (e : ℤ) : (0 : ℚ) < (2 : ℚ) ^ e := zpow_pos (by norm_num) e

/-- A positive rational rounds to a value within its binade. -/
theorem toDouble_binade (x : ℚ) (hx : 0 < x) :
    (2 : ℚ) ^ (Int.log 2 x) ≤ toDouble x ∧ toDouble x ≤ (2 : ℚ) ^ (Int.log 2 x + 1) := by
  have hp := two_zpow_pos (Int.log 2 x - 52)
  have hlo : (2 : ℚ) ^ (Int.log 2 x) ≤ x := by
    have := Int.zpow_log_le_self (b := 2) (by norm_num) hx
    exact_mod_cast this
  have hhi : x < (2 : ℚ) ^ (Int.log 2 x + 1) := by
    have := Int.lt_zpow_succ_log_self (b := 2) (by norm_num) x
    exact_mod_cast this
  have e1 : (2 : ℚ) ^ (Int.log 2 x) = (2 : ℚ) ^ (52 : ℤ) * (2 : ℚ) ^ (Int.log 2 x - 52) := by
    rw [← zpow_add₀ (by norm_num : (2 : ℚ) ≠ 0)]
    congr 1
    ring
  have e2 : (2 : ℚ) ^ (Int.log 2 x + 1) = (2 : ℚ) ^ (53 : ℤ) * (2 : ℚ) ^ (Int.log 2 x - 52) := by
    rw [← zpow_add₀ (by norm_num : (2 : ℚ) ≠ 0)]
    congr 1
    ring
  have q1 : (((2 : ℤ) ^ 52 : ℤ) : ℚ) ≤ x / (2 : ℚ) ^ (Int.log 2 x - 52) := by
    rw [le_div_iff₀ hp]
    have : (((2 : ℤ) ^ 52 : ℤ) : ℚ) = (2 : ℚ) ^ (52 : ℤ) := by norm_num
    rw [this, ← e1]
    exact hlo
  have q2 : x / (2 : ℚ) ^ (Int.log 2 x - 52) ≤ (((2 : ℤ) ^ 53 : ℤ) : ℚ) := by
    rw [div_le_iff₀ hp]
    have : (((2 : ℤ) ^ 53 : ℤ) : ℚ) = (2 : ℚ) ^ (53 : ℤ) := by norm_num
    rw [this, ← e2]
    exact le_of_lt hhi
  have r1 := roundHalfEven_ge _ _ q1
  have r2 := roundHalfEven_le _ _ q2
  have r1' : (2 : ℚ) ^ (52 : ℤ) ≤ (roundHalfEven (x / (2 : ℚ) ^ (Int.log 2 x - 52)) : ℚ) := by
    have : (((2 : ℤ) ^ 52 : ℤ) : ℚ) ≤ (roundHalfEven (x / (2 : ℚ) ^ (Int.log 2 x - 52)) : ℚ) := by
      exact_mod_cast r1
    calc (2 : ℚ) ^ (52 : ℤ) = (((2 : ℤ) ^ 52 : ℤ) : ℚ) := by norm_num
      _ ≤ _ := this
  have r2' : (roundHalfEven (x / (2 : ℚ) ^ (Int.log 2 x - 52)) : ℚ) ≤ (2 : ℚ) ^ (53 : ℤ) := by
    have : (roundHalfEven (x / (2 : ℚ) ^ (Int.log 2 x - 52)) : ℚ) ≤ (((2 : ℤ) ^ 53 : ℤ) : ℚ) := by
      exact_mod_cast r2
    calc _ ≤ (((2 : ℤ) ^ 53 : ℤ) : ℚ) := this
      _ = (2 : ℚ) ^ (53 : ℤ) := by norm_num
  rw [toDouble_pos_eq x hx, e1, e2]
  exact ⟨mul_le_mul_of_nonneg_right r1' (le_of_lt hp),
    mul_le_mul_of_nonneg_right r2' (le_of_lt hp)⟩

/-- Rounding to a `Number` is monotone. -/
theorem toDouble_mono (x y : ℚ) (hx : 0 ≤ x) (h : x ≤ y) : toDouble x ≤ toDouble y := by
  rcases eq_or_lt_of_le hx with he | hlt
  · rw [← he, toDouble_zero]
    exact toDouble_nonneg y (le_trans hx h)
  · have hy : 0 < y := lt_of_lt_of_le hlt h
    have hlog : Int.log 2 x ≤ Int.log 2 y := Int.log_mono_right hlt h
    rcases eq_or_lt_of_le hlog with hel | hll
    · rw [toDouble_pos_eq x hlt, toDouble_pos_eq y hy, hel]
      have hp := two_zpow_pos (Int.log 2 y - 52)
      have hq : x / (2 : ℚ) ^ (Int.log 2 y - 52) ≤ y / (2 : ℚ) ^ (Int.log 2 y - 52) :=
        div_le_div_of_nonneg_right h (le_of_lt hp)
      have hr := roundHalfEven_mono _ _ hq
      have : (roundHalfEven (x / (2 : ℚ) ^ (Int.log 2 y - 52)) : ℚ) ≤
          (roundHalfEven (y / (2 : ℚ) ^ (Int.log 2 y - 52)) : ℚ) := by exact_mod_cast hr
      exact mul_le_mul_of_nonneg_right this (le_of_lt hp)
    · have bx := (toDouble_binade x hlt).2
      have byy := (toDouble_binade y hy).1
      have hz : (2 : ℚ) ^ (Int.log 2 x + 1) ≤ (2 : ℚ) ^ (Int.log 2 y) :=
        zpow_le_zpow_right₀ (by norm_num) (by omega)
      exact le_trans bx (le_trans hz byy)

theorem toDouble_c85 : toDouble (85 / 100) = c85 := by
  have h := toDouble_eq (85 / 100) (-1) 7656119366529843 (by norm_num) (by norm_num)
    (by norm_num) (by norm_num) (by norm_num)
  rw [h]
  norm_num [c85]

theorem toDouble_c3 : toDouble (3 / 10) = c3 := by
  have h := toDouble_eq (3 / 10) (-2) 5404319552844595 (by norm_num) (by norm_num)
    (by norm_num) (by norm_num) (by norm_num)
  rw [h]
  norm_num [c3]

theorem toDouble_c3_self : toDouble c3 = c3 := by
  have h := toDouble_eq c3 (-2) 5404319552844595 (by norm_num [c3]) (by norm_num [c3])
    (by norm_num [c3]) (by norm_num [c3]) (by norm_num [c3])
  rw [h]
  norm_num [c3]

theorem toDouble_c85_self : toDouble c85 = c85 := by
  have h := toDouble_eq c85 (-1) 7656119366529843 (by norm_num [c85]) (by norm_num [c85])
    (by norm_num [c85]) (by norm_num [c85]) (by norm_num [c85])
  rw [h]
  norm_num [c85]

theorem toDouble_jitterMax : toDouble (c85 + c3) = jitterMax := by
  have h := toDouble_eq (c85 + c3) 0 5179139571476070 (by norm_num [c85, c3])
    (by norm_num [c85, c3]) (by norm_num [c85, c3]) (by norm_num [c85, c3])
    (by norm_num [c85, c3])
  rw [h]
  norm_num [jitterMax]

theorem toDouble_lo_1000 : toDouble (1000 * c85) = 850 := by
  have h := toDouble_eq (1000 * c85) 9 7476679068876800 (by norm_num [c85]) (by norm_num [c85])
    (by norm_num [c85]) (by norm_num [c85]) (by norm_num [c85])
  rw [h]
  norm_num

theorem toDouble_hi_1000 : toDouble (1000 * jitterMax) = 1150 := by
  have h := toDouble_eq (1000 * jitterMax) 10 5057753487769600 (by norm_num [jitterMax])
    (by norm_num [jitterMax]) (by norm_num [jitterMax]) (by norm_num [jitterMax])
    (by norm_num [jitterMax])
  rw [h]
  norm_num

theorem toDouble_lo_2000 : toDouble (2000 * c85) = 1700 := by
  have h := toDouble_eq (2000 * c85) 10 7476679068876800 (by norm_num [c85]) (by norm_num [c85])
    (by norm_num [c85]) (by norm_num [c85]) (by norm_num [c85])
  rw [h]
  norm_num

theorem toDouble_hi_2000 : toDouble (2000 * jitterMax) = 2300 := by
  have h := toDouble_eq (2000 * jitterMax) 11 5057753487769600 (by norm_num [jitterMax])
    (by norm_num [jitterMax]) (by norm_num [jitterMax]) (by norm_num [jitterMax])
    (by norm_num [jitterMax])
  rw [h]
  norm_num

theorem toDouble_lo_4000 : toDouble (4000 * c85) = 3400 := by
  have h := toDouble_eq (4000 * c85) 11 7476679068876800 (by norm_num [c85]) (by norm_num [c85])
    (by norm_num [c85]) (by norm_num [c85]) (by norm_num [c85])
  rw [h]
  norm_num

theorem toDouble_hi_4000 : toDouble (4000 * jitterMax) = 4600 := by
  have h := toDouble_eq (4000 * jitterMax) 12 5057753487769600 (by norm_num [jitterMax])
    (by norm_num [jitterMax]) (by norm_num [jitterMax]) (by norm_num [jitterMax])
    (by norm_num [jitterMax])
  rw [h]
  norm_num

theorem toDouble_lo_8000 : toDouble (8000 * c85) = 6800 := by
  have h := toDouble_eq (8000 * c85) 12 7476679068876800 (by norm_num [c85]) (by norm_num [c85])
    (by norm_num [c85]) (by norm_num [c85]) (by norm_num [c85])
  rw [h]
  norm_num

theorem toDouble_hi_8000 : toDouble (8000 * jitterMax) = 9200 := by
  have h := toDouble_eq (8000 * jitterMax) 13 5057753487769600 (by norm_num [jitterMax])
    (by norm_num [jitterMax]) (by norm_num [jitterMax]) (by norm_num [jitterMax])
    (by norm_num [jitterMax])
  rw [h]
  norm_num

theorem toDouble_lo_16000 : toDouble (16000 * c85) = 13600 := by
  have h := toDouble_eq (16000 * c85) 13 7476679068876800 (by norm_num [c85]) (by norm_num [c85])
    (by norm_num [c85]) (by norm_num [c85]) (by norm_num [c85])
  rw [h]
  norm_num

theorem toDouble_hi_16000 : toDouble (16000 * jitterMax) = 18400 := by
  have h := toDouble_eq (16000 * jitterMax) 14 5057753487769600 (by norm_num [jitterMax])
    (by norm_num [jitterMax]) (by norm_num [jitterMax]) (by norm_num [jitterMax])
    (by norm_num [jitterMax])
  rw [h]
  norm_num

theorem toDouble_lo_30000 : toDouble (30000 * c85) = 25500 := by
  have h := toDouble_eq (30000 * c85) 14 7009386627072000 (by norm_num [c85]) (by norm_num [c85])
    (by norm_num [c85]) (by norm_num [c85]) (by norm_num [c85])
  rw [h]
  norm_num

theorem toDouble_hi_30000 : toDouble (30000 * jitterMax) = 34500 := by
  have h := toDouble_eq (30000 * jitterMax) 15 4741643894784000 (by norm_num [jitterMax])
    (by norm_num [jitterMax]) (by norm_num [jitterMax]) (by norm_num [jitterMax])
    (by norm_num [jitterMax])
  rw [h]
  norm_num

/-- The jitter factor lies between the `Number`s 0.85 and 1.15. -/
theorem jitterFactor_bounds (r : ℚ) (h0 : 0 ≤ r) (h1 : r < 1) :
    c85 ≤ jitterFactor r ∧ jitterFactor r ≤ jitterMax := by
  have hc3 : (0 : ℚ) < c3 := by norm_num [c3]
  have hc85 : (0 : ℚ) < c85 := by norm_num [c85]
  have ht0 : 0 ≤ toDouble (r * c3) := toDouble_nonneg _ (by positivity)
  have ht1 : toDouble (r * c3) ≤ c3 := by
    have := toDouble_mono (r * c3) c3 (by positivity) (by nlinarith)
    rwa [toDouble_c3_self] at this
  unfold jitterFactor
  rw [toDouble_c85, toDouble_c3]
  constructor
  · have := toDouble_mono c85 (c85 + toDouble (r * c3)) (le_of_lt hc85) (by linarith)
    rwa [toDouble_c85_self] at this
  · have := toDouble_mono (c85 + toDouble (r * c3)) (c85 + c3) (by linarith) (by linarith)
    rwa [toDouble_jitterMax] at this

theorem wait_bounds (m : ℕ) (lo hi : ℚ) (r : ℚ) (h0 : 0 ≤ r) (h1 : r < 1)
    (hlo : toDouble ((m : ℚ) * c85) = lo) (hhi : toDouble ((m : ℚ) * jitterMax) = hi) :
    lo ≤ toDouble ((m : ℚ) * jitterFactor r) ∧ toDouble ((m : ℚ) * jitterFactor r) ≤ hi := by
  obtain ⟨j0, j1⟩ := jitterFactor_bounds r h0 h1
  have hc85 : (0 : ℚ) < c85 := by norm_num [c85]
  have hm : (0 : ℚ) ≤ (m : ℚ) := Nat.cast_nonneg m
  constructor
  · rw [← hlo]
    exact toDouble_mono _ _ (by positivity) (mul_le_mul_of_nonneg_left j0 hm)
  · rw [← hhi]
    exact toDouble_mono _ _ (mul_nonneg hm (le_trans (le_of_lt hc85) j0))
      (mul_le_mul_of_nonneg_left j1 hm)

theorem relaunchWaits_getElem? (b : ℕ) (rs : List ℚ) (k : ℕ) :
    (relaunchWaits b rs)[k]? =
      (rs[k]?).map (fun r =>
        toDouble (((min (b * 2 ^ k) MAX_BACKOFF : ℕ) : ℚ) * jitterFactor r)) := by
  induction rs generalizing b k with
  | nil => simp [relaunchWaits]
  | cons r rs ih =>
    cases k with
    | zero => simp [relaunchWaits, relaunch]
    | succ k =>
      simp only [relaunchWaits, List.getElem?_cons_succ, ih]
      have : (relaunch b r).2 * 2 ^ k = b * 2 ^ (k + 1) := by
        simp only [relaunch]
        ring
      rw [this]

theorem relaunchWaits_length (b : ℕ) (rs : List ℚ) :
    (relaunchWaits b rs).length = rs.length := by
  induction rs generalizing b with
  | nil => rfl
  | cons r rs ih => simp [relaunchWaits, ih]

theorem cappedBackoff_cases (k : ℕ) :
    (k = 0 ∧ cappedBackoff k = 1000) ∨ (k = 1 ∧ cappedBackoff k = 2000) ∨
    (k = 2 ∧ cappedBackoff k = 4000) ∨ (k = 3 ∧ cappedBackoff k = 8000) ∨
    (k = 4 ∧ cappedBackoff k = 16000) ∨ (5 ≤ k ∧ cappedBackoff k = 30000) := by
  by_cases h5 : 5 ≤ k
  · right; right; right; right; right
    refine ⟨h5, ?_⟩
    have : 2 ^ 5 ≤ 2 ^ k := Nat.pow_le_pow_right (by norm_num) h5
    simp only [cappedBackoff, MAX_BACKOFF]
    omega
  · have hk : k = 0 ∨ k = 1 ∨ k = 2 ∨ k = 3 ∨ k = 4 := by omega
    rcases hk with h | h | h | h | h <;> subst h <;> simp [cappedBackoff, MAX_BACKOFF]

/-- The wait of the `k`-th consecutive close lies in the band of its capped
backoff, ends included. -/
theorem wait_band (k : ℕ) (r : ℚ) (h0 : 0 ≤ r) (h1 : r < 1) :
    (85 / 100 : ℚ) * (cappedBackoff k : ℚ) ≤
        toDouble (((cappedBackoff k : ℕ) : ℚ) * jitterFactor r) ∧
      toDouble (((cappedBackoff k : ℕ) : ℚ) * jitterFactor r) ≤
        (115 / 100 : ℚ) * (cappedBackoff k : ℚ) := by
  rcases cappedBackoff_cases k with h | h | h | h | h | h
  · rw [h.2]
    have := wait_bounds 1000 850 1150 r h0 h1 (by exact_mod_cast toDouble_lo_1000)
      (by exact_mod_cast toDouble_hi_1000)
    constructor <;> [skip; skip] <;> norm_num <;> first | exact this.1 | exact this.2
  · rw [h.2]
    have := wait_bounds 2000 1700 2300 r h0 h1 (by exact_mod_cast toDouble_lo_2000)
      (by exact_mod_cast toDouble_hi_2000)
    constructor <;> [skip; skip] <;> norm_num <;> first | exact this.1 | exact this.2
  · rw [h.2]
    have := wait_bounds 4000 3400 4600 r h0 h1 (by exact_mod_cast toDouble_lo_4000)
      (by exact_mod_cast toDouble_hi_4000)
    constructor <;> [skip; skip] <;> norm_num <;> first | exact this.1 | exact this.2
  · rw [h.2]
    have := wait_bounds 8000 6800 9200 r h0 h1 (by exact_mod_cast toDouble_lo_8000)
      (by exact_mod_cast toDouble_hi_8000)
    constructor <;> [skip; skip] <;> norm_num <;> first | exact this.1 | exact this.2
  · rw [h.2]
    have := wait_bounds 16000 13600 18400 r h0 h1 (by exact_mod_cast toDouble_lo_16000)
      (by exact_mod_cast toDouble_hi_16000)
    constructor <;> [skip; skip] <;> norm_num <;> first | exact this.1 | exact this.2
  · rw [h.2]
    have := wait_bounds 30000 25500 34500 r h0 h1 (by exact_mod_cast toDouble_lo_30000)
      (by exact_mod_cast toDouble_hi_30000)
    constructor <;> [skip; skip] <;> norm_num <;> first | exact this.1 | exact this.2

theorem relaunchWaits_band (rs : List ℚ) (hr : ∀ r ∈ rs, 0 ≤ r ∧ r < 1) (k : ℕ) (w : ℚ)
    (hw : (relaunchWaits 1000 rs)[k]? = some w) :
    (85 / 100 : ℚ) * (cappedBackoff k : ℚ) ≤ w ∧ w ≤ (115 / 100 : ℚ) * (cappedBackoff k : ℚ) := by
  rw [relaunchWaits_getElem?] at hw
  cases hk : rs[k]? with
  | none => simp [hk] at hw
  | some r =>
    rw [hk] at hw
    simp only [Option.map_some', Option.some.injEq] at hw
    have hmem : r ∈ rs := List.getElem?_mem hk
    have := wait_band k r (hr r hmem).1 (hr r hmem).2
    rw [← hw]
    exact this

theorem cappedBackoff_pos (k : ℕ) : (1000 : ℚ) ≤ (cappedBackoff k : ℚ) := by
  have : 1000 ≤ cappedBackoff k := by
    rcases cappedBackoff_cases k with h | h | h | h | h | h <;> omega
  exact_mod_cast this

theorem cappedBackoff_le (k : ℕ) : (cappedBackoff k : ℚ) ≤ 30000 := by
  have : cappedBackoff k ≤ 30000 := by
    rcases cappedBackoff_cases k with h | h | h | h | h | h <;> omega
  exact_mod_cast this

theorem cappedBackoff_succ (k : ℕ) (h : 1000 * 2 ^ (k + 1) ≤ 30000) :
    (cappedBackoff (k + 1) : ℚ) = 2 * (cappedBackoff k : ℚ) := by
  have : cappedBackoff (k + 1) = 2 * cappedBackoff k := by
    simp only [cappedBackoff, MAX_BACKOFF]
    have h2 : 2 ^ (k + 1) = 2 * 2 ^ k := by ring
    omega
  exact_mod_cast this

/-- C17, amended: for consecutive closes with no open in between, from backoff
1000, the `k`-th wait lies between 0.85 and 1.15 times
`min(1000 * 2^(k-1), 30000)`, both ends included (the ends are reached by the
rounding of the floating-point operations); each wait is strictly greater than
the previous one as long as the doubled backoff does not exceed 30000; every
wait is at most `1.15 * 30000`. -/
theorem relaunchWaits_bands (rs : List ℚ) (hr : ∀ r ∈ rs, 0 ≤ r ∧ r < 1) :
    (relaunchWaits 1000 rs).length = rs.length ∧
    (∀ k w, (relaunchWaits 1000 rs)[k]? = some w →
      (85 / 100 : ℚ) * (cappedBackoff k : ℚ) ≤ w ∧
        w ≤ (115 / 100 : ℚ) * (cappedBackoff k : ℚ)) ∧
    (∀ k w w', (relaunchWaits 1000 rs)[k]? = some w →
      (relaunchWaits 1000 rs)[k + 1]? = some w' → 1000 * 2 ^ (k + 1) ≤ 30000 → w < w') ∧
    (∀ w ∈ relaunchWaits 1000 rs, w ≤ (115 / 100 : ℚ) * 30000) := by
  refine ⟨relaunchWaits_length 1000 rs, fun k w hw => relaunchWaits_band rs hr k w hw, ?_, ?_⟩
  · intro k w w' hw hw' hcap
    have b1 := (relaunchWaits_band rs hr k w hw).2
    have b2 := (relaunchWaits_band rs hr (k + 1) w' hw').1
    rw [cappedBackoff_succ k hcap] at b2
    have hp := cappedBackoff_pos k
    linarith
  · intro w hw
    obtain ⟨k, hk⟩ := List.getElem?_of_mem hw
    have b := (relaunchWaits_band rs hr k w hk).2
    have hle := cappedBackoff_le k
    linarith

theorem jitterFactor_last : jitterFactor (1 - 1 / 2 ^ 52) = jitterMax := by
  have ht : toDouble ((1 - 1 / 2 ^ 52) * c3) = 2702159776422297 / 9007199254740992 := by
    have h := toDouble_eq ((1 - 1 / 2 ^ 52) * c3) (-2) 5404319552844594 (by norm_num [c3])
      (by norm_num [c3]) (by norm_num [c3]) (by norm_num [c3]) (by norm_num [c3])
    rw [h]
    norm_num
  unfold jitterFactor
  rw [toDouble_c85, toDouble_c3, ht]
  have h := toDouble_eq (c85 + 2702159776422297 / 9007199254740992) 0 5179139571476070
    (by norm_num [c85]) (by norm_num [c85]) (by norm_num [c85]) (by norm_num [c85])
    (by norm_num [c85])
  rw [h]
  norm_num [jitterMax]

/-- C17 as stated fails: when `Math.random()` returns its largest value with 52
random bits, `1 - 2^-52`, the first wait is 1150, which is not below
`1.15 * 1000`, and the wait at the capped backoff is 34500, which is not below
`1.15 * 30000`. -/
theorem relaunch_band_counterexample :
    relaunchWaits 1000 [1 - 1 / 2 ^ 52] = [1150] ∧ ¬ ((1150 : ℚ) < 115 / 100 * 1000) ∧
    (relaunch 32000 (1 - 1 / 2 ^ 52)).1 = 34500 ∧ ¬ ((34500 : ℚ) < 115 / 100 * 30000) := by
  refine ⟨?_, by norm_num, ?_, by norm_num⟩
  · simp only [relaunchWaits, relaunch, jitterFactor_last, MAX_BACKOFF]
    have : ((min 1000 30000 : ℕ) : ℚ) = 1000 := by norm_num
    rw [this, toDouble_hi_1000]
  · simp only [relaunch, jitterFactor_last, MAX_BACKOFF]
    have : ((min 32000 30000 : ℕ) : ℚ) = 30000 := by norm_num
    rw [this, toDouble_hi_30000]

/-- Witness of the amended C17: three consecutive closes with random values 0,
1/2 and `1 - 2^-52`. -/
theorem relaunchWaits_bands_witness :
    (relaunchWaits 1000 [0, 1 / 2, 1 - 1 / 2 ^ 52]).length = 3 ∧
    (∀ k w w', (relaunchWaits 1000 [0, 1 / 2, 1 - 1 / 2 ^ 52])[k]? = some w →
      (relaunchWaits 1000 [0, 1 / 2, 1 - 1 / 2 ^ 52])[k + 1]? = some w' →
      1000 * 2 ^ (k + 1) ≤ 30000 → w < w') :=
  have h := relaunchWaits_bands [0, 1 / 2, 1 - 1 / 2 ^ 52] (by
    intro r hr
    simp only [List.mem_cons, List.mem_singleton, List.not_mem_nil, or_false] at hr
    rcases hr with rfl | rfl | rfl <;> norm_num)
  ⟨h.1, h.2.2.1⟩


/-! ## Formatting of amounts -/

theorem digitChar_toNat (n : Nat) (h : n < 10) : (digitChar n).toNat = 48 + n := by
  interval_cases n <;> rfl

theorem isDecDigit_digitChar (n : Nat) (h : n < 10) : isDecDigit (digitChar n) = true := by
  interval_cases n <;> rfl

theorem decDigits_fuel (fuel n : Nat) (h : n < fuel) : decDigits fuel n = decDigits (n + 1) n := by
  induction fuel using Nat.strong_induction_on generalizing n with
  | _ fuel ih =>
    cases fuel with
    | zero => omega
    | succ f =>
      rw [decDigits, decDigits]
      by_cases h10 : n < 10
      · simp [h10]
      · simp only [h10, if_false]
        have hd : n / 10 < n := Nat.div_lt_self (by omega) (by norm_num)
        have h1 : decDigits f (n / 10) = decDigits (n / 10 + 1) (n / 10) := by
          rcases Nat.lt_or_ge (n / 10) f with hlt | hge
          · exact ih f (Nat.lt_succ_self f) (n / 10) hlt
          · omega
        have h2 : decDigits n (n / 10) = decDigits (n / 10 + 1) (n / 10) :=
          ih n (by omega) (n / 10) hd
        rw [h1, h2]

theorem natToString_lt (n : Nat) (h : n < 10) : natToString n = [digitChar n] := by
  rw [natToString, decDigits]
  simp [h]

theorem natToString_ge (n : Nat) (h : 10 ≤ n) :
    natToString n = natToString (n / 10) ++ [digitChar (n % 10)] := by
  have hd : n / 10 < n := Nat.div_lt_self (by omega) (by norm_num)
  rw [natToString, decDigits]
  simp only [not_lt.mpr h, if_false]
  rw [decDigits_fuel n (n / 10) hd]
  rfl

theorem digitsFixed_length (k n : Nat) : (digitsFixed k n).length = k := by
  induction k generalizing n with
  | zero => rfl
  | succ k ih => simp [digitsFixed, ih]

theorem digitsFixed_zero (k : Nat) : digitsFixed k 0 = List.replicate k '0' := by
  induction k with
  | zero => rfl
  | succ k ih =>
    rw [digitsFixed, Nat.zero_div, ih, Nat.zero_mod]
    have : digitChar 0 = '0' := rfl
    rw [this, ← List.replicate_succ']

theorem padStart_snoc (m : Nat) (a : Str) (c : Char) :
    padStart (m + 1) (a ++ [c]) = padStart m a ++ [c] := by
  simp only [padStart, List.length_append, List.length_singleton, Nat.add_sub_add_right,
    List.append_assoc]

/-- The decimal string of `n`, padded to more than `k` digits, is the string of
`n / 10^k` followed by the last `k` digits of `n`. -/
theorem padStart_natToString (k n : Nat) :
    padStart (k + 1) (natToString n) = natToString (n / 10 ^ k) ++ digitsFixed k n := by
  induction k generalizing n with
  | zero =>
    have hne := natToString_ne_nil n
    have hlen : 1 ≤ (natToString n).length := by
      cases hs : natToString n with
      | nil => exact absurd hs hne
      | cons c cs => simp
    simp only [padStart, digitsFixed, pow_zero, Nat.div_one, List.append_nil]
    have : 0 + 1 - (natToString n).length = 0 := by omega
    rw [this]
    rfl
  | succ k ih =>
    by_cases h10 : n < 10
    · have hz : n / 10 ^ (k + 1) = 0 := by
        apply Nat.div_eq_of_lt
        calc n < 10 := h10
          _ = 10 ^ 1 := by norm_num
          _ ≤ 10 ^ (k + 1) := Nat.pow_le_pow_right (by norm_num) (by omega)
      have hn0 : n / 10 = 0 := Nat.div_eq_of_lt h10
      rw [natToString_lt n h10, hz, natToString_lt 0 (by norm_num), digitsFixed, hn0,
        digitsFixed_zero, Nat.mod_eq_of_lt h10]
      simp only [padStart, List.length_singleton]
      have : k + 1 + 1 - 1 = k + 1 := by omega
      rw [this, List.replicate_succ]
      rfl
    · have hge : 10 ≤ n := by omega
      rw [natToString_ge n hge, padStart_snoc, ih, digitsFixed, List.append_assoc,
        Nat.div_div_eq_div_mul, pow_succ, Nat.mul_comm 10]

theorem digitsFixed_add (a b n : Nat) :
    digitsFixed (a + b) n = digitsFixed a (n / 10 ^ b) ++ digitsFixed b n := by
  induction b generalizing n with
  | zero => simp [digitsFixed]
  | succ b ih =>
    rw [← Nat.add_assoc, digitsFixed, ih, digitsFixed, List.append_assoc,
      Nat.div_div_eq_div_mul, pow_succ, Nat.mul_comm 10]

theorem digitsFixed_one (n : Nat) : digitsFixed 1 n = [digitChar (n % 10)] := rfl

theorem decValue_append (a b : Str) :
    decValue (a ++ b) = decValue a * 10 ^ b.length + decValue b := by
  induction a with
  | nil => simp [decValue]
  | cons c cs ih =>
    rw [List.cons_append, decValue, decValue, ih, List.length_append, pow_add]
    ring

theorem decValue_digitsFixed (k n : Nat) : decValue (digitsFixed k n) = n % 10 ^ k := by
  induction k generalizing n with
  | zero => simp [digitsFixed, decValue, Nat.mod_one]
  | succ k ih =>
    have hd : (digitChar (n % 10)).toNat - 48 = n % 10 := by
      rw [digitChar_toNat _ (Nat.mod_lt _ (by norm_num))]
      omega
    rw [digitsFixed, decValue_append, ih]
    simp only [List.length_singleton, pow_one, decValue, List.length_nil, pow_zero, mul_one,
      add_zero, hd]
    rw [pow_succ, Nat.mul_comm (10 ^ k) 10, Nat.mod_mul]
    ring

theorem decValue_natToString (n : Nat) : decValue (natToString n) = n := by
  induction n using Nat.strong_induction_on with
  | _ n ih =>
    by_cases h10 : n < 10
    · rw [natToString_lt n h10]
      simp only [decValue, List.length_nil, pow_zero, mul_one, add_zero]
      rw [digitChar_toNat n h10]
      omega
    · have hge : 10 ≤ n := by omega
      have hd : n / 10 < n := Nat.div_lt_self (by omega) (by norm_num)
      have hc : (digitChar (n % 10)).toNat - 48 = n % 10 := by
        rw [digitChar_toNat _ (Nat.mod_lt _ (by norm_num))]
        omega
      rw [natToString_ge n hge, decValue_append, ih _ hd]
      simp only [List.length_singleton, pow_one, decValue, List.length_nil, pow_zero, mul_one,
        add_zero, hc]
      exact Nat.div_add_mod' n 10

theorem isDecDigit_digitsFixed (k n : Nat) : ∀ c ∈ digitsFixed k n, isDecDigit c = true := by
  induction k generalizing n with
  | zero => simp [digitsFixed]
  | succ k ih =>
    intro c hc
    rw [digitsFixed, List.mem_append, List.mem_singleton] at hc
    rcases hc with h | h
    · exact ih _ c h
    · rw [h]
      exact isDecDigit_digitChar _ (Nat.mod_lt _ (by norm_num))

theorem isDecDigit_natToString (n : Nat) : ∀ c ∈ natToString n, isDecDigit c = true := by
  induction n using Nat.strong_induction_on with
  | _ n ih =>
    by_cases h10 : n < 10
    · rw [natToString_lt n h10]
      intro c hc
      rw [List.mem_singleton] at hc
      rw [hc]
      exact isDecDigit_digitChar n h10
    · have hge : 10 ≤ n := by omega
      have hd : n / 10 < n := Nat.div_lt_self (by omega) (by norm_num)
      rw [natToString_ge n hge]
      intro c hc
      rw [List.mem_append, List.mem_singleton] at hc
      rcases hc with h | h
      · exact ih _ hd c h
      · rw [h]
        exact isDecDigit_digitChar _ (Nat.mod_lt _ (by norm_num))

theorem digitValue_of_isDecDigit {c : Char} (h : isDecDigit c = true) :
    digitValue c = some (c.toNat - 48) ∧ c.toNat - 48 < 10 := by
  simp only [isDecDigit, Bool.and_eq_true, decide_eq_true_eq] at h
  simp only [digitValue]
  constructor
  · rw [if_pos h]
  · omega

theorem not_isWhiteSpace_of_isDecDigit {c : Char} (h : isDecDigit c = true) :
    isWhiteSpace c = false := by
  simp only [isDecDigit, Bool.and_eq_true, decide_eq_true_eq] at h
  simp only [isWhiteSpace, isLineTerminator, Bool.or_eq_false_iff, Bool.and_eq_false_iff,
    beq_eq_false_iff_ne, ne_eq, decide_eq_false_iff_not]
  omega

theorem parseDigits_dec (ds : Str) (h : ∀ c ∈ ds, isDecDigit c = true) (acc : Nat) :
    parseDigits 10 ds acc = some (acc * 10 ^ ds.length + decValue ds) := by
  induction ds generalizing acc with
  | nil => simp [parseDigits, decValue]
  | cons c cs ih =>
    have hc := digitValue_of_isDecDigit (h c (List.mem_cons_self _ _))
    have hcs : ∀ x ∈ cs, isDecDigit x = true := fun x hx => h x (List.mem_cons_of_mem _ hx)
    simp only [parseDigits, hc.1, hc.2, if_true, ih hcs, decValue, List.length_cons]
    congr 1
    ring

/-- `BigInt` of a non-empty string of decimal digits is the number it denotes. -/
theorem toBigInt_dec (ds : Str) (hne : ds ≠ []) (h : ∀ c ∈ ds, isDecDigit c = true) :
    toBigInt ds = some (decValue ds : Int) := by
  obtain ⟨c, cs, rfl⟩ := List.exists_cons_of_ne_nil hne
  have hc : isWhiteSpace c = false :=
    not_isWhiteSpace_of_isDecDigit (h c (List.mem_cons_self _ _))
  have hl : isWhiteSpace ((c :: cs).getLast (by simp)) = false :=
    not_isWhiteSpace_of_isDecDigit (h _ (List.getLast_mem _))
  have hx : ∀ x : Char, isDecDigit x = false → x ∉ c :: cs := by
    intro x hx hmem
    rw [h x hmem] at hx
    exact absurd hx (by decide)
  unfold toBigInt
  rw [trim_eq_self c cs hc hl]
  have hres : (parseNumeral 10 (c :: cs)).map Int.ofNat = some (decValue (c :: cs) : Int) := by
    simp [parseNumeral, parseDigits_dec (c :: cs) h]
  split
  · next heq => exact absurd heq (by simp)
  · next r heq => exact absurd (heq ▸ (by simp : 'x' ∈ '0' :: 'x' :: r)) (hx 'x' (by decide))
  · next r heq => exact absurd (heq ▸ (by simp : 'X' ∈ '0' :: 'X' :: r)) (hx 'X' (by decide))
  · next r heq => exact absurd (heq ▸ (by simp : 'o' ∈ '0' :: 'o' :: r)) (hx 'o' (by decide))
  · next r heq => exact absurd (heq ▸ (by simp : 'O' ∈ '0' :: 'O' :: r)) (hx 'O' (by decide))
  · next r heq => exact absurd (heq ▸ (by simp : 'b' ∈ '0' :: 'b' :: r)) (hx 'b' (by decide))
  · next r heq => exact absurd (heq ▸ (by simp : 'B' ∈ '0' :: 'B' :: r)) (hx 'B' (by decide))
  · next r heq => exact absurd (heq ▸ (by simp : '-' ∈ '-' :: r)) (hx '-' (by decide))
  · next r heq => exact absurd (heq ▸ (by simp : '+' ∈ '+' :: r)) (hx '+' (by decide))
  · exact hres


theorem slice_prefix_of_neg (a b : Str) (hb : 1 ≤ b.length) :
    slice (a ++ b) 0 (-(b.length : Int)) = a := by
  have h1 : sliceIndex (a ++ b).length 0 = 0 := by simp [sliceIndex]
  have h2 : sliceIndex (a ++ b).length (-(b.length : Int)) = a.length := by
    have hneg : (-(b.length : Int)) < 0 := by omega
    simp only [sliceIndex, hneg, if_true, List.length_append]
    omega
  simp only [slice, h1, h2, List.drop_zero, Nat.sub_zero]
  exact List.take_left' rfl

theorem sliceFrom_suffix_of_neg (a b : Str) (hb : 1 ≤ b.length) :
    sliceFrom (a ++ b) (-(b.length : Int)) = b := by
  have h2 : sliceIndex (a ++ b).length (-(b.length : Int)) = a.length := by
    have hneg : (-(b.length : Int)) < 0 := by omega
    simp only [sliceIndex, hneg, if_true, List.length_append]
    omega
  simp only [sliceFrom, h2]
  exact List.drop_left' rfl

theorem slice_take (s : Str) (k : Nat) (hk : k ≤ s.length) :
    slice s 0 (k : Int) = s.take k := by
  have h1 : sliceIndex s.length 0 = 0 := by simp [sliceIndex]
  have h2 : sliceIndex s.length (k : Int) = k := by
    have hneg : ¬ ((k : Int) < 0) := by omega
    simp only [sliceIndex, hneg, if_false, Int.toNat_ofNat]
    omega
  simp only [slice, h1, h2, List.drop_zero, Nat.sub_zero]

theorem padStart_natToString_lt (k n : Nat) (h : n < 10 ^ (k + 1)) :
    padStart (k + 1) (natToString n) = digitsFixed (k + 1) n := by
  have hq : n / 10 ^ k < 10 := by
    apply Nat.div_lt_of_lt_mul
    rw [pow_succ] at h
    exact h
  rw [padStart_natToString, natToString_lt _ hq, Nat.add_comm k 1, digitsFixed_add 1 k n,
    digitsFixed_one, Nat.mod_eq_of_lt hq]

theorem digitsFixed_mod (k n : Nat) : digitsFixed k (n % 10 ^ k) = digitsFixed k n := by
  induction k generalizing n with
  | zero => rfl
  | succ k ih =>
    rw [digitsFixed, digitsFixed]
    have h1 : n % 10 ^ (k + 1) % 10 = n % 10 := by
      rw [pow_succ, Nat.mul_comm]
      exact Nat.mod_mul_right_mod n 10 (10 ^ k)
    have h2 : n % 10 ^ (k + 1) / 10 = (n / 10) % 10 ^ k := by
      rw [pow_succ, Nat.mul_comm]
      exact Nat.mod_mul_right_div_self n 10 (10 ^ k)
    rw [h1, h2, ih]

theorem stripTrailingZeros_zeros (k : Nat) : stripTrailingZeros (List.replicate k '0') = [] := by
  unfold stripTrailingZeros
  rw [List.reverse_replicate]
  have : (List.replicate k '0').dropWhile (fun c => c == '0') = [] := by
    rw [List.dropWhile_eq_nil_iff]
    intro c hc
    rw [(List.mem_replicate.mp hc).2]
    rfl
  rw [this]
  rfl

/-- Half-up rounding at the seventh digit. -/
theorem roundedMillionths_eq (x d : Nat) (hd : 7 ≤ d) :
    roundedMillionths x d =
      x / 10 ^ (d - 6) + (if 5 ≤ (x / 10 ^ (d - 7)) % 10 then 1 else 0) := by
  have hp : 0 < 10 ^ (d - 7) := Nat.pos_of_ne_zero (by positivity)
  have e1 : 10 ^ (d - 6) = 10 ^ (d - 7) * 10 := by
    rw [← pow_succ]
    congr 1
    omega
  have h1 : x / 10 ^ (d - 6) = x / 10 ^ (d - 7) / 10 := by
    rw [e1, Nat.div_div_eq_div_mul]
  have h2 : (x + 5 * 10 ^ (d - 7)) / 10 ^ (d - 6) = (x / 10 ^ (d - 7) + 5) / 10 := by
    rw [e1, ← Nat.div_div_eq_div_mul, Nat.add_mul_div_right _ _ hp]
  unfold roundedMillionths
  rw [h2, h1]
  split_ifs <;> omega

theorem formatUnits_small (x d : Nat) (h1 : 1 ≤ d) (h6 : d ≤ 6) :
    formatUnits (x : Int) d 6 = canonicalDecimal x d := by
  have hdec : max 0 (min 36 d) = d := by omega
  have hA : natToString (x / 10 ^ d) ≠ [] := natToString_ne_nil _
  have hlen : (digitsFixed d x).length = d := digitsFixed_length d x
  have hB : 1 ≤ (digitsFixed d x).length := by omega
  have hs1 : slice (natToString (x / 10 ^ d) ++ digitsFixed d x) 0 (-(d : Int))
      = natToString (x / 10 ^ d) := by
    have := slice_prefix_of_neg (natToString (x / 10 ^ d)) (digitsFixed d x) hB
    rwa [hlen] at this
  have hs2 : sliceFrom (natToString (x / 10 ^ d) ++ digitsFixed d x) (-(d : Int))
      = digitsFixed d x := by
    have := sliceFrom_suffix_of_neg (natToString (x / 10 ^ d)) (digitsFixed d x) hB
    rwa [hlen] at this
  have hAe : (natToString (x / 10 ^ d)).isEmpty = false := by
    cases h : natToString (x / 10 ^ d) with
    | nil => exact absurd h hA
    | cons _ _ => rfl
  have hBe : (digitsFixed d x).isEmpty = false := by
    cases h : digitsFixed d x with
    | nil => rw [h] at hB; simp at hB
    | cons _ _ => rfl
  have hd0 : d ≠ 0 := by omega
  have hneg : ¬ ((x : Int) < 0) := by omega
  have hgt : ¬ (d > 6) := by omega
  unfold formatUnits canonicalDecimal
  simp only [hdec, Int.natAbs_ofNat, padStart_natToString, hs1, hs2, hAe, hBe, hd0, hneg, hlen,
    hgt, ne_eq, not_false_eq_true, if_true, if_false, decide_False, Bool.false_eq_true,
    List.nil_append]
  split_ifs <;> simp

theorem digitsFixed_take6 (x d : Nat) (h : 6 ≤ d) :
    (digitsFixed d x).take 6 = digitsFixed 6 (x / 10 ^ (d - 6)) := by
  have e : d = 6 + (d - 6) := by omega
  have := digitsFixed_add 6 (d - 6) x
  rw [← e] at this
  rw [this]
  exact List.take_left' (digitsFixed_length 6 _)

theorem digitsFixed_getD6 (x d : Nat) (h : 7 ≤ d) :
    (digitsFixed d x).getD 6 '0' = digitChar ((x / 10 ^ (d - 7)) % 10) := by
  have e : d = 6 + (1 + (d - 7)) := by omega
  have h1 := digitsFixed_add 6 (1 + (d - 7)) x
  have h2 := digitsFixed_add 1 (d - 7) x
  rw [← e] at h1
  rw [h1, h2, digitsFixed_one]
  rw [List.getD_eq_getElem?_getD, List.getElem?_append_right (by rw [digitsFixed_length])]
  rw [digitsFixed_length]
  simp

theorem digitValue_digitChar (t : Nat) (h : t < 10) : digitValue (digitChar t) = some t := by
  interval_cases t <;> rfl

theorem formatUnits_large (x d : Nat) (h7 : 7 ≤ d) (h36 : d ≤ 36) :
    formatUnits (x : Int) d 6 = canonicalDecimal (roundedMillionths x d) 6 := by
  have hdec : max 0 (min 36 d) = d := by omega
  have hA : natToString (x / 10 ^ d) ≠ [] := natToString_ne_nil _
  have hlen : (digitsFixed d x).length = d := digitsFixed_length d x
  have hB : 1 ≤ (digitsFixed d x).length := by omega
  have hs1 : slice (natToString (x / 10 ^ d) ++ digitsFixed d x) 0 (-(d : Int))
      = natToString (x / 10 ^ d) := by
    have := slice_prefix_of_neg (natToString (x / 10 ^ d)) (digitsFixed d x) hB
    rwa [hlen] at this
  have hs2 : sliceFrom (natToString (x / 10 ^ d) ++ digitsFixed d x) (-(d : Int))
      = digitsFixed d x := by
    have := sliceFrom_suffix_of_neg (natToString (x / 10 ^ d)) (digitsFixed d x) hB
    rwa [hlen] at this
  have hAe : (natToString (x / 10 ^ d)).isEmpty = false := by
    cases h : natToString (x / 10 ^ d) with
    | nil => exact absurd h hA
    | cons _ _ => rfl
  have hBe : (digitsFixed d x).isEmpty = false := by
    cases h : digitsFixed d x with
    | nil => rw [h] at hB; simp at hB
    | cons _ _ => rfl
  have hd0 : d ≠ 0 := by omega
  have hneg : ¬ ((x : Int) < 0) := by omega
  have hgt : d > 6 := by omega
  have hcut : slice (digitsFixed d x) 0 ((6 : Nat) : Int) = digitsFixed 6 (x / 10 ^ (d - 6)) := by
    rw [slice_take _ _ (by omega), digitsFixed_take6 x d (by omega)]
  have hnext : digitValue ((digitsFixed d x).getD 6 '0') = some ((x / 10 ^ (d - 7)) % 10) := by
    rw [digitsFixed_getD6 x d h7]
    exact digitValue_digitChar _ (Nat.mod_lt _ (by norm_num))
  have hbig : toBigInt (digitsFixed 6 (x / 10 ^ (d - 6)))
      = some (((x / 10 ^ (d - 6)) % 10 ^ 6 : Nat) : Int) := by
    rw [toBigInt_dec _ _ (isDecDigit_digitsFixed 6 _), decValue_digitsFixed]
    intro h
    have := congrArg List.length h
    rw [digitsFixed_length] at this
    simp at this
  have hbigA : toBigInt (natToString (x / 10 ^ d)) = some ((x / 10 ^ d : Nat) : Int) := by
    rw [toBigInt_dec _ hA (isDecDigit_natToString _), decValue_natToString]
  have hpad : padStart (d + 1) (natToString x) = natToString (x / 10 ^ d) ++ digitsFixed d x :=
    padStart_natToString d x
  have hA1 : ((x / 10 ^ d : Nat) + 1 : Int).natAbs = x / 10 ^ d + 1 := by
    rw [show ((x / 10 ^ d : Nat) + 1 : Int) = ((x / 10 ^ d + 1 : Nat) : Int) by push_cast; rfl]
    exact Int.natAbs_ofNat _
  have hq : x / 10 ^ d = x / 10 ^ (d - 6) / 10 ^ 6 := by
    rw [Nat.div_div_eq_div_mul, ← pow_add]
    congr 2
    omega
  have hN := roundedMillionths_eq x d h7
  generalize x / 10 ^ (d - 7) % 10 = t at hnext hN
  generalize x / 10 ^ (d - 6) = q at hcut hbig hq hN
  have hR : (if t ≥ 5 then (((q % 10 ^ 6 : Nat) : Int) + 1) else ((q % 10 ^ 6 : Nat) : Int)).natAbs
      = q % 10 ^ 6 + (if 5 ≤ t then 1 else 0) := by
    split_ifs <;> omega
  have hm : q % 10 ^ 6 < 10 ^ 6 := Nat.mod_lt _ (by norm_num)
  have hqm : q = q / 10 ^ 6 * 10 ^ 6 + q % 10 ^ 6 := (Nat.div_add_mod' q (10 ^ 6)).symm
  unfold formatUnits canonicalDecimal
  simp only [hdec, Int.natAbs_ofNat, hpad, hs1, hs2, hAe, hBe, hd0, hneg, hlen,
    hgt, hcut, hnext, hbig, hbigA, hA1, hR, Option.getD_some, ne_eq, not_false_eq_true, if_true,
    if_false, decide_False, Bool.false_eq_true, List.nil_append]
  rw [hN, hq]
  have hc : (if 5 ≤ t then 1 else 0) ≤ 1 := by split_ifs <;> omega
  generalize (if 5 ≤ t then 1 else 0) = c at hc ⊢
  have e6 : (10 : Nat) ^ 6 = 1000000 := by norm_num
  by_cases hlt : q % 10 ^ 6 + c < 10 ^ 6
  · have hp : padStart 6 (natToString (q % 10 ^ 6 + c)) = digitsFixed 6 (q % 10 ^ 6 + c) :=
      padStart_natToString_lt 5 _ hlt
    have hdiv : (q + c) / 10 ^ 6 = q / 10 ^ 6 := by
      rw [e6] at hlt ⊢
      omega
    have hmod : digitsFixed 6 (q + c) = digitsFixed 6 (q % 10 ^ 6 + c) := by
      rw [← digitsFixed_mod 6 (q + c), ← digitsFixed_mod 6 (q % 10 ^ 6 + c)]
      congr 1
      rw [e6] at hlt ⊢
      omega
    have hl6 : ¬ ((digitsFixed 6 (q % 10 ^ 6 + c)).length > 6) := by
      rw [digitsFixed_length]
      omega
    rw [hp, hdiv, hmod]
    simp only [hl6, if_false]
    split_ifs <;> simp
  · have hR1 : q % 10 ^ 6 + c = 1000000 := by
      rw [e6] at hlt hm ⊢
      omega
    have hdiv : (q + c) / 10 ^ 6 = q / 10 ^ 6 + 1 := by
      rw [e6] at hR1 ⊢
      omega
    have hmod : digitsFixed 6 (q + c) = List.replicate 6 '0' := by
      rw [← digitsFixed_mod 6 (q + c), ← digitsFixed_zero 6]
      congr 1
      rw [e6] at hR1 ⊢
      omega
    have hp : padStart 6 (natToString 1000000) = "1000000".toList := by decide
    have hsl : sliceFrom "1000000".toList 1 = List.replicate 6 '0' := by decide
    have hl7 : ("1000000".toList).length > 6 := by decide
    rw [hR1, hp, hdiv, hmod]
    simp only [hl7, if_true, hsl, stripTrailingZeros_zeros, List.isEmpty_nil, List.append_nil]

theorem natToString_head_zero (n : Nat) (h : (natToString n).head? = some '0') : n = 0 := by
  induction n using Nat.strong_induction_on with
  | _ n ih =>
    by_cases h10 : n < 10
    · rw [natToString_lt n h10] at h
      simp only [List.head?_cons, Option.some.injEq] at h
      interval_cases n <;> first | rfl | (exfalso; revert h; decide)
    · exfalso
      have h10 : 10 ≤ n := by omega
      rw [natToString_ge n h10] at h
      obtain ⟨c, cs, hcs⟩ := List.exists_cons_of_ne_nil (natToString_ne_nil (n / 10))
      have h2 : (natToString (n / 10)).head? = some '0' := by
        rw [hcs] at h ⊢
        simpa using h
      have := ih (n / 10) (by omega) h2
      omega

theorem natToString_head (n : Nat) (h : (natToString n).head? = some '0') :
    natToString n = ['0'] := by
  rw [natToString_head_zero n h]
  rfl

theorem head?_dropWhile_not (p : Char → Bool) (l : List Char) (a : Char)
    (h : (l.dropWhile p).head? = some a) : p a = false := by
  induction l with
  | nil => simp at h
  | cons c cs ih =>
    rw [List.dropWhile_cons] at h
    by_cases hc : p c = true
    · rw [if_pos hc] at h
      exact ih h
    · rw [if_neg hc] at h
      simp only [List.head?_cons, Option.some.injEq] at h
      rw [← h]
      simpa using hc

theorem stripTrailingZeros_getLast? (s : Str) : (stripTrailingZeros s).getLast? ≠ some '0' := by
  unfold stripTrailingZeros
  rw [List.getLast?_reverse]
  intro h
  have := head?_dropWhile_not _ _ _ h
  simp at this

theorem stripTrailingZeros_decomp (s : Str) :
    ∃ j, s = stripTrailingZeros s ++ List.replicate j '0' := by
  refine ⟨(s.reverse.takeWhile (fun c => c == '0')).length, ?_⟩
  have h1 : s.reverse = s.reverse.takeWhile (fun c => c == '0') ++
      s.reverse.dropWhile (fun c => c == '0') := (List.takeWhile_append_dropWhile _ _).symm
  have h2 : s.reverse.takeWhile (fun c => c == '0') =
      List.replicate (s.reverse.takeWhile (fun c => c == '0')).length '0' := by
    rw [List.eq_replicate_iff]
    refine ⟨rfl, ?_⟩
    intro b hb
    have := List.mem_takeWhile_imp hb
    simpa using this
  have h3 := congrArg List.reverse h1
  rw [List.reverse_reverse, List.reverse_append] at h3
  unfold stripTrailingZeros
  conv_lhs => rw [h3]
  congr 1
  conv_lhs => rw [h2]
  rw [List.reverse_replicate]

theorem stripTrailingZeros_subset (s : Str) : ∀ c ∈ stripTrailingZeros s, c ∈ s := by
  intro c hc
  obtain ⟨j, hj⟩ := stripTrailingZeros_decomp s
  rw [hj]
  exact List.mem_append_left _ hc

theorem stripTrailingZeros_length (s : Str) : (stripTrailingZeros s).length ≤ s.length := by
  obtain ⟨j, hj⟩ := stripTrailingZeros_decomp s
  conv_rhs => rw [hj]
  rw [List.length_append]
  omega

theorem decValue_zeros (j : Nat) : decValue (List.replicate j '0') = 0 := by
  induction j with
  | zero => rfl
  | succ j ih =>
    rw [List.replicate_succ, decValue, ih]
    simp


/-- The string `canonicalDecimal n k` is the canonical decimal string of
`n / 10^k`. -/
theorem canonicalDecimal_isCanonical (n k m : Nat) (hk : k ≤ m) :
    IsCanonicalDecimal (canonicalDecimal n k) m ((n : ℚ) / 10 ^ k) := by
  refine ⟨natToString (n / 10 ^ k), stripTrailingZeros (digitsFixed k n), rfl,
    natToString_ne_nil _, isDecDigit_natToString _, ?_, natToString_head _,
    stripTrailingZeros_getLast? _, ?_, ?_⟩
  · intro c hc
    exact isDecDigit_digitsFixed k n c (stripTrailingZeros_subset _ c hc)
  · have := stripTrailingZeros_length (digitsFixed k n)
    rw [digitsFixed_length] at this
    omega
  · obtain ⟨j, hj⟩ := stripTrailingZeros_decomp (digitsFixed k n)
    have hlen : (stripTrailingZeros (digitsFixed k n)).length + j = k := by
      have := congrArg List.length hj
      rw [digitsFixed_length, List.length_append, List.length_replicate] at this
      exact this.symm
    have hval : decValue (stripTrailingZeros (digitsFixed k n)) * 10 ^ j = n % 10 ^ k := by
      have := congrArg decValue hj
      rw [decValue_digitsFixed, decValue_append, decValue_zeros, List.length_replicate,
        Nat.add_zero] at this
      exact this.symm
    rw [decValue_natToString]
    generalize stripTrailingZeros (digitsFixed k n) = fr at hlen hval
    have hn : (n : ℚ) = ((n / 10 ^ k : Nat) : ℚ) * 10 ^ k + ((n % 10 ^ k : Nat) : ℚ) := by
      have := Nat.div_add_mod' n (10 ^ k)
      exact_mod_cast this.symm
    rw [hn, ← hval, ← hlen]
    push_cast
    have h10 : (10 : ℚ) ^ fr.length ≠ 0 := by positivity
    have h10j : (10 : ℚ) ^ j ≠ 0 := by positivity
    rw [pow_add]
    field_simp
    ring

theorem takeWhile_digits (ip rest : Str) (h : ∀ c ∈ ip, isDecDigit c = true) :
    (ip ++ '.' :: rest).takeWhile (fun c => c != '.') = ip ∧
    (ip ++ '.' :: rest).dropWhile (fun c => c != '.') = '.' :: rest := by
  induction ip with
  | nil => simp
  | cons c cs ih =>
    have hc : (c != '.') = true := by
      have := h c (List.mem_cons_self _ _)
      rw [bne_iff_ne]
      rintro rfl
      revert this
      decide
    have := ih (fun d hd => h d (List.mem_cons_of_mem _ hd))
    simp only [List.cons_append, List.takeWhile_cons, List.dropWhile_cons, hc, if_true, this,
      and_self]

theorem takeWhile_digits_only (ip : Str) (h : ∀ c ∈ ip, isDecDigit c = true) :
    ip.takeWhile (fun c => c != '.') = ip ∧ ip.dropWhile (fun c => c != '.') = [] := by
  induction ip with
  | nil => simp
  | cons c cs ih =>
    have hc : (c != '.') = true := by
      have := h c (List.mem_cons_self _ _)
      rw [bne_iff_ne]
      rintro rfl
      revert this
      decide
    have := ih (fun d hd => h d (List.mem_cons_of_mem _ hd))
    simp only [List.takeWhile_cons, List.dropWhile_cons, hc, if_true, this, and_self]

/-- Reading a canonical decimal string gives the number it is canonical for. -/
theorem parseDecimal_of_isCanonical (s : Str) (m : Nat) (v : ℚ)
    (h : IsCanonicalDecimal s m v) : parseDecimal s = v := by
  obtain ⟨ip, fr, hs, -, hip, -, -, -, -, hv⟩ := h
  rw [← hv, hs]
  unfold parseDecimal
  cases fr with
  | nil =>
    simp only [List.isEmpty_nil, if_true, List.append_nil, (takeWhile_digits_only ip hip).1,
      (takeWhile_digits_only ip hip).2, List.drop_nil]
  | cons c cs =>
    simp only [List.isEmpty_cons, Bool.false_eq_true, if_false, (takeWhile_digits ip _ hip).1,
      (takeWhile_digits ip _ hip).2, List.drop_succ_cons, List.drop_zero]

theorem roundedMillionths_floor (x d : Nat) (hd : 7 ≤ d) :
    ((roundedMillionths x d : Nat) : ℤ) = ⌊(x : ℚ) / 10 ^ (d - 6) + 1 / 2⌋ := by
  have e1 : d - 6 = (d - 7) + 1 := by omega
  have hpos : (0 : ℚ) < 10 ^ (d - 7) := by positivity
  have h : (x : ℚ) / 10 ^ (d - 6) + 1 / 2 =
      (((x + 5 * 10 ^ (d - 7) : Nat) : ℚ)) / ((10 ^ (d - 6) : Nat) : ℚ) := by
    rw [e1]
    push_cast
    rw [pow_succ]
    field_simp
    ring
  rw [h, ← Int.natCast_floor_eq_floor (by positivity), Nat.floor_div_eq_div]
  rfl


/-- C11: for every non-negative integer `x` and every `d` with `1 ≤ d ≤ 36`,
`formatUnits(x, d, 6)` is the canonical decimal string (integer part without
leading zeros, fraction of at most 6 digits without trailing zeros, no point
when the fraction is empty) of `x / 10^d` itself when `d ≤ 6`, and of
`floor(x / 10^(d-6) + 1/2) / 10^6` when `d > 6`; the value is exact, so a
fraction that rounds up to 1 is carried into the integer part. -/
theorem formatUnits_canonical (x d : Nat) (h1 : 1 ≤ d) (h36 : d ≤ 36) :
    (d ≤ 6 →
      formatUnits (x : Int) d 6 = canonicalDecimal x d ∧
      IsCanonicalDecimal (formatUnits (x : Int) d 6) 6 ((x : ℚ) / 10 ^ d)) ∧
    (6 < d →
      formatUnits (x : Int) d 6 = canonicalDecimal (roundedMillionths x d) 6 ∧
      IsCanonicalDecimal (formatUnits (x : Int) d 6) 6
        ((⌊(x : ℚ) / 10 ^ (d - 6) + 1 / 2⌋ : ℚ) / 10 ^ 6)) := by
  constructor
  · intro h6
    rw [formatUnits_small x d h1 h6]
    exact ⟨rfl, canonicalDecimal_isCanonical x d 6 h6⟩
  · intro h6
    have h7 : 7 ≤ d := h6
    rw [formatUnits_large x d h7 h36]
    refine ⟨rfl, ?_⟩
    have := canonicalDecimal_isCanonical (roundedMillionths x d) 6 6 (le_refl 6)
    rw [← roundedMillionths_floor x d h7, Int.cast_natCast]
    exact this

set_option maxRecDepth 100000 in
/-- Witness of C11: at 18 decimals the amount 1999999500000000000 rounds up to
1 in the fraction and is shown as `2`; at 6 decimals 1234567 is shown exactly;
at 18 decimals 1234567891234567891 is shown as `1.234568`. -/
theorem formatUnits_canonical_witness :
    ((1 ≤ 18 ∧ 18 ≤ 36 ∧ 6 < 18) ∧
      IsCanonicalDecimal (formatUnits ((1999999500000000000 : Nat) : Int) 18 6) 6
        ((⌊((1999999500000000000 : Nat) : ℚ) / 10 ^ (18 - 6) + 1 / 2⌋ : ℚ) / 10 ^ 6)) ∧
    ((1 ≤ 6 ∧ 6 ≤ 36 ∧ 6 ≤ 6) ∧
      IsCanonicalDecimal (formatUnits ((1234567 : Nat) : Int) 6 6) 6
        (((1234567 : Nat) : ℚ) / 10 ^ 6)) ∧
    formatUnits ((1999999500000000000 : Nat) : Int) 18 6 = "2".toList ∧
    formatUnits ((1234567 : Nat) : Int) 6 6 = "1.234567".toList ∧
    formatUnits ((1234567891234567891 : Nat) : Int) 18 6 = "1.234568".toList ∧
    formatUnits ((1500000 : Nat) : Int) 6 6 = "1.5".toList :=
  ⟨⟨⟨by decide, by decide, by decide⟩,
      ((formatUnits_canonical 1999999500000000000 18 (by decide) (by decide)).2 (by decide)).2⟩,
    ⟨⟨by decide, by decide, by decide⟩,
      ((formatUnits_canonical 1234567 6 (by decide) (by decide)).1 (by decide)).2⟩,
    by decide, by decide, by decide, by decide⟩

/-- C13: for every non-negative integer `x`, reading the string
`formatUnits(x, 18, 6)` as a decimal number and multiplying by `10^18` gives an
integer `x'` with `|x' - x| ≤ 5 * 10^11`, and `x' = x` when `x` is a multiple
of `10^12`. -/
theorem formatUnits_roundtrip (x : Nat) :
    ∃ x' : ℤ, parseDecimal (formatUnits (x : Int) 18 6) * 10 ^ 18 = (x' : ℚ) ∧
      |x' - (x : ℤ)| ≤ 5 * 10 ^ 11 ∧
      ((10 : ℤ) ^ 12 ∣ (x : ℤ) → x' = (x : ℤ)) := by
  have hp : parseDecimal (formatUnits (x : Int) 18 6) =
      ((roundedMillionths x 18 : Nat) : ℚ) / 10 ^ 6 := by
    rw [formatUnits_large x 18 (by decide) (by decide)]
    exact parseDecimal_of_isCanonical _ 6 _
      (canonicalDecimal_isCanonical (roundedMillionths x 18) 6 6 (le_refl 6))
  have hr : roundedMillionths x 18 = (x + 500000000000) / 1000000000000 := by
    unfold roundedMillionths
    norm_num
  refine ⟨((roundedMillionths x 18 : Nat) : ℤ) * 10 ^ 12, ?_, ?_, ?_⟩
  · rw [hp]
    push_cast
    ring
  · rw [hr, abs_le]
    norm_num
    omega
  · rintro ⟨k, hk⟩
    rw [hr]
    norm_num at hk ⊢
    omega

/-- Witness of C13: 1500000000000000000 is a multiple of `10^12`, is shown as
`1.5`, and reads back as itself. -/
theorem formatUnits_roundtrip_witness :
    (10 : ℤ) ^ 12 ∣ ((1500000000000000000 : Nat) : ℤ) ∧
    ∃ x' : ℤ,
      parseDecimal (formatUnits ((1500000000000000000 : Nat) : Int) 18 6) * 10 ^ 18 = (x' : ℚ) ∧
      x' = ((1500000000000000000 : Nat) : ℤ) :=
  ⟨⟨1500000, by norm_num⟩,
    (formatUnits_roundtrip 1500000000000000000).elim
      (fun x' h => ⟨x', h.1, h.2.2 ⟨1500000, by norm_num⟩⟩)⟩

/-! ## Wallet file parsing -/

theorem isLowerHexChar_mem (c : Char) (h : isLowerHexChar c = true) :
    c ∈ "0123456789abcdef".toList := by
  have hc : Char.ofNat c.toNat = c := Char.ofNat_toNat c
  simp only [isLowerHexChar, Bool.or_eq_true, Bool.and_eq_true, decide_eq_true_eq] at h
  have hcases : c.toNat = 48 ∨ c.toNat = 49 ∨ c.toNat = 50 ∨ c.toNat = 51 ∨ c.toNat = 52 ∨
      c.toNat = 53 ∨ c.toNat = 54 ∨ c.toNat = 55 ∨ c.toNat = 56 ∨ c.toNat = 57 ∨
      c.toNat = 97 ∨ c.toNat = 98 ∨ c.toNat = 99 ∨ c.toNat = 100 ∨ c.toNat = 101 ∨
      c.toNat = 102 := by omega
  rcases hcases with h | h | h | h | h | h | h | h | h | h | h | h | h | h | h | h <;>
    (rw [← hc, h]; decide)

theorem isAddress_spec (a : Str) (h : isAddress a = true) : LowerHexAddress a := by
  unfold isAddress at h
  split at h
  · rename_i ds
    simp only [Bool.and_eq_true, beq_iff_eq, List.all_eq_true] at h
    exact ⟨ds, rfl, h.1, fun c hc => isLowerHexChar_mem c (h.2 c hc)⟩
  · exact absurd h (by simp)

theorem keysNodup_dedupFold (arr : List WalletEntry) (m : JsMap Str) (hm : KeysNodup m) :
    KeysNodup (arr.foldl (fun m it => mapSet m it.address (trim it.label)) m) := by
  induction arr generalizing m with
  | nil => exact hm
  | cons it rest ih =>
    rw [List.foldl_cons]
    exact ih _ (keysNodup_mapSet m hm _ _)

theorem keys_dedupFold (arr : List WalletEntry) (m : JsMap Str) (k : Str)
    (h : k ∈ (arr.foldl (fun m it => mapSet m it.address (trim it.label)) m).map Prod.fst) :
    k ∈ m.map Prod.fst ∨ ∃ it ∈ arr, it.address = k := by
  induction arr generalizing m with
  | nil => exact Or.inl h
  | cons it rest ih =>
    rw [List.foldl_cons] at h
    rcases ih _ h with h1 | ⟨x, hx, hxk⟩
    · rw [keys_mapSet] at h1
      split_ifs at h1 with hmem
      · exact Or.inl h1
      · rcases List.mem_append.mp h1 with h2 | h2
        · exact Or.inl h2
        · exact Or.inr ⟨it, List.mem_cons_self _ _, (List.mem_singleton.mp h2).symm⟩
    · exact Or.inr ⟨x, List.mem_cons_of_mem _ hx, hxk⟩

theorem dedup_addresses (arr : List WalletEntry) :
    (dedup arr).map (fun e => e.address) =
      (arr.foldl (fun m it => mapSet m it.address (trim it.label)) ([] : JsMap Str)).map
        Prod.fst := by
  unfold dedup
  rw [List.map_map]
  rfl

/-- No address occurs twice in the result of `dedup`. -/
theorem dedup_nodup (arr : List WalletEntry) : ((dedup arr).map (fun e => e.address)).Nodup := by
  rw [dedup_addresses]
  exact keysNodup_dedupFold arr [] List.nodup_nil

/-- Every address of the result of `dedup` is the address of an entry of its
argument. -/
theorem dedup_mem (arr : List WalletEntry) (e : WalletEntry) (he : e ∈ dedup arr) :
    ∃ it ∈ arr, it.address = e.address := by
  have h : e.address ∈ (dedup arr).map (fun e => e.address) := List.mem_map.mpr ⟨e, he, rfl⟩
  rw [dedup_addresses] at h
  rcases keys_dedupFold arr [] _ h with h1 | h1
  · simp at h1
  · exact h1

theorem mapGet_dedupFold_of_not_mem (arr : List WalletEntry) (m : JsMap Str) (k : Str)
    (h : ∀ x ∈ arr, x.address ≠ k) :
    mapGet (arr.foldl (fun m it => mapSet m it.address (trim it.label)) m) k = mapGet m k := by
  induction arr generalizing m with
  | nil => rfl
  | cons it rest ih =>
    rw [List.foldl_cons, ih _ (fun x hx => h x (List.mem_cons_of_mem _ hx)), mapGet_mapSet,
      if_neg (h it (List.mem_cons_self _ _))]

/-- The label `dedup` keeps for an address is the trimmed label of the last
entry with that address. -/
theorem dedup_last (pre post : List WalletEntry) (it : WalletEntry)
    (h : ∀ x ∈ post, x.address ≠ it.address) :
    ({ address := it.address, label := trim it.label } : WalletEntry) ∈
      dedup (pre ++ it :: post) := by
  have hget : mapGet ((pre ++ it :: post).foldl
      (fun m it => mapSet m it.address (trim it.label)) ([] : JsMap Str)) it.address =
      some (trim it.label) := by
    rw [List.foldl_append, List.foldl_cons, mapGet_dedupFold_of_not_mem post _ _ h,
      mapGet_mapSet, if_pos rfl]
  have hmem := mem_of_mapGet _ _ _ hget
  unfold dedup
  exact List.mem_map.mpr ⟨_, hmem, rfl⟩

theorem arrayLoop_addresses (items : List Json) (list l : List WalletEntry)
    (hl : ∀ e ∈ list, isAddress e.address = true) (h : arrayLoop items list = some l) :
    ∀ e ∈ l, isAddress e.address = true := by
  induction items generalizing list with
  | nil =>
    simp only [arrayLoop, Option.some.injEq] at h
    rw [← h]
    exact hl
  | cons item rest ih =>
    have hpush : ∀ (a label : Str),
        ∀ e ∈ (if isAddress a = true then list ++ [{ address := a, label := label }] else list),
          isAddress e.address = true := by
      intro a label e he
      split_ifs at he with ha
      · rcases List.mem_append.mp he with h1 | h1
        · exact hl e h1
        · rw [List.mem_singleton.mp h1]
          exact ha
      · exact hl e he
    cases item with
    | null => exact ih list hl (by simpa only [arrayLoop] using h)
    | bool b => exact ih list hl (by simpa only [arrayLoop] using h)
    | num z t => exact ih list hl (by simpa only [arrayLoop] using h)
    | arr xs => exact ih list hl (by simpa only [arrayLoop] using h)
    | str s =>
      simp only [arrayLoop] at h
      exact ih _ (hpush _ _) h
    | obj kvs =>
      simp only [arrayLoop] at h
      split at h
      · exact ih list hl h
      · split_ifs at h
        · split at h
          · exact absurd h (by simp)
          · split at h
            · exact absurd h (by simp)
            · exact ih _ (hpush _ _) h
        · exact ih list hl h

theorem entriesLoop_addresses (kvs : List (Str × Json)) (list l : List WalletEntry)
    (hl : ∀ e ∈ list, isAddress e.address = true) (h : entriesLoop kvs list = some l) :
    ∀ e ∈ l, isAddress e.address = true := by
  induction kvs generalizing list with
  | nil =>
    simp only [entriesLoop, Option.some.injEq] at h
    rw [← h]
    exact hl
  | cons kv rest ih =>
    obtain ⟨addr, lab⟩ := kv
    simp only [entriesLoop] at h
    split_ifs at h with ha
    · split at h
      · exact absurd h (by simp)
      · refine ih _ ?_ h
        intro e he
        rcases List.mem_append.mp he with h1 | h1
        · exact hl e h1
        · rw [List.mem_singleton.mp h1]
          exact ha
    · exact ih list hl h

theorem dedup_isAddress (arr : List WalletEntry) (h : ∀ e ∈ arr, isAddress e.address = true) :
    ∀ e ∈ dedup arr, isAddress e.address = true := by
  intro e he
  obtain ⟨it, hit, heq⟩ := dedup_mem arr e he
  rw [← heq]
  exact h it hit

theorem plain_isAddress (pieces : List Str) :
    ∀ e ∈ ((pieces.map (fun s => toLowerCase (trim s))).filter isAddress).map
        (fun address => ({ address := address, label := [] } : WalletEntry)),
      isAddress e.address = true := by
  intro e he
  obtain ⟨a, ha, rfl⟩ := List.mem_map.mp he
  exact (List.mem_filter.mp ha).2

/-- The result of `parseWalletsText` is `dedup` of a list of entries that all
passed the test of the address pattern. -/
theorem parseWalletsText_eq_dedup (parsed : Option Json) (txt : Str) :
    ∃ arr : List WalletEntry, parseWalletsText parsed txt = dedup arr ∧
      ∀ e ∈ arr, isAddress e.address = true := by
  unfold parseWalletsText
  simp only []
  split
  · split
    · rename_i list hj
      exact ⟨list, rfl, arrayLoop_addresses _ [] list (by simp) hj⟩
    · exact ⟨_, rfl, plain_isAddress _⟩
  · split
    · rename_i list2 hj
      exact ⟨list2, rfl, entriesLoop_addresses _ [] list2 (by simp) hj⟩
    · exact ⟨_, rfl, plain_isAddress _⟩
  · exact ⟨_, rfl, plain_isAddress _⟩

theorem getLast?_dropWhile (p : Char → Bool) (l : List Char) (h : l.dropWhile p ≠ []) :
    (l.dropWhile p).getLast? = l.getLast? := by
  induction l with
  | nil => rfl
  | cons c cs ih =>
    rw [List.dropWhile_cons] at h ⊢
    by_cases hc : p c = true
    · rw [if_pos hc] at h ⊢
      have hcs : cs ≠ [] := by
        rintro rfl
        exact h rfl
      obtain ⟨d, ds, rfl⟩ := List.exists_cons_of_ne_nil hcs
      rw [ih h, List.getLast?_cons_cons]
    · rw [if_neg hc]

/-- Trimming twice is trimming once. -/
theorem trim_trim (s : Str) : trim (trim s) = trim s := by
  cases ht : trim s with
  | nil => rfl
  | cons c cs =>
    have hw : (s.dropWhile isWhiteSpace).reverse.dropWhile isWhiteSpace = (c :: cs).reverse := by
      have := congrArg List.reverse ht
      unfold trim at this
      rwa [List.reverse_reverse] at this
    have hne : (s.dropWhile isWhiteSpace).reverse.dropWhile isWhiteSpace ≠ [] := by
      rw [hw]
      simp
    have hhead : (c :: cs).head? = some c := rfl
    have hc : isWhiteSpace c = false := by
      have h1 : ((c :: cs).reverse).getLast? = some c := by
        rw [List.getLast?_reverse]
        rfl
      rw [← hw, getLast?_dropWhile _ _ hne, List.getLast?_reverse] at h1
      exact head?_dropWhile_not _ _ _ h1
    have hl : isWhiteSpace ((c :: cs).getLast (by simp)) = false := by
      have h1 : ((c :: cs).reverse).head? = some ((c :: cs).getLast (by simp)) := by
        rw [List.head?_reverse, List.getLast?_eq_getLast]
      rw [← hw] at h1
      exact head?_dropWhile_not _ _ _ h1
    exact trim_eq_self c cs hc hl

theorem jsString_orEmptyString_str (l : Str) :
    jsString (orEmptyString (some (.str l))) = some l := by
  cases l <;> rfl

theorem ne_nil_of_isAddress_normal (a : Str) (h : isAddress (toLowerCase (trim a)) = true) :
    a ≠ [] := by
  rintro rfl
  exact absurd h (by decide)

theorem arrayLoop_entryJson (raw list : List WalletEntry)
    (h : ∀ w ∈ raw, isAddress (normalAddress w) = true) :
    arrayLoop (raw.map entryJson) list =
      some (list ++ raw.map (fun w => { address := normalAddress w, label := trim w.label })) := by
  induction raw generalizing list with
  | nil => simp [arrayLoop]
  | cons w rest ih =>
    have hw := h w (List.mem_cons_self _ _)
    have hne := ne_nil_of_isAddress_normal w.address hw
    have h1 : mapGet [("address".toList, Json.str w.address), ("label".toList, Json.str w.label)]
        "address".toList = some (Json.str w.address) := by
      simp [mapGet]
    have h2 : mapGet [("address".toList, Json.str w.address), ("label".toList, Json.str w.label)]
        "label".toList = some (Json.str w.label) := by
      simp [mapGet]
    have h3 : (Json.str w.address).truthy = true := by
      cases ha : w.address with
      | nil => exact absurd ha hne
      | cons _ _ => rfl
    have h4 : jsString (Json.str w.address) = some w.address := rfl
    unfold normalAddress at hw
    rw [List.map_cons, entryJson, arrayLoop]
    simp only [h1, h2, h3, h4, jsString_orEmptyString_str, hw, if_true]
    rw [ih _ (fun x hx => h x (List.mem_cons_of_mem _ hx))]
    simp [normalAddress]

/-- On a JSON array of `{address, label}` objects whose addresses pass the test
once trimmed and lower-cased, the result is `dedup` of the entries with their
addresses so normalised and their labels trimmed. -/
theorem parseWalletsText_entries (raw : List WalletEntry) (txt : Str)
    (h : ∀ w ∈ raw, isAddress (normalAddress w) = true) :
    parseWalletsText (some (.arr (raw.map entryJson))) txt =
      dedup (raw.map (fun w => { address := normalAddress w, label := trim w.label })) := by
  unfold parseWalletsText
  simp only [arrayLoop_entryJson raw [] h, List.nil_append]

theorem entriesLoop_entryPair (raw list : List WalletEntry)
    (h : ∀ w ∈ raw, isAddress (normalAddress w) = true) :
    entriesLoop (raw.map entryPair) list =
      some (list ++ raw.map (fun w => { address := normalAddress w, label := trim w.label })) := by
  induction raw generalizing list with
  | nil => simp [entriesLoop]
  | cons w rest ih =>
    have hw := h w (List.mem_cons_self _ _)
    unfold normalAddress at hw
    rw [List.map_cons, entryPair, entriesLoop]
    simp only [jsString_orEmptyString_str, hw, if_true]
    rw [ih _ (fun x hx => h x (List.mem_cons_of_mem _ hx))]
    simp [normalAddress]

/-- On a JSON map from addresses to string labels whose addresses pass the test
once trimmed and lower-cased, the result is `dedup` of the entries with their
addresses so normalised and their labels trimmed. -/
theorem parseWalletsText_map (raw : List WalletEntry) (txt : Str)
    (h : ∀ w ∈ raw, isAddress (normalAddress w) = true) :
    parseWalletsText (some (.obj (raw.map entryPair))) txt =
      dedup (raw.map (fun w => { address := normalAddress w, label := trim w.label })) := by
  unfold parseWalletsText
  simp only [entriesLoop_entryPair raw [] h, List.nil_append]

theorem dedup_normal_last (pre post : List WalletEntry) (w : WalletEntry)
    (hlast : ∀ x ∈ post, normalAddress x ≠ normalAddress w) :
    ({ address := normalAddress w, label := trim w.label } : WalletEntry) ∈
      dedup ((pre ++ w :: post).map
        (fun w => { address := normalAddress w, label := trim w.label })) := by
  rw [List.map_append, List.map_cons]
  have := dedup_last
    (pre.map (fun w => ({ address := normalAddress w, label := trim w.label } : WalletEntry)))
    (post.map (fun w => ({ address := normalAddress w, label := trim w.label } : WalletEntry)))
    { address := normalAddress w, label := trim w.label }
    (by
      intro x hx
      obtain ⟨y, hy, rfl⟩ := List.mem_map.mp hx
      exact hlast y hy)
  rw [trim_trim] at this
  exact this

/-- C21: for every input text and every value `JSON.parse` gives for it (an
array of strings or `{address, label}` objects, an address-to-label map,
anything else, or a failure, which lead to the reading as plain text), every
entry returned by `parseWalletsText` has an address that is `0x` followed by
exactly 40 lower-case hexadecimal digits, and no address occurs twice; in the
array-of-objects form and in the map form a repeated address carries the
(trimmed) label of its last occurrence. -/
theorem parseWalletsText_canonical (parsed : Option Json) (txt : Str) :
    (∀ e ∈ parseWalletsText parsed txt, LowerHexAddress e.address) ∧
    ((parseWalletsText parsed txt).map (fun e => e.address)).Nodup ∧
    (∀ (pre post : List WalletEntry) (w : WalletEntry),
      (∀ x ∈ pre ++ w :: post, isAddress (normalAddress x) = true) →
      (∀ x ∈ post, normalAddress x ≠ normalAddress w) →
      ({ address := normalAddress w, label := trim w.label } : WalletEntry) ∈
          parseWalletsText (some (.arr ((pre ++ w :: post).map entryJson))) txt ∧
        ({ address := normalAddress w, label := trim w.label } : WalletEntry) ∈
          parseWalletsText (some (.obj ((pre ++ w :: post).map entryPair))) txt) := by
  obtain ⟨arr, harr, haddr⟩ := parseWalletsText_eq_dedup parsed txt
  refine ⟨?_, ?_, ?_⟩
  · intro e he
    rw [harr] at he
    exact isAddress_spec _ (dedup_isAddress arr haddr e he)
  · rw [harr]
    exact dedup_nodup arr
  · intro pre post w hall hlast
    rw [parseWalletsText_entries _ txt hall, parseWalletsText_map _ txt hall]
    exact ⟨dedup_normal_last pre post w hlast, dedup_normal_last pre post w hlast⟩

set_option maxRecDepth 100000 in
/-- Witness of C21: a file in the array-of-objects form with one address twice,
in upper case and, with spaces around it, in lower case, and another address
between them; the same in the map form; and a plain text with a piece that is
not an address. -/
theorem parseWalletsText_canonical_witness :
    ((∀ e ∈ parseWalletsText (some walletsJson) walletsJsonText, LowerHexAddress e.address) ∧
      ((parseWalletsText (some walletsJson) walletsJsonText).map (fun e => e.address)).Nodup ∧
      ({ address := addrLower, label := "two".toList } : WalletEntry) ∈
        parseWalletsText (some walletsJson) walletsJsonText) ∧
    parseWalletsText (some walletsJson) walletsJsonText =
      [⟨addrLower, "two".toList⟩, ⟨addrOther, "mid".toList⟩] ∧
    parseWalletsText (some walletsMapJson) walletsMapText = [⟨addrLower, "two".toList⟩] ∧
    parseWalletsText none walletsText = [⟨addrLower, []⟩, ⟨addrOther, []⟩] :=
  ⟨⟨(parseWalletsText_canonical (some walletsJson) walletsJsonText).1,
      (parseWalletsText_canonical (some walletsJson) walletsJsonText).2.1,
      ((parseWalletsText_canonical (some walletsJson) walletsJsonText).2.2
        [⟨addrUpper, "one".toList⟩, ⟨addrOther, "mid".toList⟩] []
        ⟨" ".toList ++ addrLower, " two ".toList⟩ (by decide) (by decide)).1⟩,
    by decide, by decide, by decide⟩

/-! ## The two sides of a trade -/

theorem items_keys_nodup (deltas : JsMap Int) (hnd : KeysNodup deltas) :
    ((items deltas).map Prod.fst).Nodup := by
  have hp := (items_perm deltas).map Prod.fst
  rw [hp.nodup_iff]
  exact List.Nodup.sublist ((List.filter_sublist deltas).map Prod.fst) hnd

theorem items_nonzero (deltas : JsMap Int) (e : Str × Int) (he : e ∈ items deltas) :
    e.2 ≠ 0 := by
  have := ((items_perm deltas).mem_iff).mp he
  simpa using (List.mem_filter.mp this).2

/-- When some delta of the wallet is positive, the two sides chosen by the
two-or-more-legs branch are different tokens. -/
theorem twoLegs_sides_distinct (P : Nat) (tokenMeta : Str → TokenMeta) (wrap unwrap : Int)
    (deltas : JsMap Int) (hnd : KeysNodup deltas) (i0 i1 : Str × Int) (rest : List (Str × Int))
    (hitems : items deltas = i0 :: i1 :: rest) (hpos : ∃ e ∈ items deltas, 0 < e.2) :
    (twoLegs P tokenMeta wrap unwrap i0 i1 rest).posToken ≠
      (twoLegs P tokenMeta wrap unwrap i0 i1 rest).negToken := by
  have hk := items_keys_nodup deltas hnd
  have hnz := items_nonzero deltas
  rw [hitems] at hk hnz hpos
  have hinj := List.inj_on_of_nodup_map hk
  obtain ⟨e, he, hepos⟩ := hpos
  cases hf : (i0 :: i1 :: rest).find? (fun x => decide (x.2 > 0)) with
  | none =>
    have := List.find?_eq_none.mp hf e he
    exact absurd (by simpa using hepos) this
  | some x =>
    have hx : 0 < x.2 := by simpa using List.find?_some hf
    have hxm : x ∈ i0 :: i1 :: rest := List.mem_of_find?_eq_some hf
    cases hg : (i0 :: i1 :: rest).find? (fun x => decide (x.2 < 0)) with
    | some y =>
      have hy : y.2 < 0 := by simpa using List.find?_some hg
      have hym : y ∈ i0 :: i1 :: rest := List.mem_of_find?_eq_some hg
      simp only [twoLegs, hf, hg, Option.getD_some]
      intro h
      have := hinj hxm hym h
      rw [this] at hx
      omega
    | none =>
      have h0 : ¬ (i0.2 < 0) := by
        have := List.find?_eq_none.mp hg i0 (List.mem_cons_self _ _)
        simpa using this
      have h0nz := hnz i0 (List.mem_cons_self _ _)
      have h0pos : (fun x : Str × Int => decide (x.2 > 0)) i0 = true := by
        simp only [gt_iff_lt, decide_eq_true_eq]
        omega
      have hf0 : (i0 :: i1 :: rest).find? (fun x => decide (x.2 > 0)) = some i0 :=
        List.find?_cons_of_pos _ h0pos
      simp only [twoLegs, hf0, hg, Option.getD_some, Option.getD_none]
      intro h
      have h01 : i0 = i1 :=
        hinj (List.mem_cons_self _ _) (List.mem_cons_of_mem _ (List.mem_cons_self _ _)) h
      have hk2 := List.nodup_cons.mp hk
      rw [h01] at hk2
      exact hk2.1 (by simp)

/-- When every delta of the wallet is negative, the two-or-more-legs branch
takes the first item as the positive side and as the negative side. -/
theorem twoLegs_sides_same (P : Nat) (tokenMeta : Str → TokenMeta) (wrap unwrap : Int)
    (i0 i1 : Str × Int) (rest : List (Str × Int))
    (hneg : ∀ e ∈ i0 :: i1 :: rest, e.2 < 0) :
    ((twoLegs P tokenMeta wrap unwrap i0 i1 rest).posToken,
      (twoLegs P tokenMeta wrap unwrap i0 i1 rest).posValRaw) = i0 ∧
    ((twoLegs P tokenMeta wrap unwrap i0 i1 rest).negToken,
      (twoLegs P tokenMeta wrap unwrap i0 i1 rest).negValRaw) = i0 := by
  have h0 := hneg i0 (List.mem_cons_self _ _)
  have hf : (i0 :: i1 :: rest).find? (fun x => decide (x.2 > 0)) = none := by
    rw [List.find?_eq_none]
    intro e he
    have := hneg e he
    simp only [gt_iff_lt, decide_eq_true_eq, not_lt]
    omega
  have hg : (i0 :: i1 :: rest).find? (fun x => decide (x.2 < 0)) = some i0 :=
    List.find?_cons_of_pos _ (by simpa using h0)
  simp only [twoLegs, hf, hg, Option.getD_some, Option.getD_none]
  exact ⟨trivial, trivial⟩

set_option maxRecDepth 100000 in
/-- C22 at a failing input: the wallet sends 3 of `T` and 50 of `U` and receives
nothing; the branch takes `(T, -3)` as the positive side and as the negative
side. -/
theorem same_entry_both_sides_example :
    itemsOf [walletW] sendLogs walletW = some [(tokenT, -3), (tokenU, -50)] ∧
    (recordOf 190000000 scenarioMeta [walletW] routerR sendLogs walletW).bind
        TradeRecord.sides = some ((tokenT, -3), (tokenT, -3)) ∧
    (recordOf 190000000 scenarioMeta [walletW] routerR sendLogs walletW).map
        TradeRecord.summary = some ("SWAP".toList, "TKN/TKN".toList, none) := by
  decide

end ListenTrade
